import Mathlib

/-!
Verification of the core containers and graph algorithms of `algo.h`
(single-header C library: pool allocator, stack, ring-buffer queue, binary
heap, adjacency-list graph with BFS / DFS / topological sort).

Modelling conventions (shallow embedding of the C source):
* `int32_t` values are modelled as `Int`, `size_t` byte counts as `Nat`.
  The C arithmetic on these quantities stays far below 2^31 for every state
  reachable with realistic capacities, so no wrap-around is modelled.
* The `AlgoData` union (int32 / float / pointer payload, no runtime tag) is
  modelled by its `asInt` interpretation, which is the only interpretation
  the core containers and the graph code themselves read or write.
* Arrays are modelled as `List`s indexed with `List.getD` / `List.set`.
* A pointer into a pool arena is modelled as its byte offset from the arena
  base, so `pool + headIndex*elementSize` becomes `headIndex*elementSize`.
* Struct sizeof values are fixed to the LP64 layout; they only matter for
  the buffer-size bookkeeping, never for the container behaviour.
-/

/-- `AlgoError` return codes: kAlgoErrorNone, kAlgoErrorInvalidArgument,
kAlgoErrorOperationFailed. -/
inductive AlgoError where
  | none
  | invalidArgument
  | operationFailed
deriving DecidableEq, Repr

/-- The `AlgoData` tagged union, modelled by its `asInt` interpretation. -/
abbrev AlgoData := Int

/-- `algoDataFromInt`: wrap a signed integer as an `AlgoData`. -/
def algoDataFromInt (i : Int) : AlgoData := i

/-- `algoDataCompareIntAscending`: -1 / 1 / 0 as keyL compares to keyR. -/
def algoDataCompareIntAscending (keyL keyR : AlgoData) : Int :=
  if keyL < keyR then -1 else if keyL > keyR then 1 else 0

/-- sizeof(AlgoAllocPoolImpl) on LP64. -/
def sizeofAlgoAllocPoolImpl : Nat := 40

/-- sizeof(AlgoData) on LP64 (union of int32/float/pointer). -/
def sizeofAlgoData : Nat := 8

/-- sizeof(AlgoStackImpl) on LP64. -/
def sizeofAlgoStackImpl : Nat := 40

/-- sizeof(AlgoQueueImpl) on LP64. -/
def sizeofAlgoQueueImpl : Nat := 48

/-- sizeof(AlgoHeapImpl) on LP64. -/
def sizeofAlgoHeapImpl : Nat := 40

/-- sizeof(AlgoHeapNode) on LP64 (two AlgoData fields). -/
def sizeofAlgoHeapNode : Nat := 16

/-!
## Pool allocator (`AlgoAllocPool`)

State of `AlgoAllocPoolImpl`: element size/count, the free-list head index
(`-1` = empty), and the arena contents.  Only the first four bytes of each
free block are ever read or written (the free-list link), so the arena is
modelled as the list `cells` of those per-block int32 links.
-/

structure AlgoAllocPool where
  elementSize : Nat
  elementCount : Nat
  headIndex : Int
  cells : List Int
deriving DecidableEq, Repr

/-- `algoAllocPoolComputeBufferSize`: fails on a NULL out pointer (not
modelled), `elementSize < 4` or `elementCount < 1`; otherwise returns
`sizeof(AlgoAllocPoolImpl) + elementCount*elementSize`. -/
def algoAllocPoolComputeBufferSize (elementSize elementCount : Int) :
    Except AlgoError Nat :=
  if elementSize < 4 ∨ elementCount < 1 then .error .invalidArgument
  else .ok (sizeofAlgoAllocPoolImpl + (elementCount * elementSize).toNat)

/-- `algoAllocPoolCreate` (buffer carving elided): validates the parameters
and builds the initial state, all blocks free and chained in order
(`cells[i] = i+1`, last link `-1`, `headIndex = 0`). -/
def algoAllocPoolCreate (elementSize elementCount : Int) :
    Except AlgoError AlgoAllocPool :=
  if elementSize < 4 ∨ elementCount < 1 then .error .invalidArgument
  else .ok
    { elementSize := elementSize.toNat
      elementCount := elementCount.toNat
      headIndex := 0
      cells := (List.range elementCount.toNat).map
        (fun i => if i + 1 < elementCount.toNat then ((i : Int) + 1) else -1) }

/-- `algoAllocPoolAlloc`: fails with OperationFailed when `headIndex == -1`;
otherwise returns the byte offset `headIndex*elementSize` of the head block
and advances `headIndex` to the link stored in that block. -/
def algoAllocPoolAlloc (p : AlgoAllocPool) :
    Except AlgoError (Nat × AlgoAllocPool) :=
  if p.headIndex = -1 then .error .operationFailed
  else
    .ok (p.headIndex.toNat * p.elementSize,
      { p with headIndex := p.cells.getD p.headIndex.toNat 0 })

/-- `algoAllocPoolFree`: freeing NULL (`Option.none`) is a no-op success.  A
non-null pointer is its byte offset from the arena base; it must lie inside
the arena and on an element boundary (pointers below the arena base have no
offset representation and are likewise rejected by the C code).  On success
the freed block stores the old head index and becomes the new head. -/
def algoAllocPoolFree (p : AlgoAllocPool) (ptr : Option Nat) :
    Except AlgoError AlgoAllocPool :=
  match ptr with
  | Option.none => .ok p
  | Option.some offset =>
    if offset ≥ p.elementCount * p.elementSize ∨ offset % p.elementSize ≠ 0 then
      .error .invalidArgument
    else
      .ok { p with
        cells := p.cells.set (offset / p.elementSize) p.headIndex
        headIndex := ((offset / p.elementSize : Nat) : Int) }

/-- Run `k` successive `algoAllocPoolAlloc` calls, collecting the returned
offsets; stops at the first failure. -/
def allocRun (p : AlgoAllocPool) : Nat → Except AlgoError (List Nat × AlgoAllocPool)
  | 0 => .ok ([], p)
  | k + 1 =>
    match algoAllocPoolAlloc p with
    | .error e => .error e
    | .ok (off, p2) =>
      match allocRun p2 k with
      | .error e => .error e
      | .ok (offs, p3) => .ok (off :: offs, p3)

/-- The pool free list, starting at `headIndex` and following the per-block
links, is exactly the index list `l`. -/
def FreeListIs (p : AlgoAllocPool) : List Nat → Prop
  | [] => p.headIndex = -1
  | i :: rest =>
    p.headIndex = (i : Int) ∧
      FreeListIs { p with headIndex := p.cells.getD i 0 } rest

/-- Structural well-formedness of a pool state: the invariants
`elementSize >= 4`, `elementCount >= 1` from the source, and the arena holds
one link cell per block. -/
def PoolWF (p : AlgoAllocPool) : Prop :=
  4 ≤ p.elementSize ∧ 1 ≤ p.elementCount ∧ p.cells.length = p.elementCount

/-- The concrete pool of scenario S3: elementSize=8, elementCount=3. -/
def poolS3 : AlgoAllocPool :=
  { elementSize := 8, elementCount := 3, headIndex := 0, cells := [1, 2, -1] }

/-!
## Stack (`AlgoStack`)

`AlgoStackImpl` holds `capacity`, `top` and the `nodes[capacity]` array; the
cells at index `>= top` are never read, so the model tracks the live prefix
`nodes[0..top)` as a list and `top` is its length.
-/

structure AlgoStack where
  capacity : Int
  nodes : List AlgoData
deriving DecidableEq, Repr

/-- `top`: index of the next empty element; equals the live-prefix length. -/
def AlgoStack.top (s : AlgoStack) : Int := (s.nodes.length : Int)

/-- `iStackIsEmpty`: `top == 0`. -/
def iStackIsEmpty (s : AlgoStack) : Bool := s.top = 0

/-- `iStackIsFull`: `top == capacity`. -/
def iStackIsFull (s : AlgoStack) : Bool := s.top = s.capacity

/-- `algoStackComputeBufferSize`: InvalidArgument when `stackCapacity < 1`,
else `sizeof(AlgoStackImpl) + stackCapacity*sizeof(AlgoData)`. -/
def algoStackComputeBufferSize (stackCapacity : Int) : Except AlgoError Nat :=
  if stackCapacity < 1 then .error .invalidArgument
  else .ok (sizeofAlgoStackImpl + stackCapacity.toNat * sizeofAlgoData)

/-- `algoStackCreate` (buffer carving elided): empty stack of the given
capacity; InvalidArgument when `stackCapacity < 1`. -/
def algoStackCreate (stackCapacity : Int) : Except AlgoError AlgoStack :=
  if stackCapacity < 1 then .error .invalidArgument
  else .ok { capacity := stackCapacity, nodes := [] }

/-- `algoStackResize`: reject `newStackCapacity < 1`, then a too-small
`bufferSize` for the new capacity, then refuse (OperationFailed, state
unchanged) when the current element count exceeds the new capacity;
otherwise only the `capacity` field changes. -/
def algoStackResize (s : AlgoStack) (newStackCapacity : Int) (bufferSize : Nat) :
    AlgoError × AlgoStack :=
  if newStackCapacity < 1 then (.invalidArgument, s)
  else
    match algoStackComputeBufferSize newStackCapacity with
    | .error e => (e, s)
    | .ok minBufferSize =>
      if bufferSize < minBufferSize then (.invalidArgument, s)
      else
        let currentElemCount := s.top
        if currentElemCount > newStackCapacity then (.operationFailed, s)
        else (.none, { s with capacity := newStackCapacity })

/-- `algoStackPush`: OperationFailed when full, else `nodes[top++] = elem`. -/
def algoStackPush (s : AlgoStack) (elem : AlgoData) : AlgoError × AlgoStack :=
  if iStackIsFull s then (.operationFailed, s)
  else (.none, { s with nodes := s.nodes ++ [elem] })

/-- `algoStackPop`: OperationFailed when empty, else `*outElem = nodes[--top]`. -/
def algoStackPop (s : AlgoStack) : Except AlgoError (AlgoData × AlgoStack) :=
  if iStackIsEmpty s then .error .operationFailed
  else .ok (s.nodes.getLastD 0, { s with nodes := s.nodes.dropLast })

/-- `algoStackGetCurrentSize`: returns `top`. -/
def algoStackGetCurrentSize (s : AlgoStack) : Int := s.top

/-!
## Queue (`AlgoQueue`)

Faithful ring buffer over `nodeCount = capacity+1` slots; `nodes` is the
whole physical slot array (its unreachable cells are junk, initialised to 0
here where the C leaves them uninitialised).
-/

structure AlgoQueue where
  nodeCount : Nat
  capacity : Int
  head : Nat
  tail : Nat
  nodes : List AlgoData
deriving DecidableEq, Repr

/-- `iQueueIsEmpty`: `head == tail`. -/
def iQueueIsEmpty (q : AlgoQueue) : Bool := q.head = q.tail

/-- `iQueueIsFull`: `head == (tail+1) % nodeCount`. -/
def iQueueIsFull (q : AlgoQueue) : Bool := q.head = (q.tail + 1) % q.nodeCount

/-- `algoQueueComputeBufferSize`: InvalidArgument when `queueCapacity < 1`,
else `sizeof(AlgoQueueImpl) + (queueCapacity+1)*sizeof(AlgoData)`. -/
def algoQueueComputeBufferSize (queueCapacity : Int) : Except AlgoError Nat :=
  if queueCapacity < 1 then .error .invalidArgument
  else .ok (sizeofAlgoQueueImpl + (queueCapacity.toNat + 1) * sizeofAlgoData)

/-- `algoQueueCreate` (buffer carving elided): empty ring buffer with one
sentinel slot; InvalidArgument when `queueCapacity < 1`. -/
def algoQueueCreate (queueCapacity : Int) : Except AlgoError AlgoQueue :=
  if queueCapacity < 1 then .error .invalidArgument
  else .ok
    { nodeCount := queueCapacity.toNat + 1
      capacity := queueCapacity
      head := 0
      tail := 0
      nodes := List.replicate (queueCapacity.toNat + 1) 0 }

/-- `algoQueueInsert`: OperationFailed when full, else write at `tail` and
advance `tail` modulo `nodeCount`. -/
def algoQueueInsert (q : AlgoQueue) (elem : AlgoData) : AlgoError × AlgoQueue :=
  if iQueueIsFull q then (.operationFailed, q)
  else (.none,
    { q with nodes := q.nodes.set q.tail elem, tail := (q.tail + 1) % q.nodeCount })

/-- `algoQueueRemove`: OperationFailed when empty, else read at `head` and
advance `head` modulo `nodeCount`. -/
def algoQueueRemove (q : AlgoQueue) : Except AlgoError (AlgoData × AlgoQueue) :=
  if iQueueIsEmpty q then .error .operationFailed
  else .ok (q.nodes.getD q.head 0, { q with head := (q.head + 1) % q.nodeCount })

/-- `algoQueueGetCurrentSize`: `(tail + nodeCount - head) % nodeCount`. -/
def algoQueueGetCurrentSize (q : AlgoQueue) : Nat :=
  (q.tail + q.nodeCount - q.head) % q.nodeCount

/-- Abstraction of the ring buffer as the list of stored elements, front
first: the `queueCurrentSize` cells starting at `head`, wrapping mod
`nodeCount`. -/
def queueList (q : AlgoQueue) : List AlgoData :=
  (List.range (algoQueueGetCurrentSize q)).map
    (fun i => q.nodes.getD ((q.head + i) % q.nodeCount) 0)

/-!
## Heap (`AlgoHeap`)

`AlgoHeapImpl` holds the comparator, `capacity`, the 1-based cursor
`nextEmpty` and the `nodes[capacity+1]` array whose slot 0 is unused.  The
model tracks the prefix `nodes[0..nextEmpty)` (slot 0 is a dummy), so
`nextEmpty` is the length of `nodes`.
-/

structure AlgoHeapNode where
  key : AlgoData
  data : AlgoData
deriving DecidableEq, Repr

instance : Inhabited AlgoHeapNode := ⟨⟨0, 0⟩⟩

structure AlgoHeap where
  keyCompare : AlgoData → AlgoData → Int
  capacity : Int
  nodes : List AlgoHeapNode

/-- `kAlgoHeapRootIndex = 1`. -/
def kAlgoHeapRootIndex : Nat := 1

/-- 1-based write cursor; slot `0` is the dummy, so it is the model length. -/
def AlgoHeap.nextEmpty (h : AlgoHeap) : Nat := h.nodes.length

/-- `iHeapCurrentSize`: `nextEmpty - kAlgoHeapRootIndex`. -/
def iHeapCurrentSize (h : AlgoHeap) : Int :=
  (h.nextEmpty : Int) - (kAlgoHeapRootIndex : Int)

/-- `iHeapSwapNodes`: exchange `nodes[index1]` and `nodes[index2]`. -/
def iHeapSwapNodes (nodes : List AlgoHeapNode) (index1 index2 : Nat) :
    List AlgoHeapNode :=
  (nodes.set index1 (nodes.getD index2 default)).set index2
    (nodes.getD index1 default)

/-- `algoHeapComputeBufferSize`: only a NULL out pointer (not modelled) is
rejected; the capacity is not validated.  Returns
`sizeof(AlgoHeapImpl) + (heapCapacity+1)*sizeof(AlgoHeapNode)` (on a
negative capacity the C size_t product wraps; the model clamps at 0, which
no claim depends on). -/
def algoHeapComputeBufferSize (heapCapacity : Int) : Except AlgoError Nat :=
  .ok (sizeofAlgoHeapImpl +
    ((heapCapacity + (kAlgoHeapRootIndex : Int)).toNat * sizeofAlgoHeapNode))

/-- `algoHeapCreate` (buffer carving elided): rejects only a NULL out
pointer / comparator / buffer or a too-small buffer (none of which are
modelled); the capacity is not validated.  Starts empty
(`nextEmpty = kAlgoHeapRootIndex`). -/
def algoHeapCreate (heapCapacity : Int)
    (keyCompare : AlgoData → AlgoData → Int) : Except AlgoError AlgoHeap :=
  .ok { keyCompare := keyCompare, capacity := heapCapacity, nodes := [default] }

/-- The bubble-up loop of `algoHeapInsert`: while the node at `childIndex`
has a parent with a strictly greater key, swap with the parent.  The fuel
argument only bounds the iteration count; the index strictly decreases
every iteration and the loop exits at index <= 1, so with the fuel
`iHeapBubbleUp` supplies the loop is never cut short (at fuel 0 the index
is 0 and the guard is false anyway). -/
def iHeapBubbleUpLoop (cmp : AlgoData → AlgoData → Int) :
    Nat → List AlgoHeapNode → Nat → List AlgoHeapNode
  | 0, nodes, _ => nodes
  | fuel + 1, nodes, childIndex =>
    if kAlgoHeapRootIndex < childIndex then
      if cmp (nodes.getD (childIndex / 2) default).key
          (nodes.getD childIndex default).key ≤ 0 then nodes
      else iHeapBubbleUpLoop cmp fuel
        (iHeapSwapNodes nodes (childIndex / 2) childIndex) (childIndex / 2)
    else nodes

/-- The bubble-up loop entered at `childIndex`. -/
def iHeapBubbleUp (cmp : AlgoData → AlgoData → Int)
    (nodes : List AlgoHeapNode) (childIndex : Nat) : List AlgoHeapNode :=
  iHeapBubbleUpLoop cmp childIndex nodes childIndex

/-- `algoHeapInsert`: OperationFailed when full; otherwise place the new
node at `nextEmpty`, advance the cursor, and bubble up. -/
def algoHeapInsert (h : AlgoHeap) (key data : AlgoData) : AlgoError × AlgoHeap :=
  if iHeapCurrentSize h ≥ h.capacity then (.operationFailed, h)
  else
    let childIndex := h.nextEmpty
    let nodes := h.nodes ++ [⟨key, data⟩]
    (.none, { h with nodes := iHeapBubbleUp h.keyCompare nodes childIndex })

/-- One `minKeyIndex` computation of the bubble-down loop of `algoHeapPop`:
the smaller of `nodes[parentIndex]` and its (present) children, preferring
the parent on ties. -/
def iHeapMinKeyIndex (cmp : AlgoData → AlgoData → Int) (nextEmpty : Nat)
    (nodes : List AlgoHeapNode) (parentIndex : Nat) : Nat :=
  let leftChildIndex := 2 * parentIndex
  let rightChildIndex := 2 * parentIndex + 1
  let m1 := if cmp (nodes.getD leftChildIndex default).key
      (nodes.getD parentIndex default).key < 0 then leftChildIndex else parentIndex
  if rightChildIndex < nextEmpty ∧ cmp (nodes.getD rightChildIndex default).key
      (nodes.getD m1 default).key < 0 then rightChildIndex else m1

/-- The bubble-down loop of `algoHeapPop`: while a left child is in range,
swap the current node with the smaller of its children (the `minKeyIndex`
of the C loop body, recomputed here at each of its uses) unless the
current node is already smallest.  `nextEmpty` is the (pre-decrement)
bound used by the C loop.  The fuel argument only bounds the iteration
count; the index strictly increases towards `nextEmpty` every iteration,
so with the fuel `iHeapBubbleDown` supplies the loop is never cut short
(at fuel 0 the index is at least `nextEmpty` and the guard is false
anyway). -/
def iHeapBubbleDownLoop (cmp : AlgoData → AlgoData → Int) (nextEmpty : Nat) :
    Nat → List AlgoHeapNode → Nat → List AlgoHeapNode
  | 0, nodes, _ => nodes
  | fuel + 1, nodes, parentIndex =>
    if 2 * parentIndex < nextEmpty then
      if iHeapMinKeyIndex cmp nextEmpty nodes parentIndex = parentIndex then nodes
      else iHeapBubbleDownLoop cmp nextEmpty fuel
        (iHeapSwapNodes nodes parentIndex
          (iHeapMinKeyIndex cmp nextEmpty nodes parentIndex))
        (iHeapMinKeyIndex cmp nextEmpty nodes parentIndex)
    else nodes

/-- The bubble-down loop entered at `parentIndex`. -/
def iHeapBubbleDown (cmp : AlgoData → AlgoData → Int) (nextEmpty : Nat)
    (nodes : List AlgoHeapNode) (parentIndex : Nat) : List AlgoHeapNode :=
  iHeapBubbleDownLoop cmp nextEmpty (nextEmpty - parentIndex) nodes parentIndex

/-- `algoHeapPop`: OperationFailed when empty; otherwise report the root
key/data, move the last node to the root, bubble down (with the
pre-decrement bound, exactly as the C loop does), then decrement
`nextEmpty`. -/
def algoHeapPop (h : AlgoHeap) : Except AlgoError (AlgoData × AlgoData × AlgoHeap) :=
  if iHeapCurrentSize h = 0 then .error .operationFailed
  else
    let outTopKey := (h.nodes.getD kAlgoHeapRootIndex default).key
    let outTopData := (h.nodes.getD kAlgoHeapRootIndex default).data
    let lastIndex := h.nextEmpty - 1
    let moved := h.nodes.set kAlgoHeapRootIndex (h.nodes.getD lastIndex default)
    let sifted := iHeapBubbleDown h.keyCompare h.nextEmpty moved kAlgoHeapRootIndex
    .ok (outTopKey, outTopData, { h with nodes := sifted.take (h.nextEmpty - 1) })

/-- The heap-order invariant of the spec: for all `i ∈ [2, nextEmpty)`,
`keyCompare(nodes[i/2].key, nodes[i].key) <= 0`. -/
def HeapProp (h : AlgoHeap) : Prop :=
  ∀ i, 2 ≤ i → i < h.nextEmpty →
    h.keyCompare (h.nodes.getD (i / 2) default).key
      (h.nodes.getD i default).key ≤ 0

/-- The comparator laws the library requires of a heap comparator (a total
preorder presented sign-wise; the shipped int/float comparators satisfy
them): the sign of `cmp a b` is the negation of the sign of `cmp b a`, and
`cmp _ _ <= 0` is transitive. -/
def LawfulCompare (cmp : AlgoData → AlgoData → Int) : Prop :=
  (∀ a b, Int.sign (cmp a b) = -Int.sign (cmp b a)) ∧
  (∀ a b c, cmp a b ≤ 0 → cmp b c ≤ 0 → cmp a c ≤ 0)

/-- Heap states reachable from `algoHeapCreate` by `algoHeapInsert` and
`algoHeapPop` calls (each op taken at its post-state whether it succeeded
or failed). -/
inductive HeapReachable (cmp : AlgoData → AlgoData → Int) : AlgoHeap → Prop where
  | create (heapCapacity : Int) (h : AlgoHeap)
      (hc : algoHeapCreate heapCapacity cmp = .ok h) : HeapReachable cmp h
  | insert (h : AlgoHeap) (key data : AlgoData) (hr : HeapReachable cmp h) :
      HeapReachable cmp (algoHeapInsert h key data).2
  | pop (h h2 : AlgoHeap) (key data : AlgoData) (hr : HeapReachable cmp h)
      (hp : algoHeapPop h = .ok (key, data, h2)) : HeapReachable cmp h2

/-- Repeatedly pop until empty (fuel-driven; `fuel >= size` empties the
heap), collecting the popped keys in order. -/
def heapPopAllKeys (h : AlgoHeap) : Nat → List AlgoData
  | 0 => []
  | fuel + 1 =>
    match algoHeapPop h with
    | .error _ => []
    | .ok (key, _, h2) => key :: heapPopAllKeys h2 fuel

/-- The multiset of live nodes (slots `1..nextEmpty`). -/
def heapLive (h : AlgoHeap) : Multiset AlgoHeapNode := ↑h.nodes.tail

/-- The heap built by the S2 scenario: int-ascending comparator, capacity 8,
keys 5,3,8,1,4 inserted in that order (data mirrors the key). -/
def heapS2 : AlgoHeap :=
  [(5, 5), (3, 3), (8, 8), (1, 1), (4, 4)].foldl
    (fun h kd => (algoHeapInsert h kd.1 kd.2).2)
    { keyCompare := algoDataCompareIntAscending, capacity := 8, nodes := [default] }

/-!
## Graph (`AlgoGraph`)

`AlgoGraphImpl`, with its parallel per-vertex arrays as lists and each
adjacency linked list of `AlgoGraphEdge{destVertex, weight, next}` nodes as
a `List AlgoGraphEdge`.  The edge pool is used by the graph code strictly
as an allocation counter (every node freed was previously allocated, and a
node's identity is never observable through the public API), so it is
modelled by its free-block count: `algoAllocPoolAlloc` succeeds exactly
when the count is nonzero, `algoAllocPoolFree` increments it.
-/

inductive AlgoGraphEdgeMode where
  | undirected
  | directed
deriving DecidableEq, Repr

structure AlgoGraphEdge where
  destVertex : Int
  weight : Int
deriving DecidableEq, Repr

structure AlgoGraphImpl where
  vertexCapacity : Int
  edgeCapacity : Int
  currentVertexCount : Int
  currentEdgeCount : Int
  nextFreeVertexId : Int
  edgeMode : AlgoGraphEdgeMode
  vertexDegrees : List Int
  vertexData : List AlgoData
  validVertexIds : List Int
  vertexIdToValidIndex : List Int
  vertexEdges : List (List AlgoGraphEdge)
  edgePoolFreeCount : Nat
deriving DecidableEq, Repr

/-- `nodesPerEdge`: 1 for directed graphs, 2 for undirected. -/
def iGraphNodesPerEdge (edgeMode : AlgoGraphEdgeMode) : Nat :=
  match edgeMode with
  | .directed => 1
  | .undirected => 2

/-- `iGraphIsValidVertexId`: in range and `vertexDegrees[id] >= 0`. -/
def iGraphIsValidVertexId (g : AlgoGraphImpl) (vertexId : Int) : Bool :=
  decide (0 ≤ vertexId) && decide (vertexId < g.vertexCapacity) &&
    decide (0 ≤ g.vertexDegrees.getD vertexId.toNat (-1))

/-- Remove the first node with the given destination from an adjacency
list; `Option.none` when no such node exists. -/
def iListRemoveFirstEdge (destVertexId : Int) :
    List AlgoGraphEdge → Option (List AlgoGraphEdge)
  | [] => Option.none
  | e :: rest =>
    if e.destVertex = destVertexId then Option.some rest
    else
      match iListRemoveFirstEdge destVertexId rest with
      | Option.none => Option.none
      | Option.some rest2 => Option.some (e :: rest2)

/-- `iGraphRemoveEdgeFromList`: find and unlink the single `src -> dest`
node, free it back to the pool and decrement the source degree; returns
whether a node was removed.  Edge-count upkeep and the symmetric removal
are the callers' responsibility, as in the source. -/
def iGraphRemoveEdgeFromList (g : AlgoGraphImpl) (srcVertexId destVertexId : Int) :
    Bool × AlgoGraphImpl :=
  match iListRemoveFirstEdge destVertexId (g.vertexEdges.getD srcVertexId.toNat []) with
  | Option.none => (false, g)
  | Option.some newList =>
    (true, { g with
      vertexEdges := g.vertexEdges.set srcVertexId.toNat newList
      edgePoolFreeCount := g.edgePoolFreeCount + 1
      vertexDegrees := g.vertexDegrees.set srcVertexId.toNat
        (g.vertexDegrees.getD srcVertexId.toNat (-1) - 1) })

/-- `algoGraphCreate` (buffer carving elided): rejects
`vertexCapacity <= 0` or `edgeCapacity <= 0`; all vertex slots start
invalid (degree `-1`) with the free list threaded through `vertexData`
(`vertexData[i].asInt = i+1`, last `-1`), empty adjacency lists, and an
edge pool of `edgeCapacity * nodesPerEdge` free nodes.  `validVertexIds`
and `vertexIdToValidIndex` are left uninitialised by the C code; the model
zero-fills them (only the first `currentVertexCount = 0` entries are
meaningful). -/
def algoGraphCreate (vertexCapacity edgeCapacity : Int)
    (edgeMode : AlgoGraphEdgeMode) : Except AlgoError AlgoGraphImpl :=
  if vertexCapacity ≤ 0 ∨ edgeCapacity ≤ 0 then .error .invalidArgument
  else .ok
    { vertexCapacity := vertexCapacity
      edgeCapacity := edgeCapacity
      currentVertexCount := 0
      currentEdgeCount := 0
      nextFreeVertexId := 0
      edgeMode := edgeMode
      vertexDegrees := List.replicate vertexCapacity.toNat (-1)
      vertexData := (List.range vertexCapacity.toNat).map
        (fun i => if i + 1 < vertexCapacity.toNat then ((i : Int) + 1) else -1)
      validVertexIds := List.replicate vertexCapacity.toNat 0
      vertexIdToValidIndex := List.replicate vertexCapacity.toNat 0
      vertexEdges := List.replicate vertexCapacity.toNat []
      edgePoolFreeCount := edgeCapacity.toNat * iGraphNodesPerEdge edgeMode }

/-- `algoGraphAddVertex`: OperationFailed when at capacity; otherwise pop
the free-list head, give it degree 0, an empty edge list and the user
data, append it to `validVertexIds` and record the reverse lookup. -/
def algoGraphAddVertex (g : AlgoGraphImpl) (vertexData : AlgoData) :
    AlgoError × Option Int × AlgoGraphImpl :=
  if g.currentVertexCount ≥ g.vertexCapacity then (.operationFailed, Option.none, g)
  else
    let newVertexId := g.nextFreeVertexId
    (.none, Option.some newVertexId, { g with
      nextFreeVertexId := g.vertexData.getD newVertexId.toNat 0
      vertexDegrees := g.vertexDegrees.set newVertexId.toNat 0
      vertexEdges := g.vertexEdges.set newVertexId.toNat []
      vertexData := g.vertexData.set newVertexId.toNat vertexData
      validVertexIds := g.validVertexIds.set g.currentVertexCount.toNat newVertexId
      vertexIdToValidIndex :=
        g.vertexIdToValidIndex.set newVertexId.toNat g.currentVertexCount
      currentVertexCount := g.currentVertexCount + 1 })

/-- The undirected branch of `algoGraphRemoveVertex`: walk the victim's
outgoing list; for each edge remove the symmetric `dest -> victim` node
from the destination list, then free the outgoing node and decrement the
edge count.  The traversal list is the victim's list as read at loop entry
(the destination-list removals never touch it, since a well-formed
undirected graph has no self-edges). -/
def iGraphRemoveVertexUndirectedLoop (vertexId : Int) (g : AlgoGraphImpl) :
    List AlgoGraphEdge → AlgoGraphImpl
  | [] => g
  | outEdge :: rest =>
    let g1 := (iGraphRemoveEdgeFromList g outEdge.destVertex vertexId).2
    let g2 := { g1 with
      edgePoolFreeCount := g1.edgePoolFreeCount + 1
      currentEdgeCount := g1.currentEdgeCount - 1 }
    iGraphRemoveVertexUndirectedLoop vertexId g2 rest

/-- The directed branch of `algoGraphRemoveVertex` after the victim's own
list is freed: for each currently-valid vertex id, strip any single edge
pointing at the victim and decrement the edge count when one was found. -/
def iGraphRemoveVertexDirectedStrip (vertexId : Int) (g : AlgoGraphImpl) :
    List Int → AlgoGraphImpl
  | [] => g
  | srcVertexId :: rest =>
    if iGraphIsValidVertexId g srcVertexId then
      let (removed, g1) := iGraphRemoveEdgeFromList g srcVertexId vertexId
      let g2 := { g1 with
        currentEdgeCount := g1.currentEdgeCount - (if removed then 1 else 0) }
      iGraphRemoveVertexDirectedStrip vertexId g2 rest
    else iGraphRemoveVertexDirectedStrip vertexId g rest

/-- `algoGraphRemoveVertex`: InvalidArgument for an invalid id; otherwise
remove all incident edges (symmetric pairs for undirected graphs; an
outgoing sweep plus an incoming sweep over all valid vertices for directed
graphs), push the slot onto the vertex free list, swap-with-last in
`validVertexIds` fixing the reverse lookup, and invalidate the slot. -/
def algoGraphRemoveVertex (g : AlgoGraphImpl) (vertexId : Int) :
    AlgoError × AlgoGraphImpl :=
  if ¬ iGraphIsValidVertexId g vertexId then (.invalidArgument, g)
  else
    let g1 :=
      match g.edgeMode with
      | .undirected =>
        iGraphRemoveVertexUndirectedLoop vertexId g
          (g.vertexEdges.getD vertexId.toNat [])
      | .directed =>
        let outList := g.vertexEdges.getD vertexId.toNat []
        let ga := { g with
          edgePoolFreeCount := g.edgePoolFreeCount + outList.length
          currentEdgeCount := g.currentEdgeCount - (outList.length : Int)
          vertexDegrees := g.vertexDegrees.set vertexId.toNat 0
          vertexEdges := g.vertexEdges.set vertexId.toNat [] }
        iGraphRemoveVertexDirectedStrip vertexId ga
          (ga.validVertexIds.take ga.currentVertexCount.toNat)
    let g2 := { g1 with
      vertexData := g1.vertexData.set vertexId.toNat g1.nextFreeVertexId
      nextFreeVertexId := vertexId }
    let destValidIndex := g2.vertexIdToValidIndex.getD vertexId.toNat 0
    let finalValidVertexId :=
      g2.validVertexIds.getD (g2.currentVertexCount - 1).toNat 0
    (.none, { g2 with
      validVertexIds := g2.validVertexIds.set destValidIndex.toNat finalValidVertexId
      vertexIdToValidIndex :=
        g2.vertexIdToValidIndex.set finalValidVertexId.toNat destValidIndex
      currentVertexCount := g2.currentVertexCount - 1
      vertexDegrees := g2.vertexDegrees.set vertexId.toNat (-1)
      vertexEdges := g2.vertexEdges.set vertexId.toNat [] })

/-- `algoGraphAddEdge`: InvalidArgument on an invalid endpoint or a
self-edge.  Scan the source list: if the edge is already present return
success with no change.  Otherwise allocate a node (OperationFailed when
the pool is exhausted) and push it at the head of the source list; for
undirected graphs do the symmetric scan-and-insert for `dest -> src` (a
second-allocation failure leaves the first direction in place, as in the
source).  The logical edge count is incremented once. -/
def algoGraphAddEdge (g : AlgoGraphImpl) (srcVertexId destVertexId : Int) :
    AlgoError × AlgoGraphImpl :=
  if ¬ iGraphIsValidVertexId g srcVertexId ∨ ¬ iGraphIsValidVertexId g destVertexId ∨
      srcVertexId = destVertexId then
    (.invalidArgument, g)
  else if (g.vertexEdges.getD srcVertexId.toNat []).any
      (fun e => e.destVertex = destVertexId) then
    (.none, g)
  else if g.edgePoolFreeCount = 0 then
    (.operationFailed, g)
  else
    let newEdge : AlgoGraphEdge := { destVertex := destVertexId, weight := 0 }
    let g1 := { g with
      vertexEdges := g.vertexEdges.set srcVertexId.toNat
        (newEdge :: g.vertexEdges.getD srcVertexId.toNat [])
      vertexDegrees := g.vertexDegrees.set srcVertexId.toNat
        (g.vertexDegrees.getD srcVertexId.toNat (-1) + 1)
      edgePoolFreeCount := g.edgePoolFreeCount - 1 }
    match g.edgeMode with
    | .directed => (.none, { g1 with currentEdgeCount := g1.currentEdgeCount + 1 })
    | .undirected =>
      if (g1.vertexEdges.getD destVertexId.toNat []).any
          (fun e => e.destVertex = srcVertexId) then
        (.none, g1)
      else if g1.edgePoolFreeCount = 0 then
        (.operationFailed, g1)
      else
        let newEdge2 : AlgoGraphEdge := { destVertex := srcVertexId, weight := 0 }
        let g2 := { g1 with
          vertexEdges := g1.vertexEdges.set destVertexId.toNat
            (newEdge2 :: g1.vertexEdges.getD destVertexId.toNat [])
          vertexDegrees := g1.vertexDegrees.set destVertexId.toNat
            (g1.vertexDegrees.getD destVertexId.toNat (-1) + 1)
          edgePoolFreeCount := g1.edgePoolFreeCount - 1 }
        (.none, { g2 with currentEdgeCount := g2.currentEdgeCount + 1 })

/-- `algoGraphRemoveEdge`: InvalidArgument on an invalid endpoint;
OperationFailed when the edge (or, for undirected graphs, its mirror) is
absent; on success the logical edge count is decremented once. -/
def algoGraphRemoveEdge (g : AlgoGraphImpl) (srcVertexId destVertexId : Int) :
    AlgoError × AlgoGraphImpl :=
  if ¬ iGraphIsValidVertexId g srcVertexId ∨ ¬ iGraphIsValidVertexId g destVertexId then
    (.invalidArgument, g)
  else
    let (removed, g1) := iGraphRemoveEdgeFromList g srcVertexId destVertexId
    if ¬ removed then (.operationFailed, g1)
    else
      match g.edgeMode with
      | .undirected =>
        let (removed2, g2) := iGraphRemoveEdgeFromList g1 destVertexId srcVertexId
        if ¬ removed2 then (.operationFailed, g2)
        else (.none, { g2 with currentEdgeCount := g2.currentEdgeCount - 1 })
      | .directed => (.none, { g1 with currentEdgeCount := g1.currentEdgeCount - 1 })

/-- `algoGraphSetVertexData`: InvalidArgument on an invalid id, else store
the tagged value. -/
def algoGraphSetVertexData (g : AlgoGraphImpl) (vertexId : Int) (value : AlgoData) :
    AlgoError × AlgoGraphImpl :=
  if ¬ iGraphIsValidVertexId g vertexId then (.invalidArgument, g)
  else (.none, { g with vertexData := g.vertexData.set vertexId.toNat value })

/-- Graph states reachable from `algoGraphCreate` through the public
mutators (each op taken at its post-state whether it succeeded or not). -/
inductive GraphReachable : AlgoGraphImpl → Prop where
  | create (vertexCapacity edgeCapacity : Int) (edgeMode : AlgoGraphEdgeMode)
      (g : AlgoGraphImpl)
      (hc : algoGraphCreate vertexCapacity edgeCapacity edgeMode = .ok g) :
      GraphReachable g
  | addVertex (g : AlgoGraphImpl) (d : AlgoData) (hr : GraphReachable g) :
      GraphReachable (algoGraphAddVertex g d).2.2
  | removeVertex (g : AlgoGraphImpl) (v : Int) (hr : GraphReachable g) :
      GraphReachable (algoGraphRemoveVertex g v).2
  | addEdge (g : AlgoGraphImpl) (u v : Int) (hr : GraphReachable g) :
      GraphReachable (algoGraphAddEdge g u v).2
  | removeEdge (g : AlgoGraphImpl) (u v : Int) (hr : GraphReachable g) :
      GraphReachable (algoGraphRemoveEdge g u v).2
  | setVertexData (g : AlgoGraphImpl) (v : Int) (d : AlgoData) (hr : GraphReachable g) :
      GraphReachable (algoGraphSetVertexData g v d).2

/-- The edge `u -> v` is present in `u`'s adjacency list. -/
def edgeInAdj (g : AlgoGraphImpl) (u : Nat) (v : Int) : Prop :=
  ∃ e ∈ g.vertexEdges.getD u [], e.destVertex = v

instance (g : AlgoGraphImpl) (u : Nat) (v : Int) : Decidable (edgeInAdj g u v) :=
  List.decidableBEx _ _

/-- Adjacency-list symmetry: `u -> v` is stored iff `v -> u` is. -/
def GraphSymmetric (g : AlgoGraphImpl) : Prop :=
  ∀ u, u < g.vertexEdges.length → ∀ v, v < g.vertexEdges.length →
    (edgeInAdj g u (v : Int) ↔ edgeInAdj g v (u : Int))

instance (g : AlgoGraphImpl) : Decidable (GraphSymmetric g) := by
  unfold GraphSymmetric; infer_instance

/-!
## BFS (`AlgoGraphBfsState`, `algoGraphBfs`)

The discovered/processed int32 bit-sets are modelled as the `Finset Nat` of
indices whose bit is set (`iSetBit` = insert, `iTestBit` = membership).
Callbacks cannot mutate the graph or the traversal state; they receive the
in-flight state and thread an opaque user-data value of type `σ`, which
models the C userData pointers.
-/

structure AlgoGraphBfsState where
  graph : AlgoGraphImpl
  isVertexDiscovered : Finset Nat
  isVertexProcessed : Finset Nat
  vertexParents : List Int
  vertexQueue : AlgoQueue
deriving DecidableEq

structure AlgoGraphBfsCallbacks (σ : Type) where
  vertexFuncEarly : Option (AlgoGraphImpl → AlgoGraphBfsState → Int → σ → σ)
  edgeFunc : Option (AlgoGraphImpl → AlgoGraphBfsState → Int → Int → σ → σ)
  vertexFuncLate : Option (AlgoGraphImpl → AlgoGraphBfsState → Int → σ → σ)

/-- Run an optional vertex callback, as the `NULL != callbacks.xxx` guards
do. -/
def iBfsRunVertexCb {σ : Type}
    (f : Option (AlgoGraphImpl → AlgoGraphBfsState → Int → σ → σ))
    (g : AlgoGraphImpl) (st : AlgoGraphBfsState) (v : Int) (ud : σ) : σ :=
  match f with
  | Option.some fn => fn g st v ud
  | Option.none => ud

/-- `algoGraphBfsStateCreate`: empty bit-sets, all parents `-1`, and a
fresh queue of capacity `vertexCapacity` (whose creation error the C code
surfaces as InvalidArgument). -/
def algoGraphBfsStateCreate (g : AlgoGraphImpl) :
    Except AlgoError AlgoGraphBfsState :=
  match algoQueueCreate g.vertexCapacity with
  | .error _ => .error .invalidArgument
  | .ok q => .ok
    { graph := g
      isVertexDiscovered := ∅
      isVertexProcessed := ∅
      vertexParents := List.replicate g.vertexCapacity.toNat (-1)
      vertexQueue := q }

/-- The inner edge loop body of `algoGraphBfs` for one edge `v0 -> v1`:
report the edge unless its destination is already processed in an
undirected graph; then, if `v1` is undiscovered, mark it, enqueue it (the C
code ignores the insert error) and set `parent[v1] = v0`. -/
def iBfsEdgeStep {σ : Type} (g : AlgoGraphImpl) (cb : AlgoGraphBfsCallbacks σ)
    (v0 : Int) (stud : AlgoGraphBfsState × σ) (e : AlgoGraphEdge) :
    AlgoGraphBfsState × σ :=
  let st := stud.1
  let v1 := e.destVertex
  let ud :=
    if v1.toNat ∉ st.isVertexProcessed ∨ g.edgeMode = .directed then
      match cb.edgeFunc with
      | Option.some fn => fn g st v0 v1 stud.2
      | Option.none => stud.2
    else stud.2
  if v1.toNat ∉ st.isVertexDiscovered then
    let st := { st with isVertexDiscovered := insert v1.toNat st.isVertexDiscovered }
    let st := { st with
      vertexQueue := (algoQueueInsert st.vertexQueue (algoDataFromInt v1)).2
      vertexParents := st.vertexParents.set v1.toNat v0 }
    (st, ud)
  else (st, ud)

/-- One iteration of the BFS do-while body: dequeue `v0`, run the early
callback, mark `v0` processed, walk its edges, run the late callback. -/
def iBfsStep {σ : Type} (g : AlgoGraphImpl) (cb : AlgoGraphBfsCallbacks σ)
    (stud : AlgoGraphBfsState × σ) : AlgoGraphBfsState × σ :=
  match algoQueueRemove stud.1.vertexQueue with
  | .error _ => stud
  | .ok (queueElem, q) =>
    let v0 := queueElem
    let st := { stud.1 with vertexQueue := q }
    let ud := iBfsRunVertexCb cb.vertexFuncEarly g st v0 stud.2
    let st := { st with isVertexProcessed := insert v0.toNat st.isVertexProcessed }
    let stud2 := (g.vertexEdges.getD v0.toNat []).foldl (iBfsEdgeStep g cb v0) (st, ud)
    (stud2.1, iBfsRunVertexCb cb.vertexFuncLate g stud2.1 v0 stud2.2)

/-- The BFS do-while loop: run the body, repeat while the queue is
nonempty (fuel counts body executions). -/
def iBfsLoop {σ : Type} (g : AlgoGraphImpl) (cb : AlgoGraphBfsCallbacks σ) :
    Nat → AlgoGraphBfsState × σ → AlgoGraphBfsState × σ
  | 0, stud => stud
  | fuel + 1, stud =>
    let stud2 := iBfsStep g cb stud
    if algoQueueGetCurrentSize stud2.1.vertexQueue > 0 then
      iBfsLoop g cb fuel stud2
    else stud2

/-- Every vertex index the BFS can ever mark discovered: the capacity range
together with every adjacency destination.  Used only to size the loop
fuel. -/
def bfsVertexUniverse (g : AlgoGraphImpl) : Finset Nat :=
  Finset.range g.vertexCapacity.toNat ∪
    g.vertexEdges.foldr
      (fun l acc => acc ∪ (l.map (fun e => e.destVertex.toNat)).toFinset) ∅

/-- Fuel bound for the BFS loop: strictly decreases at every iteration
(one dequeue per body; at most one enqueue per new discovery). -/
def iBfsFuel (g : AlgoGraphImpl) (st : AlgoGraphBfsState) : Nat :=
  algoQueueGetCurrentSize st.vertexQueue +
    2 * ((bfsVertexUniverse g) \ st.isVertexDiscovered).card

/-- `algoGraphBfs`: rejects a state built for a different graph or an
invalid root; otherwise enqueue + discover the root and run the do-while
loop until the queue drains (the fuel provably outlasts the loop). -/
def algoGraphBfs {σ : Type} (g : AlgoGraphImpl) (st : AlgoGraphBfsState)
    (rootVertexId : Int) (cb : AlgoGraphBfsCallbacks σ) (ud : σ) :
    Except AlgoError (AlgoGraphBfsState × σ) :=
  if g ≠ st.graph ∨ ¬ iGraphIsValidVertexId g rootVertexId then
    .error .invalidArgument
  else
    let st := { st with
      vertexQueue := (algoQueueInsert st.vertexQueue (algoDataFromInt rootVertexId)).2
      isVertexDiscovered := insert rootVertexId.toNat st.isVertexDiscovered }
    .ok (iBfsLoop g cb (iBfsFuel g st) (st, ud))

/-!
## DFS (`AlgoGraphDfsState`, `algoGraphDfs`)
-/

structure AlgoGraphDfsState where
  currentTime : Nat
  graph : AlgoGraphImpl
  isVertexDiscovered : Finset Nat
  isVertexProcessed : Finset Nat
  vertexParents : List Int
  vertexEntryTime : List Nat
  vertexExitTime : List Nat
  vertexNextEdge : List (List AlgoGraphEdge)
  vertexStack : AlgoStack
deriving DecidableEq

structure AlgoGraphDfsCallbacks (σ : Type) where
  vertexFuncEarly : Option (AlgoGraphImpl → AlgoGraphDfsState → Int → σ → σ)
  edgeFunc : Option (AlgoGraphImpl → AlgoGraphDfsState → Int → Int → σ → σ)
  vertexFuncLate : Option (AlgoGraphImpl → AlgoGraphDfsState → Int → σ → σ)

/-- Run an optional DFS vertex callback. -/
def iDfsRunVertexCb {σ : Type}
    (f : Option (AlgoGraphImpl → AlgoGraphDfsState → Int → σ → σ))
    (g : AlgoGraphImpl) (st : AlgoGraphDfsState) (v : Int) (ud : σ) : σ :=
  match f with
  | Option.some fn => fn g st v ud
  | Option.none => ud

/-- `algoGraphDfsStateCreate` (buffer carving elided): zeroed bit-sets and
times, parents `-1`, the per-vertex next-edge cursors snapshotted from the
graph adjacency lists, an empty stack of capacity `vertexCapacity` (the C
code ignores the stack-create error; for the positive capacities
`algoGraphCreate` admits it always succeeds), and `currentTime = 0`. -/
def algoGraphDfsStateCreate (g : AlgoGraphImpl) : AlgoGraphDfsState :=
  { currentTime := 0
    graph := g
    isVertexDiscovered := ∅
    isVertexProcessed := ∅
    vertexParents := List.replicate g.vertexCapacity.toNat (-1)
    vertexEntryTime := List.replicate g.vertexCapacity.toNat 0
    vertexExitTime := List.replicate g.vertexCapacity.toNat 0
    vertexNextEdge := g.vertexEdges
    vertexStack := { capacity := g.vertexCapacity, nodes := [] } }

/-- One iteration of the DFS while body: pop `v0`; on first sight stamp its
entry time and run the early callback; then either consume its next edge
(re-pushing `v0`, and pushing / reporting the destination as the source
does) or, when the cursor is exhausted, run the late callback, stamp the
exit time and mark `v0` processed.  Stack-push errors are ignored exactly
as in the C code. -/
def iDfsStep {σ : Type} (g : AlgoGraphImpl) (cb : AlgoGraphDfsCallbacks σ)
    (stud : AlgoGraphDfsState × σ) : AlgoGraphDfsState × σ :=
  match algoStackPop stud.1.vertexStack with
  | .error _ => stud
  | .ok (stackElem, stk) =>
    let v0 := stackElem
    let st0 := { stud.1 with vertexStack := stk }
    let (st, ud) :=
      if v0.toNat ∉ st0.isVertexDiscovered then
        let st := { st0 with
          isVertexDiscovered := insert v0.toNat st0.isVertexDiscovered
          currentTime := st0.currentTime + 1
          vertexEntryTime := st0.vertexEntryTime.set v0.toNat (st0.currentTime + 1) }
        (st, iDfsRunVertexCb cb.vertexFuncEarly g st v0 stud.2)
      else (st0, stud.2)
    match st.vertexNextEdge.getD v0.toNat [] with
    | edge :: rest =>
      let st := { st with
        vertexNextEdge := st.vertexNextEdge.set v0.toNat rest
        vertexStack := (algoStackPush st.vertexStack (algoDataFromInt v0)).2 }
      if edge.destVertex.toNat ∉ st.isVertexDiscovered then
        let st := { st with
          vertexParents := st.vertexParents.set edge.destVertex.toNat v0 }
        let ud :=
          match cb.edgeFunc with
          | Option.some fn => fn g st v0 edge.destVertex ud
          | Option.none => ud
        let st := { st with
          vertexStack := (algoStackPush st.vertexStack (algoDataFromInt edge.destVertex)).2 }
        (st, ud)
      else if (edge.destVertex.toNat ∉ st.isVertexProcessed ∧
          st.vertexParents.getD v0.toNat (-1) ≠ edge.destVertex) ∨
          g.edgeMode = .directed then
        let ud :=
          match cb.edgeFunc with
          | Option.some fn => fn g st v0 edge.destVertex ud
          | Option.none => ud
        (st, ud)
      else (st, ud)
    | [] =>
      let ud := iDfsRunVertexCb cb.vertexFuncLate g st v0 ud
      let st := { st with
        currentTime := st.currentTime + 1
        vertexExitTime := st.vertexExitTime.set v0.toNat (st.currentTime + 1)
        isVertexProcessed := insert v0.toNat st.isVertexProcessed }
      (st, ud)

/-- The DFS while loop (guard checked before each body execution). -/
def iDfsLoop {σ : Type} (g : AlgoGraphImpl) (cb : AlgoGraphDfsCallbacks σ) :
    Nat → AlgoGraphDfsState × σ → AlgoGraphDfsState × σ
  | 0, stud => stud
  | fuel + 1, stud =>
    if algoStackGetCurrentSize stud.1.vertexStack > 0 then
      iDfsLoop g cb fuel (iDfsStep g cb stud)
    else stud

/-- Fuel bound for the DFS loop: `2 * (remaining next-edge nodes) + stack
size` strictly decreases at every iteration. -/
def iDfsMeasure (st : AlgoGraphDfsState) : Nat :=
  2 * (st.vertexNextEdge.map List.length).sum + st.vertexStack.nodes.length

/-- Run an optional DFS edge callback. -/
def iDfsRunEdgeCb {σ : Type}
    (f : Option (AlgoGraphImpl → AlgoGraphDfsState → Int → Int → σ → σ))
    (g : AlgoGraphImpl) (st : AlgoGraphDfsState) (u v : Int) (ud : σ) : σ :=
  match f with
  | Option.some fn => fn g st u v ud
  | Option.none => ud

/-- The tail of one `iDfsStep` iteration, after the pop and the first-sight
discovery handling: `st` is the state with `v0` already popped (and, on
first sight, stamped); the cursor of `v0` is consumed or `v0` exits.
Definitionally equal to the corresponding part of `iDfsStep`. -/
def iDfsCont {σ : Type} (g : AlgoGraphImpl) (cb : AlgoGraphDfsCallbacks σ)
    (v0 : Nat) (st : AlgoGraphDfsState) (ud : σ) : AlgoGraphDfsState × σ :=
  match st.vertexNextEdge.getD v0 [] with
  | edge :: rest =>
    let st := { st with
      vertexNextEdge := st.vertexNextEdge.set v0 rest
      vertexStack := (algoStackPush st.vertexStack (algoDataFromInt (v0 : Int))).2 }
    if edge.destVertex.toNat ∉ st.isVertexDiscovered then
      let st := { st with
        vertexParents := st.vertexParents.set edge.destVertex.toNat (v0 : Int) }
      let ud := iDfsRunEdgeCb cb.edgeFunc g st (v0 : Int) edge.destVertex ud
      let st := { st with
        vertexStack := (algoStackPush st.vertexStack (algoDataFromInt edge.destVertex)).2 }
      (st, ud)
    else if (edge.destVertex.toNat ∉ st.isVertexProcessed ∧
        st.vertexParents.getD v0 (-1) ≠ edge.destVertex) ∨
        g.edgeMode = .directed then
      (st, iDfsRunEdgeCb cb.edgeFunc g st (v0 : Int) edge.destVertex ud)
    else (st, ud)
  | [] =>
    let ud := iDfsRunVertexCb cb.vertexFuncLate g st (v0 : Int) ud
    let st := { st with
      currentTime := st.currentTime + 1
      vertexExitTime := st.vertexExitTime.set v0 (st.currentTime + 1)
      isVertexProcessed := insert v0 st.isVertexProcessed }
    (st, ud)

/-- The state right after `algoGraphDfs` pushes the root. -/
def iDfsInitState (g : AlgoGraphImpl) (root : Int) : AlgoGraphDfsState :=
  { algoGraphDfsStateCreate g with
    vertexStack := (algoStackPush (algoGraphDfsStateCreate g).vertexStack
      (algoDataFromInt root)).2 }

/-- `algoGraphDfs`: rejects an invalid root; otherwise push the root and
run the while loop until the stack drains (the fuel provably outlasts the
loop). -/
def algoGraphDfs {σ : Type} (g : AlgoGraphImpl) (st : AlgoGraphDfsState)
    (rootVertexId : Int) (cb : AlgoGraphDfsCallbacks σ) (ud : σ) :
    Except AlgoError (AlgoGraphDfsState × σ) :=
  if ¬ iGraphIsValidVertexId g rootVertexId then .error .invalidArgument
  else
    let st := { st with
      vertexStack := (algoStackPush st.vertexStack (algoDataFromInt rootVertexId)).2 }
    .ok (iDfsLoop g cb (iDfsMeasure st) (st, ud))

/-!
## Topological sort (`algoGraphTopoSort`)
-/

/-- `IGraphTopoSortResults`: output array and the write-backwards cursor. -/
structure IGraphTopoSortResults where
  sortedVertices : List Int
  nextFreeIndex : Int
deriving DecidableEq, Repr

/-- `iGraphTopoSortEdge`: the C callback only classifies the edge and
asserts it is not a back edge; `ALGO_ASSERT` is compiled out of release
builds and the callback never modifies any state, so it is the identity on
the user data. -/
def iGraphTopoSortEdge (g : AlgoGraphImpl) (st : AlgoGraphDfsState)
    (v0 v1 : Int) (r : IGraphTopoSortResults) : IGraphTopoSortResults :=
  r

/-- `iGraphTopoSortVertexLate`: write the finished vertex at
`nextFreeIndex` and move the cursor towards the front. -/
def iGraphTopoSortVertexLate (g : AlgoGraphImpl) (st : AlgoGraphDfsState)
    (vertexId : Int) (r : IGraphTopoSortResults) : IGraphTopoSortResults :=
  { sortedVertices := r.sortedVertices.set r.nextFreeIndex.toNat vertexId
    nextFreeIndex := r.nextFreeIndex - 1 }

/-- The DFS callback bundle `algoGraphTopoSort` installs. -/
def iTopoSortCallbacks (g : AlgoGraphImpl) :
    AlgoGraphDfsCallbacks IGraphTopoSortResults :=
  { vertexFuncEarly := Option.none
    edgeFunc := Option.some (fun g2 st v0 v1 r => iGraphTopoSortEdge g2 st v0 v1 r)
    vertexFuncLate := Option.some (fun g2 st v r => iGraphTopoSortVertexLate g2 st v r) }

/-- `algoGraphDfsStateIsVertexProcessed` as used by the topo-sort driver:
an out-of-range id leaves the (zero-initialised) out flag untouched, so it
reads as "not processed". -/
def iTopoIsVertexSorted (dfs : AlgoGraphDfsState) (vertexId : Int) : Bool :=
  if 0 ≤ vertexId ∧ vertexId < dfs.graph.vertexCapacity then
    decide (vertexId.toNat ∈ dfs.isVertexProcessed)
  else false

/-- The driver loop of `algoGraphTopoSort` over `validVertexIds`: DFS from
every not-yet-processed valid vertex, stopping early once the output
cursor runs off the front. -/
def iTopoSortLoop (g : AlgoGraphImpl) (dfs : AlgoGraphDfsState)
    (r : IGraphTopoSortResults) :
    List Int → Except AlgoError (AlgoGraphDfsState × IGraphTopoSortResults)
  | [] => .ok (dfs, r)
  | vertexId :: rest =>
    let isVertexSorted := iTopoIsVertexSorted dfs vertexId
    if iGraphIsValidVertexId g vertexId ∧ ¬ isVertexSorted then
      match algoGraphDfs g dfs vertexId (iTopoSortCallbacks g) r with
      | .error e => .error e
      | .ok (dfs2, r2) =>
        if r2.nextFreeIndex < 0 then .ok (dfs2, r2)
        else iTopoSortLoop g dfs2 r2 rest
    else iTopoSortLoop g dfs r rest

/-- `algoGraphTopoSortComputeBufferSize`: the DFS state buffer size; only
its success/failure (never its value) matters to the claims, and for the
graphs `algoGraphCreate` admits it always succeeds. -/
def algoGraphTopoSortComputeBufferSize (g : AlgoGraphImpl) :
    Except AlgoError Nat :=
  .ok 0

/-- `algoGraphTopoSort`: `outSortedVertices` is modelled as a list of
`sortedVertexCount` cells (the caller array, zero-filled here where the C
contents are junk).  Checks, in source order: output array shorter than
`currentVertexCount` (InvalidArgument), undirected edge mode
(OperationFailed), then the scratch-buffer size (InvalidArgument; a
sufficient buffer is assumed, `bufferOk = true`, whenever the caller sized
it with `algoGraphTopoSortComputeBufferSize`).  Then a fresh DFS state is
created and the driver loop runs. -/
def algoGraphTopoSort (g : AlgoGraphImpl) (sortedVertexCount : Nat)
    (bufferOk : Bool) : AlgoError × List Int :=
  let junk := List.replicate sortedVertexCount (0 : Int)
  if (sortedVertexCount : Int) < g.currentVertexCount then
    (.invalidArgument, junk)
  else if g.edgeMode = .undirected then
    (.operationFailed, junk)
  else if ¬ bufferOk then
    (.invalidArgument, junk)
  else
    let dfs := algoGraphDfsStateCreate g
    let r : IGraphTopoSortResults :=
      { sortedVertices := junk, nextFreeIndex := g.currentVertexCount - 1 }
    match iTopoSortLoop g dfs r (g.validVertexIds.take g.currentVertexCount.toNat) with
    | .error e => (e, junk)
    | .ok (_, r2) => (.none, r2.sortedVertices)

/-!
## Specification-side notions (paths, distances, parent chains, intervals)
and concrete test fixtures.
-/

/-- sizeof(AlgoGraphImpl) on LP64. -/
def sizeofAlgoGraphImpl : Nat := 88

/-- sizeof(AlgoGraphEdge) on LP64 (int32, int32, pointer). -/
def sizeofAlgoGraphEdge : Nat := 16

/-- Per-vertex bytes of the five parallel graph arrays (degrees, data,
valid ids, reverse lookup, list heads). -/
def iGraphBytesPerVertex : Nat := 28

/-- `algoGraphComputeBufferSize`: rejects negative capacities (zero is
accepted here, unlike `algoGraphCreate`); the edge-pool sizing rejects
`edgeCapacity * nodesPerEdge < 1`. -/
def algoGraphComputeBufferSize (vertexCapacity edgeCapacity : Int)
    (edgeMode : AlgoGraphEdgeMode) : Except AlgoError Nat :=
  if vertexCapacity < 0 ∨ edgeCapacity < 0 then .error .invalidArgument
  else
    match algoAllocPoolComputeBufferSize (sizeofAlgoGraphEdge : Int)
        (edgeCapacity * (iGraphNodesPerEdge edgeMode : Int)) with
    | .error e => .error e
    | .ok edgePoolSize =>
      .ok (sizeofAlgoGraphImpl + vertexCapacity.toNat * iGraphBytesPerVertex +
        edgePoolSize)

/-- A path of exactly `n` stored edges from `u` to `v`. -/
def ReachN (g : AlgoGraphImpl) : Nat → Nat → Nat → Prop
  | u, v, 0 => u = v
  | u, v, n + 1 =>
    ∃ e ∈ g.vertexEdges.getD u [], ReachN g e.destVertex.toNat v n

/-- `d` is the minimum edge count of any path from `u` to `v`. -/
def HasDist (g : AlgoGraphImpl) (u v : Nat) (d : Nat) : Prop :=
  ReachN g u v d ∧ ∀ e, e < d → ¬ ReachN g u v e

/-- Following parent links from `v` reaches `root` in exactly `n` steps. -/
inductive ParentChain (parents : List Int) (root : Nat) : Nat → Nat → Prop where
  | zero : ParentChain parents root root 0
  | succ (v : Nat) (n : Nat) (hp : 0 ≤ parents.getD v (-1))
      (h : ParentChain parents root (parents.getD v (-1)).toNat n) :
      ParentChain parents root v (n + 1)

/-- Two closed intervals are disjoint or one contains the other. -/
def IntervalsNestedOrDisjoint (a1 b1 a2 b2 : Nat) : Prop :=
  b1 < a2 ∨ b2 < a1 ∨ (a1 ≤ a2 ∧ b2 ≤ b1) ∨ (a2 ≤ a1 ∧ b1 ≤ b2)

/-- No directed cycle through any vertex (a DAG). -/
def GraphAcyclic (g : AlgoGraphImpl) : Prop :=
  ∀ v n, ¬ ReachN g v v (n + 1)

/-- Structural well-formedness of a graph value, as the traversal claims
assume of "a graph": the parallel arrays have capacity length, the counts
are in range, adjacency destinations are valid vertices, invalid slots have
empty lists, and `validVertexIds[0..currentVertexCount)` enumerates exactly
the valid slots, without duplicates.  Every state reachable through the
public API satisfies this; the theorems take it as a hypothesis. -/
structure GraphTravWF (g : AlgoGraphImpl) : Prop where
  capPos : 0 < g.vertexCapacity
  lenDeg : g.vertexDegrees.length = g.vertexCapacity.toNat
  lenEdges : g.vertexEdges.length = g.vertexCapacity.toNat
  lenValid : g.validVertexIds.length = g.vertexCapacity.toNat
  countNonneg : 0 ≤ g.currentVertexCount
  countLe : g.currentVertexCount ≤ g.vertexCapacity
  destValid : ∀ u, u < g.vertexCapacity.toNat →
    ∀ e ∈ g.vertexEdges.getD u [], iGraphIsValidVertexId g e.destVertex = true
  invalidEmpty : ∀ u, u < g.vertexCapacity.toNat →
    g.vertexDegrees.getD u (-1) < 0 → g.vertexEdges.getD u [] = []
  validIdsChar : ∀ v : Nat, v < g.vertexCapacity.toNat →
    (0 ≤ g.vertexDegrees.getD v (-1) ↔
      (v : Int) ∈ g.validVertexIds.take g.currentVertexCount.toNat)
  validIdsRange : ∀ id ∈ g.validVertexIds.take g.currentVertexCount.toNat,
    0 ≤ id ∧ id < g.vertexCapacity
  validIdsNodup : (g.validVertexIds.take g.currentVertexCount.toNat).Nodup

/-- The vertex free list threaded through `vertexData`: starting from
`next`, the listed slots are chained by reading each slot's data as the
next free id (`algoGraphCreate` threads `0,1,...`; `algoGraphAddVertex`
pops the head; `algoGraphRemoveVertex` pushes the victim). -/
def VertexFreeListIs (data : List AlgoData) : Int → List Nat → Prop
  | _, [] => True
  | next, i :: rest => next = (i : Int) ∧ VertexFreeListIs data (data.getD i 0) rest

/-- The strengthened invariant proved for undirected graphs (claim about
adjacency symmetry): array lengths, degree/list agreement, valid
destinations, no self-edges, duplicate-free lists, symmetry, an even
pool free count (the fact that rules the half-added-edge state out of the
reachable set), and a well-formed vertex free list (which keeps
`algoGraphAddVertex` from handing out a live slot). -/
structure UGraphWF (g : AlgoGraphImpl) : Prop where
  lenDeg : g.vertexDegrees.length = g.vertexCapacity.toNat
  lenEdges : g.vertexEdges.length = g.vertexCapacity.toNat
  lenData : g.vertexData.length = g.vertexCapacity.toNat
  countNonneg : 0 ≤ g.currentVertexCount
  countLe : g.currentVertexCount ≤ g.vertexCapacity
  destValid : ∀ u, u < g.vertexCapacity.toNat →
    ∀ e ∈ g.vertexEdges.getD u [], iGraphIsValidVertexId g e.destVertex = true
  invalidEmpty : ∀ u, u < g.vertexCapacity.toNat →
    g.vertexDegrees.getD u (-1) < 0 → g.vertexEdges.getD u [] = []
  degMatch : ∀ u, u < g.vertexCapacity.toNat → 0 ≤ g.vertexDegrees.getD u (-1) →
    g.vertexDegrees.getD u (-1) = ((g.vertexEdges.getD u []).length : Int)
  noSelf : ∀ u, u < g.vertexCapacity.toNat →
    ∀ e ∈ g.vertexEdges.getD u [], e.destVertex ≠ (u : Int)
  nodupAdj : ∀ u, u < g.vertexCapacity.toNat →
    ((g.vertexEdges.getD u []).map AlgoGraphEdge.destVertex).Nodup
  sym : GraphSymmetric g
  evenFree : Even g.edgePoolFreeCount
  freeChain : ∃ fl : List Nat, VertexFreeListIs g.vertexData g.nextFreeVertexId fl ∧
    (fl.length : Int) + g.currentVertexCount = g.vertexCapacity ∧ fl.Nodup ∧
    (∀ i ∈ fl, i < g.vertexCapacity.toNat) ∧
    (∀ i, i < g.vertexCapacity.toNat → (g.vertexDegrees.getD i (-1) < 0 ↔ i ∈ fl))

instance : Inhabited AlgoGraphImpl :=
  ⟨{ vertexCapacity := 0, edgeCapacity := 0, currentVertexCount := 0
     currentEdgeCount := 0, nextFreeVertexId := 0, edgeMode := .directed
     vertexDegrees := [], vertexData := [], validVertexIds := []
     vertexIdToValidIndex := [], vertexEdges := [], edgePoolFreeCount := 0 }⟩

/-- Build a test graph through the public API: create, add `nVerts`
vertices, then add the listed edges. -/
def mkTestGraph (vcap ecap : Int) (mode : AlgoGraphEdgeMode) (nVerts : Nat)
    (edges : List (Int × Int)) : AlgoGraphImpl :=
  let g0 := ((algoGraphCreate vcap ecap mode).toOption).getD default
  let g1 := (List.range nVerts).foldl (fun g _ => (algoGraphAddVertex g 0).2.2) g0
  edges.foldl (fun g uv => (algoGraphAddEdge g uv.1 uv.2).2) g1

/-- Scenario S5: undirected graph, vertices A,B,C,D = 0,1,2,3, edges
A-B, A-C, B-D, C-D. -/
def graphS5 : AlgoGraphImpl :=
  mkTestGraph 4 4 .undirected 4 [(0, 1), (0, 2), (1, 3), (2, 3)]

/-- Scenario S6: directed DAG over 0..4 with edges 0→1, 0→2, 1→3, 2→3,
3→4. -/
def graphS6 : AlgoGraphImpl :=
  mkTestGraph 5 5 .directed 5 [(0, 1), (0, 2), (1, 3), (2, 3), (3, 4)]

/-- A two-vertex directed cycle 0→1→0. -/
def graphCycle2 : AlgoGraphImpl :=
  mkTestGraph 2 2 .directed 2 [(0, 1), (1, 0)]

/-- A DFS run over scenario S5 from root `0` with no callbacks. -/
def dfsS5run : Except AlgoError (AlgoGraphDfsState × Unit) :=
  algoGraphDfs graphS5 (algoGraphDfsStateCreate graphS5) 0
    { vertexFuncEarly := Option.none, edgeFunc := Option.none
      vertexFuncLate := Option.none } ()

/-- The final DFS state of the S5 run. -/
def dfsS5st : AlgoGraphDfsState :=
  match dfsS5run with
  | .ok (st, _) => st
  | .error _ => algoGraphDfsStateCreate graphS5

/-- The initial BFS state for scenario S5 (creation succeeds: capacity 4). -/
def bfsS5st0 : AlgoGraphBfsState :=
  match algoGraphBfsStateCreate graphS5 with
  | .ok st => st
  | .error _ =>
    { graph := graphS5
      isVertexDiscovered := ∅
      isVertexProcessed := ∅
      vertexParents := []
      vertexQueue :=
        { nodeCount := 1, capacity := 1, head := 0, tail := 0, nodes := [0] } }

/-- A BFS run over scenario S5 from root `0` with no callbacks. -/
def bfsS5run : Except AlgoError (AlgoGraphBfsState × Unit) :=
  algoGraphBfs graphS5 bfsS5st0 0
    { vertexFuncEarly := Option.none, edgeFunc := Option.none
      vertexFuncLate := Option.none } ()

/-- The final BFS state of the S5 run. -/
def bfsS5st : AlgoGraphBfsState :=
  match bfsS5run with
  | .ok (st, _) => st
  | .error _ => bfsS5st0

/-- The state `algoGraphBfsStateCreate` builds when the capacity is
positive (so the queue creation succeeds). -/
def bfsStart (g : AlgoGraphImpl) : AlgoGraphBfsState :=
  { graph := g
    isVertexDiscovered := ∅
    isVertexProcessed := ∅
    vertexParents := List.replicate g.vertexCapacity.toNat (-1)
    vertexQueue :=
      { nodeCount := g.vertexCapacity.toNat + 1
        capacity := g.vertexCapacity
        head := 0
        tail := 0
        nodes := List.replicate (g.vertexCapacity.toNat + 1) 0 } }

/-- `bfsStart` after `algoGraphBfs` has enqueued the root and marked it
discovered, i.e. the state entering the do-while loop. -/
def bfsRootStart (g : AlgoGraphImpl) (root : Int) : AlgoGraphBfsState :=
  { graph := g
    isVertexDiscovered := insert root.toNat (∅ : Finset Nat)
    isVertexProcessed := ∅
    vertexParents := List.replicate g.vertexCapacity.toNat (-1)
    vertexQueue :=
      (algoQueueInsert (bfsStart g).vertexQueue (algoDataFromInt root)).2 }

/-- The S3 pool script: alloc a,b,c; free b; alloc d; free c; free a;
alloc e; alloc f; report the returned offsets `[a,b,c,d,e,f]`. -/
def poolS3Script : Except AlgoError (List Nat) := do
  let (a, p1) ← algoAllocPoolAlloc poolS3
  let (b, p2) ← algoAllocPoolAlloc p1
  let (c, p3) ← algoAllocPoolAlloc p2
  let p4 ← algoAllocPoolFree p3 (Option.some b)
  let (d, p5) ← algoAllocPoolAlloc p4
  let p6 ← algoAllocPoolFree p5 (Option.some c)
  let p7 ← algoAllocPoolFree p6 (Option.some a)
  let (e2, p8) ← algoAllocPoolAlloc p7
  let (f2, _) ← algoAllocPoolAlloc p8
  pure [a, b, c, d, e2, f2]

instance (p : AlgoAllocPool) : Decidable (PoolWF p) := by
  unfold PoolWF; infer_instance

instance freeListIsDec : (p : AlgoAllocPool) → (l : List Nat) → Decidable (FreeListIs p l)
  | p, [] => by unfold FreeListIs; infer_instance
  | p, i :: rest => by
      unfold FreeListIs
      have := freeListIsDec { p with headIndex := p.cells.getD i 0 } rest
      infer_instance

/-- The loop invariant of `algoGraphDfs` (and of the DFS runs inside
`algoGraphTopoSort`), relating the traversal state to the current active
path `P` (the discovered, unprocessed vertices in discovery order): the
stack holds exactly the active path, possibly topped by the single
just-pushed undiscovered vertex; entry times grow along the path; every
processed interval is closed, properly nested against the other processed
intervals and positioned against the active path; each next-edge cursor is
a suffix of the adjacency list whose consumed prefix leads to discovered
vertices; and every edge out of a processed vertex leads to a discovered
vertex that either exited earlier or reaches back (a cycle witness). -/
structure DfsInv (g : AlgoGraphImpl) (st : AlgoGraphDfsState) (P : List Nat) : Prop where
  lenEntry : st.vertexEntryTime.length = g.vertexCapacity.toNat
  lenExit : st.vertexExitTime.length = g.vertexCapacity.toNat
  stackCap : st.vertexStack.capacity = g.vertexCapacity
  discRange : ∀ v ∈ st.isVertexDiscovered, v < g.vertexCapacity.toNat
  discValid : ∀ v ∈ st.isVertexDiscovered, 0 ≤ g.vertexDegrees.getD v (-1)
  procSub : st.isVertexProcessed ⊆ st.isVertexDiscovered
  activeP : ∀ v : Nat, (v ∈ st.isVertexDiscovered ∧ v ∉ st.isVertexProcessed) ↔ v ∈ P
  Pnodup : P.Nodup
  stackOk : st.vertexStack.nodes = P.map (fun v : Nat => (v : Int)) ∨
    ∃ w : Nat, w < g.vertexCapacity.toNat ∧ w ∉ st.isVertexDiscovered ∧
      0 ≤ g.vertexDegrees.getD w (-1) ∧
      (P = [] ∨ edgeInAdj g (P.getLastD 0) (w : Int)) ∧
      st.vertexStack.nodes = P.map (fun v : Nat => (v : Int)) ++ [(w : Int)]
  cursorDone : ∀ v : Nat, v < g.vertexCapacity.toNat →
    ∃ pre, g.vertexEdges.getD v [] = pre ++ st.vertexNextEdge.getD v [] ∧
      ∀ e ∈ pre, e.destVertex.toNat ∈ st.isVertexDiscovered ∨
        st.vertexStack.nodes = P.map (fun x : Nat => (x : Int)) ++ [(e.destVertex.toNat : Int)]
  entryLe : ∀ v ∈ st.isVertexDiscovered,
    1 ≤ st.vertexEntryTime.getD v 0 ∧ st.vertexEntryTime.getD v 0 ≤ st.currentTime
  exitProc : ∀ v ∈ st.isVertexProcessed,
    st.vertexEntryTime.getD v 0 < st.vertexExitTime.getD v 0 ∧
    st.vertexExitTime.getD v 0 ≤ st.currentTime
  Pentry : P.Pairwise (fun a b =>
    st.vertexEntryTime.getD a 0 < st.vertexEntryTime.getD b 0)
  Ppath : P.Chain' (fun a b => edgeInAdj g a (b : Int))
  nested : ∀ u ∈ st.isVertexProcessed, ∀ v ∈ st.isVertexProcessed,
    IntervalsNestedOrDisjoint
      (st.vertexEntryTime.getD u 0) (st.vertexExitTime.getD u 0)
      (st.vertexEntryTime.getD v 0) (st.vertexExitTime.getD v 0)
  procActive : ∀ u ∈ st.isVertexProcessed, ∀ v ∈ P,
    st.vertexEntryTime.getD v 0 < st.vertexEntryTime.getD u 0 ∨
    st.vertexExitTime.getD u 0 < st.vertexEntryTime.getD v 0
  edgeDone : ∀ u ∈ st.isVertexProcessed, ∀ e ∈ g.vertexEdges.getD u [],
    e.destVertex.toNat ∈ st.isVertexDiscovered ∧
    (e.destVertex.toNat ∈ st.isVertexProcessed ∧
      st.vertexExitTime.getD e.destVertex.toNat 0 < st.vertexExitTime.getD u 0 ∨
      ∃ n, ReachN g e.destVertex.toNat u (n + 1))

/-- The invariant tying the topological-sort output buffer to the DFS
state: the cells strictly above `nextFreeIndex` (up to
`currentVertexCount - 1`) hold, most recent first, exactly the processed
vertices, in strictly decreasing exit-time order. `w` lists them from slot
`nextFreeIndex + 1` upward. -/
def TopoJ (g : AlgoGraphImpl) (scount : Nat) (st : AlgoGraphDfsState)
    (r : IGraphTopoSortResults) : Prop :=
  ∃ w : List Nat,
    ((w.length : Int) = g.currentVertexCount - 1 - r.nextFreeIndex) ∧
    r.sortedVertices.length = scount ∧
    ((-1 : Int) ≤ r.nextFreeIndex) ∧
    (∀ k : Nat, k < w.length →
      r.sortedVertices.getD (r.nextFreeIndex + 1 + (k : Int)).toNat 0 =
        ((w.getD k 0 : Nat) : Int)) ∧
    (∀ v : Nat, v ∈ w ↔ v ∈ st.isVertexProcessed) ∧
    w.Pairwise (fun a b =>
      st.vertexExitTime.getD b 0 < st.vertexExitTime.getD a 0)

/-- The BFS loop invariant, relative to a depth assignment `D`, the queue
contents `Q` (front first, as vertex indices) and the current frontier
depth `d`: ring-buffer sanity, the queue holds exactly the discovered
unprocessed vertices, parents form a tree rooted at `rootN` whose links
increase `D` by one along discovery, every edge out of a processed vertex
leads to a discovered vertex at most one level deeper, and the queue holds
at most the two levels `d`, `d+1` in nondecreasing order. -/
structure BfsPre (g : AlgoGraphImpl) (rootN : Nat) (st : AlgoGraphBfsState)
    (D : Nat → Nat) (Q : List Nat) (d : Nat) : Prop where
  ncEq : st.vertexQueue.nodeCount = g.vertexCapacity.toNat + 1
  headLt : st.vertexQueue.head < st.vertexQueue.nodeCount
  tailLt : st.vertexQueue.tail < st.vertexQueue.nodeCount
  nodesLen : st.vertexQueue.nodes.length = st.vertexQueue.nodeCount
  qList : queueList st.vertexQueue = Q.map (fun v : Nat => (v : Int))
  qNodup : Q.Nodup
  parLen : st.vertexParents.length = g.vertexCapacity.toNat
  procSub : st.isVertexProcessed ⊆ st.isVertexDiscovered
  discLt : ∀ v ∈ st.isVertexDiscovered, v < g.vertexCapacity.toNat
  qMem : ∀ v ∈ Q, v ∈ st.isVertexDiscovered ∧ v ∉ st.isVertexProcessed
  activeQ : ∀ v ∈ st.isVertexDiscovered, v ∉ st.isVertexProcessed → v ∈ Q
  rootDisc : rootN ∈ st.isVertexDiscovered
  rootD : D rootN = 0
  rootPar : st.vertexParents.getD rootN (-1) = -1
  parChain : ∀ v ∈ st.isVertexDiscovered, v ≠ rootN →
    0 ≤ st.vertexParents.getD v (-1) ∧
    (st.vertexParents.getD v (-1)).toNat ∈ st.isVertexDiscovered ∧
    edgeInAdj g (st.vertexParents.getD v (-1)).toNat ((v : Nat) : Int) ∧
    D v = D (st.vertexParents.getD v (-1)).toNat + 1
  procD : ∀ u ∈ st.isVertexProcessed, D u ≤ d
  qD : ∀ v ∈ Q, d ≤ D v ∧ D v ≤ d + 1
  qMono : Q.Pairwise (fun a b => D a ≤ D b)
  discD : ∀ v ∈ st.isVertexDiscovered, D v ≤ d + 1

/-- `BfsPre` together with the processed-edge condition: every edge out of
a processed vertex leads to a discovered vertex at most one level deeper.
Holds between loop iterations (the condition is established edge by edge
while the dequeued vertex's adjacency list is walked). -/
structure BfsCore (g : AlgoGraphImpl) (rootN : Nat) (st : AlgoGraphBfsState)
    (D : Nat → Nat) (Q : List Nat) (d : Nat)
    extends BfsPre g rootN st D Q d : Prop where
  procEdges : ∀ u ∈ st.isVertexProcessed, ∀ e ∈ g.vertexEdges.getD u [],
    e.destVertex.toNat ∈ st.isVertexDiscovered ∧
    D e.destVertex.toNat ≤ D u + 1

/-!
## Theorems
-/

theorem alloc_of_headIndex_nat (p : AlgoAllocPool) (j : Nat)
    (h : p.headIndex = (j : Int)) :
    algoAllocPoolAlloc p =
      .ok (j * p.elementSize, { p with headIndex := p.cells.getD j 0 }) := by
  unfold algoAllocPoolAlloc
  rw [h]
  rw [if_neg (by omega)]
  simp

theorem freeListIs_alloc (p : AlgoAllocPool) (i : Nat) (rest : List Nat)
    (h : FreeListIs p (i :: rest)) :
    algoAllocPoolAlloc p =
      .ok (i * p.elementSize, { p with headIndex := p.cells.getD i 0 }) ∧
      FreeListIs { p with headIndex := p.cells.getD i 0 } rest := by
  obtain ⟨h1, h2⟩ := h
  refine ⟨?_, h2⟩
  unfold algoAllocPoolAlloc
  rw [h1]
  simp

theorem allocRun_freeList (k : Nat) :
    ∀ (p : AlgoAllocPool) (l : List Nat), FreeListIs p l → k ≤ l.length →
    ∃ p2, allocRun p k = .ok ((l.take k).map (· * p.elementSize), p2) ∧
      FreeListIs p2 (l.drop k) ∧ p2.elementSize = p.elementSize ∧
      p2.elementCount = p.elementCount := by
  induction k with
  | zero => intro p l h _; exact ⟨p, rfl, by simpa using h, rfl, rfl⟩
  | succ k ih =>
    intro p l h hk
    match l with
    | [] => simp at hk
    | i :: rest =>
      obtain ⟨ha, hfl⟩ := freeListIs_alloc p i rest h
      obtain ⟨p2, hrun, hfl2, hes, hec⟩ :=
        ih { p with headIndex := p.cells.getD i 0 } rest hfl (by simpa using hk)
      refine ⟨p2, ?_, hfl2, hes, hec⟩
      unfold allocRun
      rw [ha]
      dsimp only
      rw [hrun]
      simp

/-- C7.  Pool allocator: (1) from any well-formed pool state whose free
list is a duplicate-free list of in-range block indices, any run of `k`
successful allocations returns pairwise-distinct pointers that all lie
within the arena; (2) after a successful free of block pointer
`j*elementSize`, the very next allocation returns exactly that pointer
(LIFO free list); (3) scenario S3 (elementSize=8, elementCount=3): allocs
a,b,c succeed; free b, the next alloc returns b; free c then a, and the
next two allocs return a then c. -/
theorem algoAllocPool_distinct_and_lifo :
    (∀ (p : AlgoAllocPool) (l : List Nat) (k : Nat),
      PoolWF p → FreeListIs p l → l.Nodup → (∀ i ∈ l, i < p.elementCount) →
      k ≤ l.length →
      ∃ offs p2, allocRun p k = .ok (offs, p2) ∧ offs.Nodup ∧
        ∀ o ∈ offs, o < p.elementCount * p.elementSize) ∧
    (∀ (p q : AlgoAllocPool) (j : Nat),
      PoolWF p → j < p.elementCount →
      algoAllocPoolFree p (Option.some (j * p.elementSize)) = .ok q →
      ∃ q2, algoAllocPoolAlloc q = .ok (j * p.elementSize, q2)) ∧
    (algoAllocPoolCreate 8 3 = .ok poolS3 ∧
      poolS3Script = .ok [0, 8, 16, 8, 0, 16]) := by
  refine ⟨?_, ?_, by rfl, by rfl⟩
  · intro p l k hwf hfl hnd hbound hk
    obtain ⟨p2, hrun, _, _, _⟩ := allocRun_freeList k p l hfl hk
    refine ⟨(l.take k).map (· * p.elementSize), p2, hrun, ?_, ?_⟩
    · refine List.Nodup.map ?_ (hnd.sublist (List.take_sublist k l))
      intro a b hab
      have hes : 0 < p.elementSize := by
        have := hwf.1
        omega
      exact Nat.eq_of_mul_eq_mul_right hes hab
    · intro o ho
      obtain ⟨i, hi, rfl⟩ := List.mem_map.mp ho
      have hi2 : i ∈ l := List.mem_of_mem_take hi
      have hes : 0 < p.elementSize := by have := hwf.1; omega
      exact (Nat.mul_lt_mul_right hes).mpr (hbound i hi2)
  · intro p q j hwf hj hfree
    have hes : 0 < p.elementSize := by have := hwf.1; omega
    have hdiv : j * p.elementSize / p.elementSize = j := Nat.mul_div_cancel j hes
    have hcond : ¬(j * p.elementSize ≥ p.elementCount * p.elementSize ∨
        j * p.elementSize % p.elementSize ≠ 0) := by
      push_neg
      exact ⟨(Nat.mul_lt_mul_right hes).mpr hj, Nat.mul_mod_left _ _⟩
    unfold algoAllocPoolFree at hfree
    dsimp only at hfree
    rw [if_neg hcond] at hfree
    rw [hdiv] at hfree
    have hq := (Except.ok.inj hfree).symm
    subst hq
    exact ⟨_, alloc_of_headIndex_nat _ j rfl⟩

/-- Witness for C7: the general parts applied to the concrete S3 pool. -/
theorem algoAllocPool_distinct_and_lifo_witness :
    (∃ offs p2, allocRun poolS3 3 = .ok (offs, p2) ∧ offs.Nodup ∧
      ∀ o ∈ offs, o < poolS3.elementCount * poolS3.elementSize) ∧
    (∃ q2, algoAllocPoolAlloc
      { poolS3 with cells := [1, 0, -1], headIndex := 1 } =
        .ok (1 * poolS3.elementSize, q2)) := by
  constructor
  · exact algoAllocPool_distinct_and_lifo.1 poolS3 [0, 1, 2] 3
      (by decide) (by decide) (by decide) (by decide) (by decide)
  · exact algoAllocPool_distinct_and_lifo.2.1 poolS3
      { poolS3 with cells := [1, 0, -1], headIndex := 1 } 1
      (by decide) (by decide) (by rfl)

theorem listGetD_set_self {α : Type} (l : List α) (i : Nat) (a d : α)
    (h : i < l.length) : (l.set i a).getD i d = a := by
  simp [List.getD_eq_getElem?_getD, List.getElem?_set_eq_of_lt, h]

theorem listGetD_set_ne {α : Type} (l : List α) (i j : Nat) (a d : α)
    (h : i ≠ j) : (l.set i a).getD j d = l.getD j d := by
  simp [List.getD_eq_getElem?_getD, List.getElem?_set_ne, h]

theorem listGetD_replicate {α : Type} (n i : Nat) (a d : α) :
    (List.replicate n a).getD i d = if i < n then a else d := by
  simp [List.getD_eq_getElem?_getD, List.getElem?_replicate]
  split <;> simp

theorem listGetD_of_len_le {α : Type} (l : List α) (i : Nat) (d : α)
    (h : l.length ≤ i) : l.getD i d = d := by
  simp [List.getD_eq_getElem?_getD, List.getElem?_eq_none h]

theorem iGraphIsValidVertexId_iff (g : AlgoGraphImpl) (u : Int) :
    iGraphIsValidVertexId g u = true ↔
      0 ≤ u ∧ u < g.vertexCapacity ∧ 0 ≤ g.vertexDegrees.getD u.toNat (-1) := by
  unfold iGraphIsValidVertexId
  simp
  tauto

theorem valid_lt_degLen (g : AlgoGraphImpl) (u : Int)
    (h : iGraphIsValidVertexId g u = true) : u.toNat < g.vertexDegrees.length := by
  rw [iGraphIsValidVertexId_iff] at h
  by_contra hlen
  rw [listGetD_of_len_le _ _ _ (by omega)] at h
  omega

/-- C10.  `algoStackResize`: a new capacity below 1 is InvalidArgument;
given a buffer at least the computed size for the new capacity, the call
returns OperationFailed and leaves the stack unchanged when the current
element count exceeds the new capacity, and otherwise returns OK changing
only the `capacity` field (so the stored elements and the current size are
preserved). -/
theorem algoStackResize_behaviour (s : AlgoStack) (newCap : Int)
    (bufferSize minSize : Nat) :
    (newCap < 1 → algoStackResize s newCap bufferSize = (.invalidArgument, s)) ∧
    (algoStackComputeBufferSize newCap = .ok minSize → minSize ≤ bufferSize →
      ((s.top > newCap → algoStackResize s newCap bufferSize = (.operationFailed, s)) ∧
       (s.top ≤ newCap → algoStackResize s newCap bufferSize =
          (.none, { s with capacity := newCap })))) := by
  constructor
  · intro h
    unfold algoStackResize
    rw [if_pos h]
  · intro hc hb
    unfold algoStackResize
    by_cases h1 : newCap < 1
    · exfalso
      unfold algoStackComputeBufferSize at hc
      rw [if_pos h1] at hc
      cases hc
    · rw [if_neg h1, hc]
      dsimp only
      rw [if_neg (by omega)]
      constructor
      · intro ht
        rw [if_pos ht]
      · intro ht
        rw [if_neg (by omega)]

/-- Witness for C10: a stack holding two elements; resizing to capacity 1
with an adequate 48-byte buffer fails leaving it unchanged, resizing to
capacity 3 with a 64-byte buffer succeeds preserving the elements, and a
zero capacity is InvalidArgument. -/
theorem algoStackResize_behaviour_witness :
    algoStackResize { capacity := 2, nodes := [5, 7] } 0 64 =
      (.invalidArgument, { capacity := 2, nodes := [5, 7] }) ∧
    algoStackResize { capacity := 2, nodes := [5, 7] } 1 48 =
      (.operationFailed, { capacity := 2, nodes := [5, 7] }) ∧
    algoStackResize { capacity := 2, nodes := [5, 7] } 3 64 =
      (.none, { capacity := 3, nodes := [5, 7] }) := by
  refine ⟨?_, ?_, ?_⟩
  · exact (algoStackResize_behaviour _ 0 64 0).1 (by decide)
  · exact ((algoStackResize_behaviour _ 1 48 48).2 (by rfl) (by decide)).1 (by decide)
  · exact ((algoStackResize_behaviour _ 3 64 64).2 (by rfl) (by decide)).2 (by decide)

theorem edgeInAdj_any (g : AlgoGraphImpl) (u : Nat) (v : Int) :
    (g.vertexEdges.getD u []).any (fun e => e.destVertex = v) = true ↔
      edgeInAdj g u v := by
  unfold edgeInAdj
  simp

theorem addEdge_exists_noop (g : AlgoGraphImpl) (u v : Int)
    (hu : iGraphIsValidVertexId g u = true) (hv : iGraphIsValidVertexId g v = true)
    (huv : u ≠ v) (he : edgeInAdj g u.toNat v) :
    algoGraphAddEdge g u v = (.none, g) := by
  unfold algoGraphAddEdge
  rw [if_neg (by simp [hu, hv, huv])]
  rw [if_pos ((edgeInAdj_any g u.toNat v).mpr he)]

theorem addEdge_ok_facts (g : AlgoGraphImpl) (u v : Int)
    (hlen : g.vertexEdges.length = g.vertexCapacity.toNat)
    (h : (algoGraphAddEdge g u v).1 = .none) :
    iGraphIsValidVertexId (algoGraphAddEdge g u v).2 u = true ∧
    iGraphIsValidVertexId (algoGraphAddEdge g u v).2 v = true ∧ u ≠ v ∧
    edgeInAdj (algoGraphAddEdge g u v).2 u.toNat v ∧
    (algoGraphAddEdge g u v).2.vertexEdges.length = g.vertexCapacity.toNat := by
  by_cases hval : ¬ iGraphIsValidVertexId g u = true ∨
      ¬ iGraphIsValidVertexId g v = true ∨ u = v
  · exfalso
    unfold algoGraphAddEdge at h
    rw [if_pos hval] at h
    cases h
  · push_neg at hval
    obtain ⟨hu, hv, huv⟩ := hval
    have hu2 := (iGraphIsValidVertexId_iff g u).mp hu
    have hv2 := (iGraphIsValidVertexId_iff g v).mp hv
    have hdu : u.toNat < g.vertexDegrees.length := valid_lt_degLen g u hu
    have hdv : v.toNat < g.vertexDegrees.length := valid_lt_degLen g v hv
    have htn : u.toNat ≠ v.toNat := by omega
    have heu : u.toNat < g.vertexEdges.length := by
      rw [hlen]; omega
    have hev : v.toNat < g.vertexEdges.length := by
      rw [hlen]; omega
    unfold algoGraphAddEdge at h ⊢
    rw [if_neg (by simp [hu, hv, huv])] at h ⊢
    by_cases hex : (g.vertexEdges.getD u.toNat []).any (fun e => e.destVertex = v) = true
    · rw [if_pos hex] at h ⊢
      exact ⟨hu, hv, huv, (edgeInAdj_any g u.toNat v).mp hex, hlen⟩
    · rw [if_neg hex] at h ⊢
      by_cases hpool : g.edgePoolFreeCount = 0
      · exfalso
        rw [if_pos hpool] at h
        cases h
      · rw [if_neg hpool] at h ⊢
        dsimp only at h ⊢
        cases hmode : g.edgeMode with
        | directed =>
          rw [hmode] at h
          dsimp only at h ⊢
          refine ⟨?_, ?_, huv, ?_, by simp [hlen]⟩
          · rw [iGraphIsValidVertexId_iff]
            dsimp only
            rw [listGetD_set_self _ _ _ _ hdu]
            refine ⟨hu2.1, hu2.2.1, by omega⟩
          · rw [iGraphIsValidVertexId_iff]
            dsimp only
            rw [listGetD_set_ne _ _ _ _ _ htn]
            exact ⟨hv2.1, hv2.2.1, hv2.2.2⟩
          · unfold edgeInAdj
            dsimp only
            rw [listGetD_set_self _ _ _ _ heu]
            exact ⟨_, List.mem_cons_self _ _, rfl⟩
        | undirected =>
          rw [hmode] at h
          dsimp only at h ⊢
          by_cases hex2 : ((g.vertexEdges.set u.toNat
              ({ destVertex := v, weight := 0 } :: g.vertexEdges.getD u.toNat [])).getD
                v.toNat []).any (fun e => e.destVertex = u) = true
          · rw [if_pos hex2] at h ⊢
            refine ⟨?_, ?_, huv, ?_, by simp [hlen]⟩
            · rw [iGraphIsValidVertexId_iff]
              dsimp only
              rw [listGetD_set_self _ _ _ _ hdu]
              refine ⟨hu2.1, hu2.2.1, by omega⟩
            · rw [iGraphIsValidVertexId_iff]
              dsimp only
              rw [listGetD_set_ne _ _ _ _ _ htn]
              exact ⟨hv2.1, hv2.2.1, hv2.2.2⟩
            · unfold edgeInAdj
              dsimp only
              rw [listGetD_set_self _ _ _ _ heu]
              exact ⟨_, List.mem_cons_self _ _, rfl⟩
          · rw [if_neg hex2] at h ⊢
            by_cases hpool2 : g.edgePoolFreeCount - 1 = 0
            · exfalso
              rw [if_pos hpool2] at h
              cases h
            · rw [if_neg hpool2] at h ⊢
              refine ⟨?_, ?_, huv, ?_, by simp [hlen]⟩
              · rw [iGraphIsValidVertexId_iff]
                dsimp only
                rw [listGetD_set_ne _ _ _ _ _ (Ne.symm htn)]
                rw [listGetD_set_self _ _ _ _ hdu]
                refine ⟨hu2.1, hu2.2.1, by omega⟩
              · rw [iGraphIsValidVertexId_iff]
                dsimp only
                rw [listGetD_set_self _ _ _ _ (by simpa using hdv)]
                rw [listGetD_set_ne _ _ _ _ _ htn]
                refine ⟨hv2.1, hv2.2.1, by omega⟩
              · unfold edgeInAdj
                dsimp only
                rw [listGetD_set_ne _ _ _ _ _ (Ne.symm htn)]
                rw [listGetD_set_self _ _ _ _ heu]
                exact ⟨_, List.mem_cons_self _ _, rfl⟩

/-- C9.  `algoGraphAddEdge` is idempotent: when the edge `u -> v` already
exists between valid distinct vertices the call returns OK and leaves the
whole graph state unchanged; consequently, whenever an AddEdge call
succeeds, running the same AddEdge again returns OK and changes nothing
(two consecutive calls produce the same state as one). -/
theorem algoGraphAddEdge_idempotent (g : AlgoGraphImpl) (u v : Int) :
    (iGraphIsValidVertexId g u = true → iGraphIsValidVertexId g v = true →
      u ≠ v → edgeInAdj g u.toNat v → algoGraphAddEdge g u v = (.none, g)) ∧
    (g.vertexEdges.length = g.vertexCapacity.toNat →
      (algoGraphAddEdge g u v).1 = .none →
      algoGraphAddEdge (algoGraphAddEdge g u v).2 u v =
        (.none, (algoGraphAddEdge g u v).2)) := by
  constructor
  · exact addEdge_exists_noop g u v
  · intro hlen h
    obtain ⟨hu, hv, huv, he, _⟩ := addEdge_ok_facts g u v hlen h
    exact addEdge_exists_noop _ u v hu hv huv he

/-- Witness for C9: on the S5 graph, re-adding the existing edge 0-1 is a
no-op success, twice. -/
theorem algoGraphAddEdge_idempotent_witness :
    algoGraphAddEdge graphS5 0 1 = (.none, graphS5) ∧
    algoGraphAddEdge (algoGraphAddEdge graphS5 0 1).2 0 1 =
      (.none, (algoGraphAddEdge graphS5 0 1).2) := by
  constructor
  · exact (algoGraphAddEdge_idempotent graphS5 0 1).1 (by decide) (by decide)
      (by decide) (by decide)
  · exact (algoGraphAddEdge_idempotent graphS5 0 1).2 (by decide) (by decide)

/-- Counterexample for C8: with `heapCapacity = 0` (and likewise any
negative value) `algoHeapComputeBufferSize` returns OK with a computed
size, and `algoHeapCreate` succeeds, instead of the claimed
InvalidArgument: the heap performs no capacity validation. -/
theorem algoHeap_zero_capacity_not_rejected :
    algoHeapComputeBufferSize 0 = .ok 56 ∧
    algoHeapCreate 0 algoDataCompareIntAscending =
      .ok { keyCompare := algoDataCompareIntAscending, capacity := 0,
            nodes := [default] } ∧
    algoHeapComputeBufferSize 0 ≠ .error .invalidArgument := by
  refine ⟨rfl, rfl, ?_⟩
  intro hc
  rw [show algoHeapComputeBufferSize 0 = .ok 56 from rfl] at hc
  cases hc

/-- C8 (amended).  Pool, stack and queue reject a capacity below 1 in both
the BufferSize query and Create, and graph Create rejects nonpositive
vertex/edge capacities; but the heap performs no capacity validation at
all (BufferSize and Create succeed for every capacity, zero and negative
included), and graph BufferSize rejects only negative capacities (zero
vertex capacity with a positive edge capacity is accepted). -/
theorem capacity_validation_by_container :
    (∀ es cap : Int, cap < 1 →
      algoAllocPoolComputeBufferSize es cap = .error .invalidArgument ∧
      algoAllocPoolCreate es cap = .error .invalidArgument) ∧
    (∀ cap : Int, cap < 1 →
      algoStackComputeBufferSize cap = .error .invalidArgument ∧
      algoStackCreate cap = .error .invalidArgument) ∧
    (∀ cap : Int, cap < 1 →
      algoQueueComputeBufferSize cap = .error .invalidArgument ∧
      algoQueueCreate cap = .error .invalidArgument) ∧
    (∀ (vcap ecap : Int) (mode : AlgoGraphEdgeMode), vcap ≤ 0 ∨ ecap ≤ 0 →
      algoGraphCreate vcap ecap mode = .error .invalidArgument) ∧
    (∀ cap : Int, (∃ n, algoHeapComputeBufferSize cap = .ok n) ∧
      ∀ cmp, ∃ h, algoHeapCreate cap cmp = .ok h) ∧
    (∀ (vcap ecap : Int) (mode : AlgoGraphEdgeMode), vcap < 0 ∨ ecap < 0 →
      algoGraphComputeBufferSize vcap ecap mode = .error .invalidArgument) ∧
    (∀ (ecap : Int) (mode : AlgoGraphEdgeMode), 1 ≤ ecap →
      ∃ n, algoGraphComputeBufferSize 0 ecap mode = .ok n) := by
  refine ⟨?_, ?_, ?_, ?_, ?_, ?_, ?_⟩
  · intro es cap h
    constructor
    · unfold algoAllocPoolComputeBufferSize
      rw [if_pos (Or.inr h)]
    · unfold algoAllocPoolCreate
      rw [if_pos (Or.inr h)]
  · intro cap h
    constructor
    · unfold algoStackComputeBufferSize
      rw [if_pos h]
    · unfold algoStackCreate
      rw [if_pos h]
  · intro cap h
    constructor
    · unfold algoQueueComputeBufferSize
      rw [if_pos h]
    · unfold algoQueueCreate
      rw [if_pos h]
  · intro vcap ecap mode h
    unfold algoGraphCreate
    rw [if_pos (by omega)]
  · intro cap
    exact ⟨⟨_, rfl⟩, fun cmp => ⟨_, rfl⟩⟩
  · intro vcap ecap mode h
    unfold algoGraphComputeBufferSize
    rw [if_pos (by omega)]
  · intro ecap mode h
    unfold algoGraphComputeBufferSize
    rw [if_neg (by omega)]
    have hcond : ¬((sizeofAlgoGraphEdge : Int) < 4 ∨
        ecap * (iGraphNodesPerEdge mode : Int) < 1) := by
      push_neg
      refine ⟨by simp [sizeofAlgoGraphEdge], ?_⟩
      cases mode <;> simp [iGraphNodesPerEdge] <;> nlinarith
    have hp : algoAllocPoolComputeBufferSize (sizeofAlgoGraphEdge : Int)
        (ecap * (iGraphNodesPerEdge mode : Int)) =
        .ok (sizeofAlgoAllocPoolImpl +
          (ecap * (iGraphNodesPerEdge mode : Int) * (sizeofAlgoGraphEdge : Int)).toNat) := by
      unfold algoAllocPoolComputeBufferSize
      rw [if_neg hcond]
    rw [hp]
    exact ⟨_, rfl⟩

/-- Witness for C8: the amended behaviour at concrete inputs (capacity 0
everywhere). -/
theorem capacity_validation_by_container_witness :
    (algoAllocPoolComputeBufferSize 8 0 = .error .invalidArgument ∧
      algoAllocPoolCreate 8 0 = .error .invalidArgument) ∧
    (algoStackComputeBufferSize 0 = .error .invalidArgument ∧
      algoStackCreate 0 = .error .invalidArgument) ∧
    (algoQueueComputeBufferSize 0 = .error .invalidArgument ∧
      algoQueueCreate 0 = .error .invalidArgument) ∧
    algoGraphCreate 0 1 AlgoGraphEdgeMode.directed = .error .invalidArgument ∧
    (∃ n, algoHeapComputeBufferSize 0 = .ok n) ∧
    algoGraphComputeBufferSize (-1) 1 AlgoGraphEdgeMode.directed =
      .error .invalidArgument ∧
    (∃ n, algoGraphComputeBufferSize 0 1 AlgoGraphEdgeMode.directed = .ok n) := by
  refine ⟨?_, ?_, ?_, ?_, ?_, ?_, ?_⟩
  · exact capacity_validation_by_container.1 8 0 (by decide)
  · exact capacity_validation_by_container.2.1 0 (by decide)
  · exact capacity_validation_by_container.2.2.1 0 (by decide)
  · exact capacity_validation_by_container.2.2.2.1 0 1 _ (by left; decide)
  · exact (capacity_validation_by_container.2.2.2.2.1 0).1
  · exact capacity_validation_by_container.2.2.2.2.2.1 (-1) 1 _ (by left; decide)
  · exact capacity_validation_by_container.2.2.2.2.2.2 1 _ (by decide)

/-- C3.  `algoGraphTopoSort` on an undirected graph returns OperationFailed
as claimed (first conjunct, scenario-S5 graph); but on a cyclic directed
graph (vertices 0,1 with edges 0→1 and 1→0) it returns kAlgoErrorNone, not
the claimed OperationFailed: the cycle only trips the back-edge
`ALGO_ASSERT` inside the DFS edge callback, which is compiled out of
release builds and never turned into an error return. -/
theorem algoGraphTopoSort_cycle_not_surfaced :
    algoGraphTopoSort graphS5 4 true = (.operationFailed, [0, 0, 0, 0]) ∧
    algoGraphTopoSort graphCycle2 2 true = (.none, [0, 1]) := by
  exact ⟨rfl, rfl⟩

theorem lawful_cmp_refl {cmp : AlgoData → AlgoData → Int}
    (h : LawfulCompare cmp) (a : AlgoData) : cmp a a = 0 := by
  have hs := h.1 a a
  have h0 : Int.sign (cmp a a) = 0 := by omega
  exact Int.sign_eq_zero_iff_zero.mp h0

theorem lawful_cmp_le_of_not_le {cmp : AlgoData → AlgoData → Int}
    (h : LawfulCompare cmp) {a b : AlgoData} (hab : ¬ cmp a b ≤ 0) :
    cmp b a ≤ 0 := by
  have hs := h.1 a b
  have h1 : Int.sign (cmp a b) = 1 := Int.sign_eq_one_iff_pos.mpr (by omega)
  rw [h1] at hs
  have h2 : Int.sign (cmp b a) = -1 := by omega
  have := Int.sign_eq_neg_one_iff_neg.mp h2
  omega

theorem lawful_cmp_not_lt_of_le {cmp : AlgoData → AlgoData → Int}
    (h : LawfulCompare cmp) {a b : AlgoData} (hab : cmp a b ≤ 0) :
    ¬ cmp b a < 0 := by
  intro hba
  have hs := h.1 a b
  have h2 : Int.sign (cmp b a) = -1 := Int.sign_eq_neg_one_iff_neg.mpr hba
  rw [h2] at hs
  have h1 : Int.sign (cmp a b) = 1 := by omega
  have := Int.sign_eq_one_iff_pos.mp h1
  omega

theorem heapNodes_length_swap (nodes : List AlgoHeapNode) (i j : Nat) :
    (iHeapSwapNodes nodes i j).length = nodes.length := by
  unfold iHeapSwapNodes
  simp

theorem heapNodes_getD_swap_fst (nodes : List AlgoHeapNode) (i j : Nat)
    (hi : i < nodes.length) (hj : j < nodes.length) :
    (iHeapSwapNodes nodes i j).getD i default =
      if i = j then nodes.getD i default else nodes.getD j default := by
  unfold iHeapSwapNodes
  by_cases hij : i = j
  · subst hij
    rw [if_pos rfl]
    rw [listGetD_set_self _ _ _ _ (by simpa using hi)]
  · rw [if_neg hij]
    rw [listGetD_set_ne _ _ _ _ _ (Ne.symm hij)]
    rw [listGetD_set_self _ _ _ _ hi]

theorem heapNodes_getD_swap_snd (nodes : List AlgoHeapNode) (i j : Nat)
    (hj : j < nodes.length) :
    (iHeapSwapNodes nodes i j).getD j default = nodes.getD i default := by
  unfold iHeapSwapNodes
  rw [listGetD_set_self _ _ _ _ (by simpa using hj)]

theorem heapNodes_getD_swap_other (nodes : List AlgoHeapNode) (i j k : Nat)
    (hki : k ≠ i) (hkj : k ≠ j) :
    (iHeapSwapNodes nodes i j).getD k default = nodes.getD k default := by
  unfold iHeapSwapNodes
  rw [listGetD_set_ne _ _ _ _ _ (Ne.symm hkj), listGetD_set_ne _ _ _ _ _ (Ne.symm hki)]

theorem iHeapBubbleUpLoop_heapProp (cmp : AlgoData → AlgoData → Int)
    (hlc : LawfulCompare cmp) (fuel : Nat) (nodes : List AlgoHeapNode) (j : Nat)
    (hj1 : 1 ≤ j) (hj2 : j < nodes.length) (hfuel : j ≤ fuel)
    (inv1 : ∀ i, 2 ≤ i → i < nodes.length → i ≠ j →
      cmp (nodes.getD (i / 2) default).key (nodes.getD i default).key ≤ 0)
    (inv2 : 2 ≤ j → ∀ c, c / 2 = j → c < nodes.length →
      cmp (nodes.getD (j / 2) default).key (nodes.getD c default).key ≤ 0) :
    (iHeapBubbleUpLoop cmp fuel nodes j).length = nodes.length ∧
    ∀ i, 2 ≤ i → i < nodes.length →
      cmp ((iHeapBubbleUpLoop cmp fuel nodes j).getD (i / 2) default).key
        ((iHeapBubbleUpLoop cmp fuel nodes j).getD i default).key ≤ 0 := by
  obtain ⟨f, rfl⟩ : ∃ f, fuel = f + 1 := ⟨fuel - 1, by omega⟩
  simp only [iHeapBubbleUpLoop]
  by_cases hgt : kAlgoHeapRootIndex < j
  · rw [if_pos hgt]
    have hj2g : 2 ≤ j := by simpa [kAlgoHeapRootIndex] using hgt
    by_cases hcmp : cmp (nodes.getD (j / 2) default).key
        (nodes.getD j default).key ≤ 0
    · rw [if_pos hcmp]
      refine ⟨rfl, fun i h2 hi => ?_⟩
      by_cases hij : i = j
      · subst hij
        exact hcmp
      · exact inv1 i h2 hi hij
    · rw [if_neg hcmp]
      have hpj : j / 2 < j := by omega
      have hp1 : 1 ≤ j / 2 := by omega
      have hp2 : j / 2 < nodes.length := by omega
      have hlen : (iHeapSwapNodes nodes (j / 2) j).length = nodes.length :=
        heapNodes_length_swap nodes (j / 2) j
      have hswp : (iHeapSwapNodes nodes (j / 2) j).getD (j / 2) default =
          nodes.getD j default := by
        rw [heapNodes_getD_swap_fst nodes (j / 2) j hp2 hj2, if_neg (by omega)]
      have hswj : (iHeapSwapNodes nodes (j / 2) j).getD j default =
          nodes.getD (j / 2) default :=
        heapNodes_getD_swap_snd nodes (j / 2) j hj2
      have hswo : ∀ k, k ≠ j / 2 → k ≠ j →
          (iHeapSwapNodes nodes (j / 2) j).getD k default =
            nodes.getD k default :=
        fun k h1 h2 => heapNodes_getD_swap_other nodes (j / 2) j k h1 h2
      have hjp_le : cmp (nodes.getD j default).key
          (nodes.getD (j / 2) default).key ≤ 0 :=
        lawful_cmp_le_of_not_le hlc hcmp
      have newInv1 : ∀ i, 2 ≤ i → i < (iHeapSwapNodes nodes (j / 2) j).length →
          i ≠ j / 2 →
          cmp ((iHeapSwapNodes nodes (j / 2) j).getD (i / 2) default).key
            ((iHeapSwapNodes nodes (j / 2) j).getD i default).key ≤ 0 := by
        intro i h2 hi hip
        rw [hlen] at hi
        by_cases hij : i = j
        · subst hij
          rw [show i / 2 = i / 2 from rfl] at *
          rw [hswp, hswj]
          exact hjp_le
        · by_cases hip2 : i / 2 = j / 2
          · rw [hip2, hswp, hswo i hip hij]
            exact hlc.2 _ _ _ hjp_le (by
              have := inv1 i h2 hi hij
              rw [hip2] at this
              exact this)
          · by_cases hij2 : i / 2 = j
            · rw [hij2, hswj, hswo i hip hij]
              have := inv2 hj2g i hij2 hi
              exact this
            · rw [hswo (i / 2) hip2 hij2, hswo i hip hij]
              exact inv1 i h2 hi hij
      have newInv2 : 2 ≤ j / 2 → ∀ c, c / 2 = j / 2 →
          c < (iHeapSwapNodes nodes (j / 2) j).length →
          cmp ((iHeapSwapNodes nodes (j / 2) j).getD (j / 2 / 2) default).key
            ((iHeapSwapNodes nodes (j / 2) j).getD c default).key ≤ 0 := by
        intro hp2g c hc hcl
        rw [hlen] at hcl
        have hpp : j / 2 / 2 ≠ j / 2 := by omega
        have hppj : j / 2 / 2 ≠ j := by omega
        rw [hswo (j / 2 / 2) hpp hppj]
        have hbase : cmp (nodes.getD (j / 2 / 2) default).key
            (nodes.getD (j / 2) default).key ≤ 0 :=
          inv1 (j / 2) hp2g hp2 (by omega)
        by_cases hcj : c = j
        · subst hcj
          rw [hswj]
          exact hbase
        · have hcp : c ≠ j / 2 := by omega
          rw [hswo c hcp hcj]
          have hc2 : 2 ≤ c := by omega
          have hstep : cmp (nodes.getD (j / 2) default).key
              (nodes.getD c default).key ≤ 0 := by
            have := inv1 c hc2 hcl hcj
            rw [hc] at this
            exact this
          exact hlc.2 _ _ _ hbase hstep
      have hj2' : j / 2 < nodes.length := hp2
      obtain ⟨hL, hP⟩ := iHeapBubbleUpLoop_heapProp cmp hlc f
        (iHeapSwapNodes nodes (j / 2) j) (j / 2) hp1 (by omega) (by omega)
        newInv1 newInv2
      refine ⟨by rw [hL, hlen], fun i h2 hi => hP i h2 (by rw [hlen]; exact hi)⟩
  · rw [if_neg hgt]
    refine ⟨rfl, fun i h2 hi => inv1 i h2 hi (by
      simp only [kAlgoHeapRootIndex] at hgt
      omega)⟩
termination_by fuel
decreasing_by omega

theorem iHeapBubbleUp_heapProp (cmp : AlgoData → AlgoData → Int)
    (hlc : LawfulCompare cmp) (nodes : List AlgoHeapNode) (j : Nat)
    (hj1 : 1 ≤ j) (hj2 : j < nodes.length)
    (inv1 : ∀ i, 2 ≤ i → i < nodes.length → i ≠ j →
      cmp (nodes.getD (i / 2) default).key (nodes.getD i default).key ≤ 0)
    (inv2 : 2 ≤ j → ∀ c, c / 2 = j → c < nodes.length →
      cmp (nodes.getD (j / 2) default).key (nodes.getD c default).key ≤ 0) :
    (iHeapBubbleUp cmp nodes j).length = nodes.length ∧
    ∀ i, 2 ≤ i → i < nodes.length →
      cmp ((iHeapBubbleUp cmp nodes j).getD (i / 2) default).key
        ((iHeapBubbleUp cmp nodes j).getD i default).key ≤ 0 :=
  iHeapBubbleUpLoop_heapProp cmp hlc j nodes j hj1 hj2 le_rfl inv1 inv2

theorem listGetD_append_left {α : Type} (l l2 : List α) (i : Nat) (d : α)
    (h : i < l.length) : (l ++ l2).getD i d = l.getD i d := by
  simp [List.getD_eq_getElem?_getD, List.getElem?_append_left h]

theorem algoHeapInsert_heapProp (h : AlgoHeap) (k d : AlgoData)
    (hlc : LawfulCompare h.keyCompare) (hne : 1 ≤ h.nodes.length)
    (hp : HeapProp h) :
    HeapProp (algoHeapInsert h k d).2 ∧
    (algoHeapInsert h k d).2.keyCompare = h.keyCompare ∧
    1 ≤ (algoHeapInsert h k d).2.nodes.length := by
  unfold algoHeapInsert
  by_cases hfull : iHeapCurrentSize h ≥ h.capacity
  · rw [if_pos hfull]
    exact ⟨hp, rfl, hne⟩
  · rw [if_neg hfull]
    dsimp only
    have hlen2 : (h.nodes ++ [(⟨k, d⟩ : AlgoHeapNode)]).length = h.nodes.length + 1 := by
      simp
    have inv1 : ∀ i, 2 ≤ i → i < (h.nodes ++ [(⟨k, d⟩ : AlgoHeapNode)]).length →
        i ≠ h.nextEmpty →
        h.keyCompare (((h.nodes ++ [(⟨k, d⟩ : AlgoHeapNode)]).getD (i / 2) default).key)
          (((h.nodes ++ [(⟨k, d⟩ : AlgoHeapNode)]).getD i default).key) ≤ 0 := by
      intro i h2 hi hin
      rw [hlen2] at hi
      have hin2 : i < h.nodes.length := by
        have : h.nextEmpty = h.nodes.length := rfl
        omega
      rw [listGetD_append_left _ _ _ _ (by omega), listGetD_append_left _ _ _ _ hin2]
      exact hp i h2 hin2
    have inv2 : 2 ≤ h.nextEmpty → ∀ c, c / 2 = h.nextEmpty →
        c < (h.nodes ++ [(⟨k, d⟩ : AlgoHeapNode)]).length →
        h.keyCompare (((h.nodes ++ [(⟨k, d⟩ : AlgoHeapNode)]).getD (h.nextEmpty / 2) default).key)
          (((h.nodes ++ [(⟨k, d⟩ : AlgoHeapNode)]).getD c default).key) ≤ 0 := by
      intro hge c hc hcl
      rw [hlen2] at hcl
      have : h.nextEmpty = h.nodes.length := rfl
      omega
    have harg : h.nextEmpty < (h.nodes ++ [(⟨k, d⟩ : AlgoHeapNode)]).length := by
      rw [hlen2]
      exact Nat.lt_succ_self _
    obtain ⟨hL, hP⟩ := iHeapBubbleUp_heapProp h.keyCompare hlc
      (h.nodes ++ [(⟨k, d⟩ : AlgoHeapNode)]) h.nextEmpty hne harg inv1 inv2
    simp only [AlgoHeap.nextEmpty] at hL hP
    simp only [hlen2] at hL hP
    refine ⟨?_, rfl, ?_⟩
    · intro i h2 hi
      refine hP i h2 ?_
      have hi2 : i < (iHeapBubbleUp h.keyCompare
          (h.nodes ++ [(⟨k, d⟩ : AlgoHeapNode)]) h.nodes.length).length := hi
      rw [hL] at hi2
      exact hi2
    · show 1 ≤ (iHeapBubbleUp h.keyCompare
        (h.nodes ++ [(⟨k, d⟩ : AlgoHeapNode)]) h.nodes.length).length
      rw [hL]
      omega

theorem lawful_cmp_le_of_not_lt {cmp : AlgoData → AlgoData → Int}
    (h : LawfulCompare cmp) {a b : AlgoData} (hab : ¬ cmp a b < 0) :
    cmp b a ≤ 0 := by
  by_cases hz : cmp a b = 0
  · have hs := h.1 a b
    rw [hz] at hs
    have h0 : Int.sign (cmp b a) = 0 := by
      simp only [Int.sign_zero] at hs
      omega
    have := Int.sign_eq_zero_iff_zero.mp h0
    omega
  · exact lawful_cmp_le_of_not_le h (by omega)

theorem iHeapMinKeyIndex_spec (cmp : AlgoData → AlgoData → Int)
    (hlc : LawfulCompare cmp) (ne : Nat) (nodes : List AlgoHeapNode) (p : Nat)
    (hp1 : 1 ≤ p) (hguard : 2 * p < ne) :
    (iHeapMinKeyIndex cmp ne nodes p = p →
      cmp (nodes.getD p default).key (nodes.getD (2 * p) default).key ≤ 0 ∧
      (2 * p + 1 < ne →
        cmp (nodes.getD p default).key (nodes.getD (2 * p + 1) default).key ≤ 0)) ∧
    (iHeapMinKeyIndex cmp ne nodes p ≠ p →
      p < iHeapMinKeyIndex cmp ne nodes p ∧
      iHeapMinKeyIndex cmp ne nodes p < ne ∧
      (iHeapMinKeyIndex cmp ne nodes p = 2 * p ∨
        iHeapMinKeyIndex cmp ne nodes p = 2 * p + 1) ∧
      cmp (nodes.getD (iHeapMinKeyIndex cmp ne nodes p) default).key
        (nodes.getD p default).key < 0 ∧
      cmp (nodes.getD (iHeapMinKeyIndex cmp ne nodes p) default).key
        (nodes.getD (2 * p) default).key ≤ 0 ∧
      (2 * p + 1 < ne →
        cmp (nodes.getD (iHeapMinKeyIndex cmp ne nodes p) default).key
          (nodes.getD (2 * p + 1) default).key ≤ 0)) := by
  unfold iHeapMinKeyIndex
  dsimp only
  by_cases h1 : cmp (nodes.getD (2 * p) default).key (nodes.getD p default).key < 0
  · rw [if_pos h1]
    by_cases h2 : 2 * p + 1 < ne ∧ cmp (nodes.getD (2 * p + 1) default).key
        (nodes.getD (2 * p) default).key < 0
    · rw [if_pos h2]
      constructor
      · intro hp
        omega
      · intro _
        have hrp : cmp (nodes.getD (2 * p + 1) default).key
            (nodes.getD p default).key < 0 := by
          by_contra hc
          have hpr := lawful_cmp_le_of_not_lt hlc hc
          have hrl : cmp (nodes.getD (2 * p + 1) default).key
              (nodes.getD (2 * p) default).key ≤ 0 := by omega
          have hpl : cmp (nodes.getD p default).key
              (nodes.getD (2 * p) default).key ≤ 0 := hlc.2 _ _ _ hpr hrl
          exact lawful_cmp_not_lt_of_le hlc hpl h1
        refine ⟨by omega, h2.1, Or.inr rfl, hrp, by omega, fun _ => ?_⟩
        have := lawful_cmp_refl hlc (nodes.getD (2 * p + 1) default).key
        omega
    · rw [if_neg h2]
      constructor
      · intro hp
        omega
      · intro _
        refine ⟨by omega, hguard, Or.inl rfl, h1, ?_, ?_⟩
        · have := lawful_cmp_refl hlc (nodes.getD (2 * p) default).key
          omega
        · intro hr
          have hnr : ¬ cmp (nodes.getD (2 * p + 1) default).key
              (nodes.getD (2 * p) default).key < 0 := by tauto
          exact lawful_cmp_le_of_not_lt hlc hnr
  · rw [if_neg h1]
    by_cases h2 : 2 * p + 1 < ne ∧ cmp (nodes.getD (2 * p + 1) default).key
        (nodes.getD p default).key < 0
    · rw [if_pos h2]
      constructor
      · intro hp
        omega
      · intro _
        refine ⟨by omega, h2.1, Or.inr rfl, h2.2, ?_, fun _ => ?_⟩
        · exact hlc.2 _ _ _ (by omega) (lawful_cmp_le_of_not_lt hlc h1)
        · have := lawful_cmp_refl hlc (nodes.getD (2 * p + 1) default).key
          omega
    · rw [if_neg h2]
      constructor
      · intro _
        refine ⟨lawful_cmp_le_of_not_lt hlc h1, fun hr => ?_⟩
        have hnr : ¬ cmp (nodes.getD (2 * p + 1) default).key
            (nodes.getD p default).key < 0 := by tauto
        exact lawful_cmp_le_of_not_lt hlc hnr
      · intro hp
        omega

theorem iHeapBubbleDownLoop_heapProp (cmp : AlgoData → AlgoData → Int)
    (hlc : LawfulCompare cmp) (ne : Nat) (fuel : Nat)
    (nodes : List AlgoHeapNode) (p : Nat) (v : AlgoHeapNode)
    (hp1 : 1 ≤ p) (hpn : p < ne) (hnl : ne ≤ nodes.length)
    (hfuel : ne - p ≤ fuel)
    (hvp : nodes.getD p default = v) (hvl : nodes.getD (ne - 1) default = v)
    (inv1 : ∀ i, 2 ≤ i → i < ne → i / 2 ≠ p →
      cmp (nodes.getD (i / 2) default).key (nodes.getD i default).key ≤ 0)
    (inv2 : 2 ≤ p → ∀ c, c / 2 = p → c < ne →
      cmp (nodes.getD (p / 2) default).key (nodes.getD c default).key ≤ 0) :
    (iHeapBubbleDownLoop cmp ne fuel nodes p).length = nodes.length ∧
    (∀ i, 2 ≤ i → i < ne →
      cmp ((iHeapBubbleDownLoop cmp ne fuel nodes p).getD (i / 2) default).key
        ((iHeapBubbleDownLoop cmp ne fuel nodes p).getD i default).key ≤ 0) ∧
    (iHeapBubbleDownLoop cmp ne fuel nodes p).getD (ne - 1) default = v ∧
    (∀ k, 1 ≤ k → k < ne → ∃ k2, 1 ≤ k2 ∧ k2 < ne ∧
      (iHeapBubbleDownLoop cmp ne fuel nodes p).getD k default =
        nodes.getD k2 default) := by
  obtain ⟨f, rfl⟩ : ∃ f, fuel = f + 1 := ⟨fuel - 1, by omega⟩
  simp only [iHeapBubbleDownLoop]
  by_cases hguard : 2 * p < ne
  case neg =>
    rw [if_neg hguard]
    refine ⟨rfl, ?_, hvl, fun k h1 h2 => ⟨k, h1, h2, rfl⟩⟩
    intro i h2 hi
    by_cases hip : i / 2 = p
    · omega
    · exact inv1 i h2 hi hip
  case pos =>
    rw [if_pos hguard]
    obtain ⟨hspec1, hspec2⟩ := iHeapMinKeyIndex_spec cmp hlc ne nodes p hp1 hguard
    set m := iHeapMinKeyIndex cmp ne nodes p with hm_def
    by_cases hm : m = p
    · rw [if_pos hm]
      obtain ⟨hl, hr⟩ := hspec1 hm
      refine ⟨rfl, ?_, hvl, fun k h1 h2 => ⟨k, h1, h2, rfl⟩⟩
      intro i h2 hi
      by_cases hip : i / 2 = p
      · have hior : i = 2 * p ∨ i = 2 * p + 1 := by omega
        rw [hip]
        rcases hior with rfl | rfl
        · exact hl
        · exact hr hi
      · exact inv1 i h2 hi hip
    · rw [if_neg hm]
      obtain ⟨hpm, hmn, hm2p, hmp_lt, hml, hmr⟩ := hspec2 hm
      have hm2 : m / 2 = p := by omega
      have hpl : p < nodes.length := by omega
      have hmll : m < nodes.length := by omega
      have hpne1 : p ≠ ne - 1 := by omega
      have hmne1 : m ≠ ne - 1 := by
        intro hmeq
        rw [hmeq, hvl, ← hvp] at hmp_lt
        have := lawful_cmp_refl hlc (nodes.getD p default).key
        omega
      have hswlen : (iHeapSwapNodes nodes p m).length = nodes.length :=
        heapNodes_length_swap nodes p m
      have hswp : (iHeapSwapNodes nodes p m).getD p default =
          nodes.getD m default := by
        rw [heapNodes_getD_swap_fst nodes p m hpl hmll, if_neg (by omega)]
      have hswm : (iHeapSwapNodes nodes p m).getD m default =
          nodes.getD p default := heapNodes_getD_swap_snd nodes p m hmll
      have hswo : ∀ k, k ≠ p → k ≠ m →
          (iHeapSwapNodes nodes p m).getD k default = nodes.getD k default :=
        fun k h1 h2 => heapNodes_getD_swap_other nodes p m k h1 h2
      have newInv1 : ∀ i, 2 ≤ i → i < ne → i / 2 ≠ m →
          cmp ((iHeapSwapNodes nodes p m).getD (i / 2) default).key
            ((iHeapSwapNodes nodes p m).getD i default).key ≤ 0 := by
        intro i h2 hi him2
        by_cases hip : i = p
        · subst hip
          have hi2 : 2 ≤ i := h2
          have hpp : i / 2 ≠ i := by omega
          have hppm : i / 2 ≠ m := him2
          rw [hswo (i / 2) hpp hppm, hswp]
          exact inv2 h2 m hm2 hmn
        · by_cases him : i = m
          · subst him
            rw [hm2, hswp, hswm]
            omega
          · by_cases hi2p : i / 2 = p
            · rw [hi2p, hswp, hswo i hip him]
              have hior : i = 2 * p ∨ i = 2 * p + 1 := by omega
              rcases hior with rfl | rfl
              · exact hml
              · exact hmr hi
            · rw [hswo (i / 2) hi2p him2, hswo i hip him]
              exact inv1 i h2 hi hi2p
      have newInv2 : 2 ≤ m → ∀ c, c / 2 = m → c < ne →
          cmp ((iHeapSwapNodes nodes p m).getD (m / 2) default).key
            ((iHeapSwapNodes nodes p m).getD c default).key ≤ 0 := by
        intro hm2g c hc hcl
        have hcp : c ≠ p := by omega
        have hcm : c ≠ m := by omega
        rw [hm2, hswp, hswo c hcp hcm]
        have hc2 : 2 ≤ c := by omega
        have hc2p : c / 2 ≠ p := by omega
        have := inv1 c hc2 hcl hc2p
        rw [hc] at this
        exact this
      obtain ⟨rL, rP, rS, rM⟩ := iHeapBubbleDownLoop_heapProp cmp hlc ne f
        (iHeapSwapNodes nodes p m) m v (by omega) hmn (by omega) (by omega)
        (by rw [hswm]; exact hvp) (by rw [hswo (ne - 1) hpne1.symm hmne1.symm]; exact hvl)
        newInv1 newInv2
      refine ⟨by rw [rL, hswlen], rP, rS, ?_⟩
      intro k h1 h2
      obtain ⟨k2, hk1, hk2, hkeq⟩ := rM k h1 h2
      by_cases hk2p : k2 = p
      · subst hk2p
        rw [hswp] at hkeq
        exact ⟨m, by omega, hmn, hkeq⟩
      · by_cases hk2m : k2 = m
        · subst hk2m
          rw [hswm] at hkeq
          exact ⟨p, hp1, hpn, hkeq⟩
        · rw [hswo k2 hk2p hk2m] at hkeq
          exact ⟨k2, hk1, hk2, hkeq⟩
termination_by fuel
decreasing_by omega

theorem iHeapBubbleDown_heapProp (cmp : AlgoData → AlgoData → Int)
    (hlc : LawfulCompare cmp) (ne : Nat) (nodes : List AlgoHeapNode) (p : Nat)
    (v : AlgoHeapNode)
    (hp1 : 1 ≤ p) (hpn : p < ne) (hnl : ne ≤ nodes.length)
    (hvp : nodes.getD p default = v) (hvl : nodes.getD (ne - 1) default = v)
    (inv1 : ∀ i, 2 ≤ i → i < ne → i / 2 ≠ p →
      cmp (nodes.getD (i / 2) default).key (nodes.getD i default).key ≤ 0)
    (inv2 : 2 ≤ p → ∀ c, c / 2 = p → c < ne →
      cmp (nodes.getD (p / 2) default).key (nodes.getD c default).key ≤ 0) :
    (iHeapBubbleDown cmp ne nodes p).length = nodes.length ∧
    (∀ i, 2 ≤ i → i < ne →
      cmp ((iHeapBubbleDown cmp ne nodes p).getD (i / 2) default).key
        ((iHeapBubbleDown cmp ne nodes p).getD i default).key ≤ 0) ∧
    (iHeapBubbleDown cmp ne nodes p).getD (ne - 1) default = v ∧
    (∀ k, 1 ≤ k → k < ne → ∃ k2, 1 ≤ k2 ∧ k2 < ne ∧
      (iHeapBubbleDown cmp ne nodes p).getD k default = nodes.getD k2 default) :=
  iHeapBubbleDownLoop_heapProp cmp hlc ne (ne - p) nodes p v hp1 hpn hnl le_rfl
    hvp hvl inv1 inv2

theorem listGetD_take {α : Type} (l : List α) (n i : Nat) (d : α) (h : i < n) :
    (l.take n).getD i d = l.getD i d := by
  by_cases hi : i < l.length
  · rw [List.getD_eq_getElem?_getD, List.getD_eq_getElem?_getD,
      List.getElem?_take, if_pos h]
  · rw [listGetD_of_len_le _ _ _ (by simp; omega), listGetD_of_len_le _ _ _ (by omega)]

theorem mem_tail_iff_getD (l : List AlgoHeapNode) (nd : AlgoHeapNode) :
    nd ∈ l.tail ↔ ∃ j, 1 ≤ j ∧ j < l.length ∧ l.getD j default = nd := by
  constructor
  · intro hmem
    obtain ⟨i, hi, heq⟩ := List.mem_iff_getElem.mp hmem
    have hlt : i + 1 < l.length := by
      have := l.length_tail
      omega
    have h3 : l.tail[i] = l[i + 1] := by
      rw [← List.get_eq_getElem l.tail ⟨i, hi⟩, ← List.get_eq_getElem l ⟨i + 1, hlt⟩]
      exact List.get_tail l i hi hlt
    refine ⟨i + 1, by omega, hlt, ?_⟩
    rw [List.getD_eq_getElem l default hlt, ← h3]
    exact heq
  · rintro ⟨j, h1, h2, heq⟩
    have hjt : j - 1 < l.tail.length := by
      have := l.length_tail
      omega
    have hlt : j - 1 + 1 < l.length := by omega
    have h3 : l.tail[j - 1] = l[j - 1 + 1] := by
      rw [← List.get_eq_getElem l.tail ⟨j - 1, hjt⟩,
        ← List.get_eq_getElem l ⟨j - 1 + 1, hlt⟩]
      exact List.get_tail l (j - 1) hjt hlt
    refine List.mem_iff_getElem.mpr ⟨j - 1, hjt, ?_⟩
    rw [h3]
    rw [List.getD_eq_getElem l default h2] at heq
    have hj : j - 1 + 1 = j := by omega
    simp only [hj]
    exact heq

theorem heapProp_root_min (h : AlgoHeap) (hlc : LawfulCompare h.keyCompare)
    (hp : HeapProp h) :
    ∀ i, 1 ≤ i → i < h.nodes.length →
      h.keyCompare (h.nodes.getD 1 default).key (h.nodes.getD i default).key ≤ 0 := by
  intro i
  induction i using Nat.strong_induction_on with
  | _ i ih =>
    intro h1 hi
    by_cases hone : i = 1
    · subst hone
      have := lawful_cmp_refl hlc (h.nodes.getD 1 default).key
      omega
    · have h2i : 2 ≤ i := by omega
      have hpar := ih (i / 2) (by omega) (by omega) (by omega)
      exact hlc.2 _ _ _ hpar (hp i h2i hi)

theorem algoHeapPop_spec (h : AlgoHeap)
    (hlc : LawfulCompare h.keyCompare) (hp : HeapProp h)
    (hne : 2 ≤ h.nodes.length) :
    ∃ h2, algoHeapPop h =
      .ok ((h.nodes.getD 1 default).key, (h.nodes.getD 1 default).data, h2) ∧
      HeapProp h2 ∧ h2.keyCompare = h.keyCompare ∧
      h2.nodes.length = h.nodes.length - 1 ∧
      (∀ nd ∈ h2.nodes.tail, nd ∈ h.nodes.tail) := by
  have hlen1 : 1 < h.nodes.length := by omega
  have hmovedlen : (h.nodes.set 1 (h.nodes.getD (h.nodes.length - 1) default)).length
      = h.nodes.length := by simp
  have hvp : (h.nodes.set 1 (h.nodes.getD (h.nodes.length - 1) default)).getD 1 default
      = h.nodes.getD (h.nodes.length - 1) default :=
    listGetD_set_self _ _ _ _ hlen1
  have hvl : (h.nodes.set 1 (h.nodes.getD (h.nodes.length - 1) default)).getD
      (h.nodes.length - 1) default = h.nodes.getD (h.nodes.length - 1) default := by
    by_cases hlast : h.nodes.length - 1 = 1
    · rw [hlast]
      rw [hlast] at hvp
      exact hvp
    · exact listGetD_set_ne _ _ _ _ _ (Ne.symm hlast)
  have inv1 : ∀ i, 2 ≤ i → i < h.nodes.length → i / 2 ≠ 1 →
      h.keyCompare (((h.nodes.set 1 (h.nodes.getD (h.nodes.length - 1) default)).getD
        (i / 2) default)).key
        (((h.nodes.set 1 (h.nodes.getD (h.nodes.length - 1) default)).getD i default)).key
        ≤ 0 := by
    intro i h2 hi hip
    rw [listGetD_set_ne _ _ _ _ _ (by omega), listGetD_set_ne _ _ _ _ _ (by omega)]
    exact hp i h2 hi
  have inv2 : 2 ≤ 1 → ∀ c, c / 2 = 1 → c < h.nodes.length →
      h.keyCompare (((h.nodes.set 1 (h.nodes.getD (h.nodes.length - 1) default)).getD
        (1 / 2) default)).key
        (((h.nodes.set 1 (h.nodes.getD (h.nodes.length - 1) default)).getD c default)).key
        ≤ 0 := by
    intro hcon
    omega
  obtain ⟨rL, rP, rS, rM⟩ := iHeapBubbleDown_heapProp h.keyCompare hlc
    h.nodes.length (h.nodes.set 1 (h.nodes.getD (h.nodes.length - 1) default)) 1
    (h.nodes.getD (h.nodes.length - 1) default) le_rfl hlen1 (by rw [hmovedlen])
    hvp hvl inv1 inv2
  rw [hmovedlen] at rL
  refine ⟨{ h with nodes := List.take (h.nodes.length - 1) (iHeapBubbleDown h.keyCompare h.nodes.length (h.nodes.set 1 (h.nodes.getD (h.nodes.length - 1) default)) 1) }, ?_, ?_, rfl, ?_, ?_⟩
  · unfold algoHeapPop
    rw [if_neg (by
      unfold iHeapCurrentSize
      simp only [AlgoHeap.nextEmpty, kAlgoHeapRootIndex]
      omega)]
    rfl
  · intro i h2 hi
    simp only [AlgoHeap.nextEmpty, List.length_take, rL] at hi
    have hi2 : i < h.nodes.length - 1 := by omega
    dsimp only
    rw [listGetD_take _ _ _ _ (by omega), listGetD_take _ _ _ _ (by omega)]
    exact rP i h2 (by omega)
  · dsimp only
    simp only [List.length_take, rL]
    omega
  · intro nd hmem
    dsimp only at hmem
    rw [mem_tail_iff_getD] at hmem
    obtain ⟨j, hj1, hj2, hjeq⟩ := hmem
    simp only [List.length_take, rL] at hj2
    rw [listGetD_take _ _ _ _ (by omega)] at hjeq
    obtain ⟨k2, hk1, hk2, hkeq⟩ := rM j hj1 (by omega)
    rw [hkeq] at hjeq
    rw [mem_tail_iff_getD]
    by_cases hk2one : k2 = 1
    · subst hk2one
      rw [hvp] at hjeq
      exact ⟨h.nodes.length - 1, by omega, by omega, hjeq⟩
    · rw [listGetD_set_ne _ _ _ _ _ (Ne.symm hk2one)] at hjeq
      exact ⟨k2, hk1, hk2, hjeq⟩

theorem heapReachable_inv (cmp : AlgoData → AlgoData → Int)
    (hlc : LawfulCompare cmp) (h : AlgoHeap) (hr : HeapReachable cmp h) :
    h.keyCompare = cmp ∧ 1 ≤ h.nodes.length ∧ HeapProp h := by
  induction hr with
  | create cap h hc =>
    unfold algoHeapCreate at hc
    cases hc
    refine ⟨rfl, by simp, ?_⟩
    intro i h2 hi
    simp only [AlgoHeap.nextEmpty, List.length_singleton] at hi
    omega
  | insert h k d hr ih =>
    obtain ⟨hcmp, hlen, hp⟩ := ih
    obtain ⟨hp2, hkc, hlen2⟩ :=
      algoHeapInsert_heapProp h k d (by rw [hcmp]; exact hlc) hlen hp
    exact ⟨by rw [hkc, hcmp], hlen2, hp2⟩
  | pop h h2 k d hr hpop ih =>
    obtain ⟨hcmp, hlen, hp⟩ := ih
    have hlen2 : 2 ≤ h.nodes.length := by
      by_contra hcon
      have hl1 : h.nodes.length = 1 := by omega
      unfold algoHeapPop at hpop
      rw [if_pos (by
        unfold iHeapCurrentSize
        simp only [AlgoHeap.nextEmpty, kAlgoHeapRootIndex, hl1]
        omega)] at hpop
      cases hpop
    obtain ⟨h2x, heq, hp2, hkc, hlen3, _⟩ :=
      algoHeapPop_spec h (by rw [hcmp]; exact hlc) hp hlen2
    rw [heq] at hpop
    injection hpop with h5
    obtain ⟨-, -, h6⟩ : (h.nodes.getD 1 default).key = k ∧
        (h.nodes.getD 1 default).data = d ∧ h2x = h2 := by
      simpa [Prod.ext_iff] using h5
    subst h6
    exact ⟨by rw [hkc, hcmp], by omega, hp2⟩

theorem heapPopAllKeys_mem (cmp : AlgoData → AlgoData → Int)
    (hlc : LawfulCompare cmp) :
    ∀ (fuel : Nat) (h : AlgoHeap), h.keyCompare = cmp → HeapProp h →
      1 ≤ h.nodes.length →
      ∀ key ∈ heapPopAllKeys h fuel, ∃ nd ∈ h.nodes.tail, nd.key = key := by
  intro fuel
  induction fuel with
  | zero =>
    intro h _ _ _ key hk
    simp [heapPopAllKeys] at hk
  | succ fuel ih =>
    intro h hcmp hp hlen key hk
    by_cases hsz : 2 ≤ h.nodes.length
    · obtain ⟨h2x, heq, hp2, hkc, hlen3, hsub⟩ :=
        algoHeapPop_spec h (by rw [hcmp]; exact hlc) hp hsz
      unfold heapPopAllKeys at hk
      rw [heq] at hk
      simp only [List.mem_cons] at hk
      rcases hk with rfl | hk
      · refine ⟨h.nodes.getD 1 default, ?_, rfl⟩
        rw [mem_tail_iff_getD]
        exact ⟨1, le_rfl, by omega, rfl⟩
      · obtain ⟨nd, hnd, hndk⟩ :=
          ih h2x (by rw [hkc, hcmp]) hp2 (by omega) key hk
        exact ⟨nd, hsub nd hnd, hndk⟩
    · exfalso
      unfold heapPopAllKeys at hk
      rw [show algoHeapPop h = .error .operationFailed from by
        unfold algoHeapPop
        rw [if_pos (by
          unfold iHeapCurrentSize
          simp only [AlgoHeap.nextEmpty, kAlgoHeapRootIndex]
          omega)]] at hk
      simp at hk

theorem heapPopAllKeys_sorted (cmp : AlgoData → AlgoData → Int)
    (hlc : LawfulCompare cmp) :
    ∀ (fuel : Nat) (h : AlgoHeap), h.keyCompare = cmp → HeapProp h →
      1 ≤ h.nodes.length →
      List.Pairwise (fun a b => cmp a b ≤ 0) (heapPopAllKeys h fuel) := by
  intro fuel
  induction fuel with
  | zero =>
    intro h _ _ _
    simp [heapPopAllKeys]
  | succ fuel ih =>
    intro h hcmp hp hlen
    by_cases hsz : 2 ≤ h.nodes.length
    · obtain ⟨h2x, heq, hp2, hkc, hlen3, hsub⟩ :=
        algoHeapPop_spec h (by rw [hcmp]; exact hlc) hp hsz
      unfold heapPopAllKeys
      rw [heq]
      refine List.Pairwise.cons ?_ (ih h2x (by rw [hkc, hcmp]) hp2 (by omega))
      intro b hb
      obtain ⟨nd, hnd, hndk⟩ :=
        heapPopAllKeys_mem cmp hlc fuel h2x (by rw [hkc, hcmp]) hp2 (by omega) b hb
      have hnd2 := hsub nd hnd
      rw [mem_tail_iff_getD] at hnd2
      obtain ⟨j, hj1, hj2, hjeq⟩ := hnd2
      have := heapProp_root_min h (by rw [hcmp]; exact hlc) hp j hj1 hj2
      rw [hjeq, hndk, hcmp] at this
      exact this
    · unfold heapPopAllKeys
      rw [show algoHeapPop h = .error .operationFailed from by
        unfold algoHeapPop
        rw [if_pos (by
          unfold iHeapCurrentSize
          simp only [AlgoHeap.nextEmpty, kAlgoHeapRootIndex]
          omega)]]
      simp

theorem algoData_lt_eq :
    @LT.lt AlgoData Int.instLTInt = @LT.lt Int Int.instLTInt := rfl

theorem algoData_gt_eq :
    @GT.gt AlgoData Int.instLTInt = @GT.gt Int Int.instLTInt := rfl

theorem lawful_intAscending : LawfulCompare algoDataCompareIntAscending := by
  constructor
  · intro a b
    unfold algoDataCompareIntAscending
    simp only [algoData_lt_eq, algoData_gt_eq]
    split_ifs <;> first | decide | (exfalso; omega)
  · intro a b c hab hbc
    unfold algoDataCompareIntAscending at hab hbc ⊢
    simp only [algoData_lt_eq, algoData_gt_eq] at hab hbc ⊢
    split_ifs at hab hbc ⊢ <;> omega

/-- C5.  For every heap reachable from `algoHeapCreate` through any
sequence of `algoHeapInsert` / `algoHeapPop` calls (with a lawful
comparator), the heap-order invariant holds after every operation, and the
key sequence produced by repeatedly popping is non-decreasing under the
comparator; with the int-ascending comparator, inserting 5,3,8,1,4 and
popping five times yields keys 1,3,4,5,8 (scenario S2). -/
theorem algoHeap_invariant_and_pop_sorted :
    (∀ (cmp : AlgoData → AlgoData → Int) (h : AlgoHeap),
      LawfulCompare cmp → HeapReachable cmp h →
      HeapProp h ∧
      ∀ fuel, List.Pairwise (fun a b => cmp a b ≤ 0) (heapPopAllKeys h fuel)) ∧
    heapPopAllKeys heapS2 5 = [1, 3, 4, 5, 8] := by
  constructor
  · intro cmp h hlc hr
    obtain ⟨hcmp, hlen, hp⟩ := heapReachable_inv cmp hlc h hr
    exact ⟨hp, fun fuel => heapPopAllKeys_sorted cmp hlc fuel h hcmp hp hlen⟩
  · rfl

/-- Witness for C5: the S2 heap is reachable with the lawful int-ascending
comparator, so the theorem applies to it. -/
theorem algoHeap_invariant_and_pop_sorted_witness :
    LawfulCompare algoDataCompareIntAscending ∧
    HeapReachable algoDataCompareIntAscending heapS2 ∧
    (HeapProp heapS2 ∧
      ∀ fuel, List.Pairwise (fun a b => algoDataCompareIntAscending a b ≤ 0)
        (heapPopAllKeys heapS2 fuel)) := by
  have hreach : HeapReachable algoDataCompareIntAscending heapS2 :=
    HeapReachable.insert _ 4 4 (HeapReachable.insert _ 1 1
      (HeapReachable.insert _ 8 8 (HeapReachable.insert _ 3 3
        (HeapReachable.insert _ 5 5 (HeapReachable.create 8 _ rfl)))))
  exact ⟨lawful_intAscending, hreach,
    algoHeap_invariant_and_pop_sorted.1 algoDataCompareIntAscending heapS2
      lawful_intAscending hreach⟩

/-!
## Undirected-graph invariant (C4)
-/

theorem iListRemoveFirstEdge_eq_none (w : Int) :
    ∀ l : List AlgoGraphEdge,
      iListRemoveFirstEdge w l = Option.none ↔ ∀ e ∈ l, e.destVertex ≠ w := by
  intro l
  induction l with
  | nil => simp [iListRemoveFirstEdge]
  | cons e rest ih =>
    unfold iListRemoveFirstEdge
    by_cases he : e.destVertex = w
    · rw [if_pos he]
      simp [he]
    · rw [if_neg he]
      cases hrec : iListRemoveFirstEdge w rest with
      | none =>
        simp only [hrec] at ih ⊢
        have hall := ih.mp trivial
        simp [he]
        exact hall
      | some rest2 =>
        simp only [hrec] at ih ⊢
        constructor
        · intro h
          exact absurd h (by simp)
        · intro h
          have : ∀ e2 ∈ rest, e2.destVertex ≠ w := fun e2 h2 => h e2 (by simp [h2])
          exact absurd (ih.mpr this) (by simp)

theorem iListRemoveFirstEdge_some_length (w : Int) :
    ∀ (l l2 : List AlgoGraphEdge), iListRemoveFirstEdge w l = Option.some l2 →
      l2.length + 1 = l.length := by
  intro l
  induction l with
  | nil => intro l2 h; exact absurd h (by simp [iListRemoveFirstEdge])
  | cons e rest ih =>
    intro l2 h
    unfold iListRemoveFirstEdge at h
    by_cases he : e.destVertex = w
    · rw [if_pos he] at h
      injection h with h
      subst h
      simp
    · rw [if_neg he] at h
      cases hrec : iListRemoveFirstEdge w rest with
      | none => rw [hrec] at h; exact absurd h (by simp)
      | some rest2 =>
        rw [hrec] at h
        injection h with h
        subst h
        have := ih rest2 hrec
        simp
        omega

theorem iListRemoveFirstEdge_eq_filter (w : Int) :
    ∀ l : List AlgoGraphEdge,
      (l.map (fun e => e.destVertex)).Nodup →
      (∃ e ∈ l, e.destVertex = w) →
      iListRemoveFirstEdge w l =
        Option.some (l.filter (fun e => decide (e.destVertex ≠ w))) := by
  intro l
  induction l with
  | nil => intro _ hex; simp at hex
  | cons e rest ih =>
    intro hnd hex
    unfold iListRemoveFirstEdge
    by_cases he : e.destVertex = w
    · rw [if_pos he]
      have hrest : ∀ e2 ∈ rest, e2.destVertex ≠ w := by
        intro e2 h2 hc
        simp only [List.map_cons, List.nodup_cons] at hnd
        exact hnd.1 (by rw [he, ← hc]; exact List.mem_map_of_mem _ h2)
      have h1 : rest.filter (fun e2 => decide (e2.destVertex ≠ w)) = rest :=
        List.filter_eq_self.mpr (fun e2 h2 => by simp [hrest e2 h2])
      have hfilter : List.filter (fun e2 => decide (e2.destVertex ≠ w)) (e :: rest)
          = rest := by
        simp only [List.filter_cons]
        rw [if_neg (by simp [he])]
        exact h1
      rw [hfilter]
    · rw [if_neg he]
      have hex2 : ∃ e2 ∈ rest, e2.destVertex = w := by
        obtain ⟨e2, h2, hw⟩ := hex
        rcases List.mem_cons.mp h2 with rfl | h2
        · exact absurd hw he
        · exact ⟨e2, h2, hw⟩
      have hnd2 : (rest.map (fun e2 => e2.destVertex)).Nodup := by
        simp only [List.map_cons, List.nodup_cons] at hnd
        exact hnd.2
      rw [ih hnd2 hex2]
      simp [he]

theorem vfl_congr (data data2 : List AlgoData) (l : List Nat) :
    ∀ next : Int, VertexFreeListIs data next l →
    (∀ i ∈ l, data2.getD i 0 = data.getD i 0) →
    VertexFreeListIs data2 next l := by
  induction l with
  | nil => intro next _ _; exact trivial
  | cons i rest ih =>
    intro next h hcong
    obtain ⟨h1, h2⟩ := h
    refine ⟨h1, ?_⟩
    rw [hcong i (by simp)]
    exact ih _ h2 (fun j hj => hcong j (by simp [hj]))

theorem listGetD_map_range {α : Type} (n i : Nat) (f : Nat → α) (d : α)
    (h : i < n) : ((List.range n).map f).getD i d = f i := by
  rw [List.getD_eq_getElem _ _ (by simp [h])]
  simp

theorem vfl_range (data : List AlgoData) (n : Nat)
    (hd : ∀ i, i < n → data.getD i 0 = if i + 1 < n then ((i : Int) + 1) else -1) :
    ∀ m k, k + m = n → VertexFreeListIs data (k : Int) (List.range' k m) := by
  intro m
  induction m with
  | zero => intro k _; exact trivial
  | succ m ih =>
    intro k hk
    refine ⟨rfl, ?_⟩
    rw [hd k (by omega)]
    by_cases hlt : k + 1 < n
    · rw [if_pos hlt]
      have := ih (k + 1) (by omega)
      exact_mod_cast this
    · rw [if_neg hlt]
      have hm : m = 0 := by omega
      subst hm
      exact trivial

theorem removeEdgeFromList_edgeMode (g : AlgoGraphImpl) (u v : Int) :
    (iGraphRemoveEdgeFromList g u v).2.edgeMode = g.edgeMode := by
  unfold iGraphRemoveEdgeFromList
  cases iListRemoveFirstEdge v (g.vertexEdges.getD u.toNat []) <;> rfl

theorem addVertex_edgeMode (g : AlgoGraphImpl) (d : AlgoData) :
    (algoGraphAddVertex g d).2.2.edgeMode = g.edgeMode := by
  unfold algoGraphAddVertex
  split_ifs <;> rfl

theorem undirectedLoop_edgeMode (w : Int) :
    ∀ (S : List AlgoGraphEdge) (g : AlgoGraphImpl),
      (iGraphRemoveVertexUndirectedLoop w g S).edgeMode = g.edgeMode := by
  intro S
  induction S with
  | nil => intro g; rfl
  | cons e rest ih =>
    intro g
    show (iGraphRemoveVertexUndirectedLoop w _ rest).edgeMode = _
    rw [ih]
    exact removeEdgeFromList_edgeMode g e.destVertex w

theorem directedStrip_edgeMode (w : Int) :
    ∀ (S : List Int) (g : AlgoGraphImpl),
      (iGraphRemoveVertexDirectedStrip w g S).edgeMode = g.edgeMode := by
  intro S
  induction S with
  | nil => intro g; rfl
  | cons v rest ih =>
    intro g
    unfold iGraphRemoveVertexDirectedStrip
    by_cases hv : iGraphIsValidVertexId g v
    · rw [if_pos hv]
      dsimp only
      rw [ih]
      exact removeEdgeFromList_edgeMode g v w
    · rw [if_neg hv]
      exact ih g

theorem removeVertex_edgeMode (g : AlgoGraphImpl) (v : Int) :
    (algoGraphRemoveVertex g v).2.edgeMode = g.edgeMode := by
  unfold algoGraphRemoveVertex
  by_cases hv : ¬ iGraphIsValidVertexId g v
  · rw [if_pos hv]
  · rw [if_neg hv]
    dsimp only
    cases hmode : g.edgeMode
    · dsimp only
      rw [undirectedLoop_edgeMode]
      exact hmode
    · dsimp only
      rw [directedStrip_edgeMode]

theorem addEdge_edgeMode (g : AlgoGraphImpl) (u v : Int) :
    (algoGraphAddEdge g u v).2.edgeMode = g.edgeMode := by
  unfold algoGraphAddEdge
  split_ifs <;> try rfl
  cases g.edgeMode
  · dsimp only
    split_ifs <;> rfl
  · rfl

theorem removeEdge_edgeMode (g : AlgoGraphImpl) (u v : Int) :
    (algoGraphRemoveEdge g u v).2.edgeMode = g.edgeMode := by
  unfold algoGraphRemoveEdge
  split_ifs with h1
  · rfl
  · rcases he : iGraphRemoveEdgeFromList g u v with ⟨removed, g1⟩
    dsimp only
    have hg1 : g1.edgeMode = g.edgeMode := by
      have h2 := removeEdgeFromList_edgeMode g u v
      rw [he] at h2
      exact h2
    by_cases hrem : ¬ removed = true
    · rw [if_pos hrem]
      exact hg1
    · rw [if_neg hrem]
      cases hmode : g.edgeMode
      · dsimp only
        rcases he2 : iGraphRemoveEdgeFromList g1 v u with ⟨removed2, g2⟩
        dsimp only
        have hg2 : g2.edgeMode = g.edgeMode := by
          have h3 := removeEdgeFromList_edgeMode g1 v u
          rw [he2] at h3
          exact h3.trans hg1
        by_cases hrem2 : ¬ removed2 = true
        · rw [if_pos hrem2]
          rw [hg2, hmode]
        · rw [if_neg hrem2]
          dsimp only
          rw [hg2, hmode]
      · dsimp only
        rw [hg1, hmode]

theorem setVertexData_edgeMode (g : AlgoGraphImpl) (v : Int) (d : AlgoData) :
    (algoGraphSetVertexData g v d).2.edgeMode = g.edgeMode := by
  unfold algoGraphSetVertexData
  split_ifs <;> rfl

theorem create_UGraphWF (vc ec : Int) (mode : AlgoGraphEdgeMode) (g : AlgoGraphImpl)
    (hc : algoGraphCreate vc ec mode = .ok g) (hmode : g.edgeMode = .undirected) :
    UGraphWF g := by
  unfold algoGraphCreate at hc
  by_cases hcond : vc ≤ 0 ∨ ec ≤ 0
  · rw [if_pos hcond] at hc
    exact absurd hc (by simp)
  · rw [if_neg hcond] at hc
    push_neg at hcond
    injection hc with hc
    subst hc
    dsimp only at hmode
    subst hmode
    have hlist : ∀ u : Nat,
        (List.replicate vc.toNat ([] : List AlgoGraphEdge)).getD u [] = [] := by
      intro u
      rw [listGetD_replicate]
      split <;> rfl
    refine ⟨by simp, by simp, by simp, le_refl 0, by dsimp only; omega,
      ?_, ?_, ?_, ?_, ?_, ?_, ?_, ?_⟩
    · intro u hu e he
      dsimp only at he
      rw [hlist u] at he
      exact absurd he (by simp)
    · intro u hu _
      dsimp only
      exact hlist u
    · intro u hu hge
      exfalso
      dsimp only at hge
      rw [listGetD_replicate] at hge
      split_ifs at hge <;> omega
    · intro u hu e he
      dsimp only at he
      rw [hlist u] at he
      exact absurd he (by simp)
    · intro u hu
      dsimp only
      rw [hlist u]
      simp
    · intro u hu v hv
      constructor <;> intro h <;>
        (exfalso; obtain ⟨e, he, _⟩ := h; dsimp only at he; rw [hlist] at he;
          exact absurd he (by simp))
    · exact ⟨ec.toNat, by dsimp only [iGraphNodesPerEdge]; omega⟩
    · refine ⟨List.range vc.toNat, ?_, ?_, ?_, ?_, ?_⟩
      · have hd : ∀ i, i < vc.toNat →
            ((List.range vc.toNat).map (fun i =>
              if i + 1 < vc.toNat then ((i : Int) + 1) else -1)).getD i 0 =
              if i + 1 < vc.toNat then ((i : Int) + 1) else -1 := by
          intro i hi
          rw [listGetD_map_range _ _ _ _ hi]
        have hv := vfl_range _ vc.toNat hd vc.toNat 0 (by omega)
        rw [← List.range_eq_range'] at hv
        dsimp only
        exact_mod_cast hv
      · simp
        omega
      · simp [List.nodup_range]
      · simp
      · intro i hi
        dsimp only
        rw [listGetD_replicate, if_pos hi]
        simp [List.mem_range, hi]

theorem setVertexData_UGraphWF (g : AlgoGraphImpl) (v : Int) (d : AlgoData)
    (hu : UGraphWF g) : UGraphWF (algoGraphSetVertexData g v d).2 := by
  unfold algoGraphSetVertexData
  by_cases hv : ¬ iGraphIsValidVertexId g v
  · rw [if_pos hv]
    exact hu
  · rw [if_neg hv]
    rw [not_not] at hv
    obtain ⟨hv1, hv2, hv3⟩ := (iGraphIsValidVertexId_iff g v).mp hv
    dsimp only
    obtain ⟨fl, hfl1, hfl2, hfl3, hfl4, hfl5⟩ := hu.freeChain
    refine ⟨hu.lenDeg, hu.lenEdges, by simp [hu.lenData], hu.countNonneg, hu.countLe,
      hu.destValid, hu.invalidEmpty, hu.degMatch, hu.noSelf, hu.nodupAdj, hu.sym,
      hu.evenFree, ⟨fl, ?_, hfl2, hfl3, hfl4, hfl5⟩⟩
    refine vfl_congr _ _ fl _ hfl1 ?_
    intro i hi
    refine listGetD_set_ne _ _ _ _ _ ?_
    intro hvi
    have hinv := (hfl5 i (hfl4 i hi)).mpr hi
    rw [← hvi] at hinv
    omega

theorem addVertex_UGraphWF (g : AlgoGraphImpl) (d : AlgoData)
    (hu : UGraphWF g) : UGraphWF (algoGraphAddVertex g d).2.2 := by
  unfold algoGraphAddVertex
  by_cases hfull : g.currentVertexCount ≥ g.vertexCapacity
  · rw [if_pos hfull]
    exact hu
  · rw [if_neg hfull]
    dsimp only
    obtain ⟨fl, hfl1, hfl2, hfl3, hfl4, hfl5⟩ := hu.freeChain
    cases fl with
    | nil =>
      exfalso
      simp only [List.length_nil] at hfl2
      omega
    | cons j fl' =>
      obtain ⟨hj1, hj2⟩ := hfl1
      have hjcap : j < g.vertexCapacity.toNat := hfl4 j (by simp)
      have hjinv : g.vertexDegrees.getD j (-1) < 0 := (hfl5 j hjcap).mpr (by simp)
      have hjnotin : j ∉ fl' := (List.nodup_cons.mp hfl3).1
      have hjlist : g.vertexEdges.getD j [] = [] := hu.invalidEmpty j hjcap hjinv
      have htn : g.nextFreeVertexId.toNat = j := by rw [hj1]; simp
      rw [htn]
      have hdegLen : j < g.vertexDegrees.length := by rw [hu.lenDeg]; exact hjcap
      have hedgLen : j < g.vertexEdges.length := by rw [hu.lenEdges]; exact hjcap
      have hedges : ∀ u : Nat, (g.vertexEdges.set j []).getD u [] =
          g.vertexEdges.getD u [] := by
        intro u
        by_cases hju : j = u
        · subst hju
          rw [listGetD_set_self _ _ _ _ hedgLen, hjlist]
        · exact listGetD_set_ne _ _ _ _ _ hju
      have hdeg : ∀ u : Nat, u ≠ j →
          (g.vertexDegrees.set j 0).getD u (-1) = g.vertexDegrees.getD u (-1) :=
        fun u hju => listGetD_set_ne _ _ _ _ _ (Ne.symm hju)
      have hdegj : (g.vertexDegrees.set j 0).getD j (-1) = 0 :=
        listGetD_set_self _ _ _ _ hdegLen
      have hvalid : ∀ x : Int,
          iGraphIsValidVertexId g x = true →
          (0 ≤ x ∧ x < g.vertexCapacity ∧
            0 ≤ (g.vertexDegrees.set j 0).getD x.toNat (-1)) := by
        intro x hx
        obtain ⟨h1, h2, h3⟩ := (iGraphIsValidVertexId_iff g x).mp hx
        refine ⟨h1, h2, ?_⟩
        by_cases hxj : x.toNat = j
        · rw [hxj, hdegj]
        · rw [hdeg _ hxj]
          exact h3
      refine ⟨by simp [hu.lenDeg], by simp [hu.lenEdges], by simp [hu.lenData],
        by dsimp only; have := hu.countNonneg; omega,
        by dsimp only; omega, ?_, ?_, ?_, ?_, ?_, ?_, hu.evenFree, ?_⟩
      · intro u hcap e he
        dsimp only at he ⊢
        rw [hedges u] at he
        rw [iGraphIsValidVertexId_iff]
        exact hvalid e.destVertex (hu.destValid u hcap e he)
      · intro u hcap hneg
        dsimp only at hneg ⊢
        by_cases huj : u = j
        · subst huj
          rw [hdegj] at hneg
          omega
        · rw [hdeg u huj] at hneg
          rw [hedges u]
          exact hu.invalidEmpty u hcap hneg
      · intro u hcap hge
        dsimp only at hge ⊢
        rw [hedges u]
        by_cases huj : u = j
        · subst huj
          rw [hdegj, hjlist]
          rfl
        · rw [hdeg u huj] at hge ⊢
          exact hu.degMatch u hcap hge
      · intro u hcap e he
        dsimp only at he
        rw [hedges u] at he
        exact hu.noSelf u hcap e he
      · intro u hcap
        dsimp only
        rw [hedges u]
        exact hu.nodupAdj u hcap
      · intro u hul v hvl
        dsimp only at hul hvl ⊢
        simp only [List.length_set] at hul hvl
        have hsym := hu.sym u hul v hvl
        unfold edgeInAdj at hsym ⊢
        dsimp only
        rw [hedges u, hedges v]
        exact hsym
      · refine ⟨fl', ?_, ?_, (List.nodup_cons.mp hfl3).2,
          fun i hi => hfl4 i (by simp [hi]), ?_⟩
        · dsimp only
          refine vfl_congr _ _ fl' _ hj2 ?_
          intro i hi
          refine listGetD_set_ne _ _ _ _ _ ?_
          intro hji
          exact hjnotin (hji ▸ hi)
        · dsimp only
          simp only [List.length_cons] at hfl2
          push_cast at hfl2 ⊢
          omega
        · intro i hcap
          dsimp only at hcap ⊢
          by_cases hij : i = j
          · subst hij
            rw [hdegj]
            simp [hjnotin]
          · rw [hdeg i hij]
            rw [hfl5 i hcap]
            simp [hij]

theorem int_toNat_inj_iff (x : Nat) (u : Int) (hu : 0 ≤ u) :
    (x : Int) = u ↔ x = u.toNat := by
  constructor
  · intro h
    rw [← h]
    simp
  · intro h
    rw [h, Int.toNat_of_nonneg hu]


theorem addEdge_UGraphWF (g : AlgoGraphImpl) (u v : Int)
    (hmode : g.edgeMode = .undirected) (hu : UGraphWF g) :
    UGraphWF (algoGraphAddEdge g u v).2 := by
  unfold algoGraphAddEdge
  by_cases hval : ¬ iGraphIsValidVertexId g u = true ∨
      ¬ iGraphIsValidVertexId g v = true ∨ u = v
  · rw [if_pos hval]
    exact hu
  · rw [if_neg hval]
    push_neg at hval
    obtain ⟨hvu, hvv, huv⟩ := hval
    obtain ⟨hu0, hucap, hudeg⟩ := (iGraphIsValidVertexId_iff g u).mp hvu
    obtain ⟨hv0, hvcap, hvdeg⟩ := (iGraphIsValidVertexId_iff g v).mp hvv
    by_cases hpres : (g.vertexEdges.getD u.toNat []).any
        (fun e => decide (e.destVertex = v)) = true
    · rw [if_pos hpres]
      exact hu
    · rw [if_neg hpres]
      by_cases hfree : g.edgePoolFreeCount = 0
      · rw [if_pos hfree]
        exact hu
      · rw [if_neg hfree]
        rw [hmode]
        dsimp only
        have hun : u.toNat < g.vertexCapacity.toNat := by omega
        have hvn : v.toNat < g.vertexCapacity.toNat := by omega
        have hne : u.toNat ≠ v.toNat := by omega
        have hedgLenU : u.toNat < g.vertexEdges.length := by rw [hu.lenEdges]; exact hun
        have hedgLenV0 : v.toNat < g.vertexEdges.length := by rw [hu.lenEdges]; exact hvn
        have hadj1 : (g.vertexEdges.set u.toNat
            ({ destVertex := v, weight := 0 } :: g.vertexEdges.getD u.toNat [])).getD
              v.toNat [] = g.vertexEdges.getD v.toNat [] :=
          listGetD_set_ne _ _ _ _ _ hne
        rw [hadj1]
        have hnotuv : ∀ e ∈ g.vertexEdges.getD u.toNat [], e.destVertex ≠ v := by
          intro e he hc
          exact hpres (List.any_eq_true.mpr ⟨e, he, by simp [hc]⟩)
        have hnotvu : ∀ e ∈ g.vertexEdges.getD v.toNat [], e.destVertex ≠ u := by
          intro e he hc
          have hsym := (hu.sym v.toNat hedgLenV0 u.toNat hedgLenU).mp
            ⟨e, he, by rw [hc, Int.toNat_of_nonneg hu0]⟩
          obtain ⟨e2, he2, hd2⟩ := hsym
          exact hnotuv e2 he2 (by rw [hd2, Int.toNat_of_nonneg hv0])
        rw [if_neg (by
          intro hc
          obtain ⟨e, he, hd⟩ := List.any_eq_true.mp hc
          exact hnotvu e he (by simpa using hd))]
        obtain ⟨r, hr⟩ := hu.evenFree
        have hfree2 : 2 ≤ g.edgePoolFreeCount := by omega
        rw [if_neg (by omega)]
        dsimp only
        set L1 : List AlgoGraphEdge :=
          { destVertex := v, weight := 0 } :: g.vertexEdges.getD u.toNat [] with hL1
        set L2 : List AlgoGraphEdge :=
          { destVertex := u, weight := 0 } :: g.vertexEdges.getD v.toNat [] with hL2
        set E2 : List (List AlgoGraphEdge) :=
          (g.vertexEdges.set u.toNat L1).set v.toNat L2 with hE2
        set D2 : List Int :=
          (g.vertexDegrees.set u.toNat (g.vertexDegrees.getD u.toNat (-1) + 1)).set
            v.toNat ((g.vertexDegrees.set u.toNat
              (g.vertexDegrees.getD u.toNat (-1) + 1)).getD v.toNat (-1) + 1) with hD2
        have hedgLenV : v.toNat < (g.vertexEdges.set u.toNat L1).length := by
          simp only [List.length_set]
          exact hedgLenV0
        have hadj : ∀ x : Nat, E2.getD x [] =
            if x = v.toNat then L2
            else if x = u.toNat then L1
            else g.vertexEdges.getD x [] := by
          intro x
          rw [hE2]
          by_cases hxv : x = v.toNat
          · subst hxv
            rw [if_pos rfl]
            exact listGetD_set_self _ _ _ _ hedgLenV
          · rw [if_neg hxv, listGetD_set_ne _ _ _ _ _ (Ne.symm hxv)]
            by_cases hxu : x = u.toNat
            · subst hxu
              rw [if_pos rfl]
              exact listGetD_set_self _ _ _ _ hedgLenU
            · rw [if_neg hxu, listGetD_set_ne _ _ _ _ _ (Ne.symm hxu)]
        have hdegLenU : u.toNat < g.vertexDegrees.length := by rw [hu.lenDeg]; exact hun
        have hdegLenV : v.toNat < (g.vertexDegrees.set u.toNat
            (g.vertexDegrees.getD u.toNat (-1) + 1)).length := by
          simp only [List.length_set]
          rw [hu.lenDeg]
          exact hvn
        have hdeg : ∀ x : Nat, D2.getD x (-1) =
            if x = v.toNat then g.vertexDegrees.getD v.toNat (-1) + 1
            else if x = u.toNat then g.vertexDegrees.getD u.toNat (-1) + 1
            else g.vertexDegrees.getD x (-1) := by
          intro x
          rw [hD2]
          by_cases hxv : x = v.toNat
          · subst hxv
            rw [if_pos rfl, listGetD_set_self _ _ _ _ hdegLenV,
              listGetD_set_ne _ _ _ _ _ hne]
          · rw [if_neg hxv, listGetD_set_ne _ _ _ _ _ (Ne.symm hxv)]
            by_cases hxu : x = u.toNat
            · subst hxu
              rw [if_pos rfl]
              exact listGetD_set_self _ _ _ _ hdegLenU
            · rw [if_neg hxu, listGetD_set_ne _ _ _ _ _ (Ne.symm hxu)]
        obtain ⟨fl, hfl1, hfl2, hfl3, hfl4, hfl5⟩ := hu.freeChain
        have hvalstep : ∀ y : Int, iGraphIsValidVertexId g y = true →
            0 ≤ y ∧ y < g.vertexCapacity ∧ 0 ≤ D2.getD y.toNat (-1) := by
          intro y hy
          obtain ⟨h1, h2, h3⟩ := (iGraphIsValidVertexId_iff g y).mp hy
          rw [hdeg]
          split_ifs with c1 c2
          · rw [c1] at h3
            exact ⟨h1, h2, by omega⟩
          · rw [c2] at h3
            exact ⟨h1, h2, by omega⟩
          · exact ⟨h1, h2, h3⟩
        refine ⟨by rw [hD2]; simp [hu.lenDeg], by rw [hE2]; simp [hu.lenEdges],
          hu.lenData, hu.countNonneg, hu.countLe, ?_, ?_, ?_, ?_, ?_, ?_, ?_, ?_⟩
        · intro x hcap e he
          dsimp only at he hcap ⊢
          rw [hadj x] at he
          rw [iGraphIsValidVertexId_iff]
          dsimp only
          split_ifs at he with c1 c2
          · rw [hL2] at he
            rcases List.mem_cons.mp he with rfl | he2
            · exact hvalstep u hvu
            · exact hvalstep e.destVertex (hu.destValid v.toNat hvn e he2)
          · rw [hL1] at he
            rcases List.mem_cons.mp he with rfl | he2
            · exact hvalstep v hvv
            · exact hvalstep e.destVertex (hu.destValid u.toNat hun e he2)
          · exact hvalstep e.destVertex (hu.destValid x hcap e he)
        · intro x hcap hneg
          dsimp only at hcap hneg ⊢
          rw [hdeg] at hneg
          rw [hadj]
          split_ifs at hneg with c1 c2
          · omega
          · omega
          · rw [if_neg c1, if_neg c2]
            exact hu.invalidEmpty x hcap hneg
        · intro x hcap hge
          dsimp only at hcap hge ⊢
          rw [hdeg] at hge ⊢
          rw [hadj]
          split_ifs at hge ⊢ with c1 c2
          · rw [hL2]
            have := hu.degMatch v.toNat hvn hvdeg
            simp only [List.length_cons]
            push_cast
            omega
          · rw [hL1]
            have := hu.degMatch u.toNat hun hudeg
            simp only [List.length_cons]
            push_cast
            omega
          · exact hu.degMatch x hcap hge
        · intro x hcap e he
          dsimp only at hcap he ⊢
          rw [hadj] at he
          split_ifs at he with c1 c2
          · rw [hL2] at he
            rcases List.mem_cons.mp he with rfl | he2
            · subst c1
              show u ≠ ((v.toNat : Nat) : Int)
              rw [Int.toNat_of_nonneg hv0]
              omega
            · subst c1
              exact hu.noSelf v.toNat hvn e he2
          · rw [hL1] at he
            rcases List.mem_cons.mp he with rfl | he2
            · subst c2
              show v ≠ ((u.toNat : Nat) : Int)
              rw [Int.toNat_of_nonneg hu0]
              omega
            · subst c2
              exact hu.noSelf u.toNat hun e he2
          · exact hu.noSelf x hcap e he
        · intro x hcap
          dsimp only at hcap ⊢
          rw [hadj]
          split_ifs with c1 c2
          · rw [hL2]
            simp only [List.map_cons, List.nodup_cons]
            refine ⟨?_, hu.nodupAdj v.toNat hvn⟩
            intro hc
            obtain ⟨e, he, hd⟩ := List.mem_map.mp hc
            exact hnotvu e he hd
          · rw [hL1]
            simp only [List.map_cons, List.nodup_cons]
            refine ⟨?_, hu.nodupAdj u.toNat hun⟩
            intro hc
            obtain ⟨e, he, hd⟩ := List.mem_map.mp hc
            exact hnotuv e he hd
          · exact hu.nodupAdj x hcap
        · intro x hx y hy
          dsimp only at hx hy ⊢
          rw [hE2] at hx hy
          simp only [List.length_set] at hx hy
          have hchar : ∀ z : Nat, z < g.vertexEdges.length → ∀ w2 : Int,
              ((∃ e ∈ E2.getD z [], e.destVertex = w2) ↔
                (edgeInAdj g z w2 ∨ (z = u.toNat ∧ w2 = v) ∨ (z = v.toNat ∧ w2 = u))) := by
            intro z hz w2
            unfold edgeInAdj
            rw [hadj z]
            split_ifs with c1 c2
            · subst c1
              rw [hL2]
              constructor
              · rintro ⟨e, he, hd⟩
                rcases List.mem_cons.mp he with rfl | he2
                · exact Or.inr (Or.inr ⟨rfl, hd.symm⟩)
                · exact Or.inl ⟨e, he2, hd⟩
              · rintro (⟨e, he, hd⟩ | ⟨hzu, rfl⟩ | ⟨_, rfl⟩)
                · exact ⟨e, List.mem_cons_of_mem _ he, hd⟩
                · exact absurd hzu (by omega)
                · exact ⟨_, List.mem_cons_self _ _, rfl⟩
            · subst c2
              rw [hL1]
              constructor
              · rintro ⟨e, he, hd⟩
                rcases List.mem_cons.mp he with rfl | he2
                · exact Or.inr (Or.inl ⟨rfl, hd.symm⟩)
                · exact Or.inl ⟨e, he2, hd⟩
              · rintro (⟨e, he, hd⟩ | ⟨_, rfl⟩ | ⟨hzv, rfl⟩)
                · exact ⟨e, List.mem_cons_of_mem _ he, hd⟩
                · exact ⟨_, List.mem_cons_self _ _, rfl⟩
                · exact absurd hzv (by omega)
            · constructor
              · rintro ⟨e, he, hd⟩
                exact Or.inl ⟨e, he, hd⟩
              · rintro (⟨e, he, hd⟩ | ⟨hzu, rfl⟩ | ⟨hzv, rfl⟩)
                · exact ⟨e, he, hd⟩
                · exact absurd hzu c2
                · exact absurd hzv c1
          unfold edgeInAdj
          dsimp only
          rw [hchar x hx (y : Int), hchar y hy (x : Int)]
          have hxu2 : (x : Int) = u ↔ x = u.toNat := int_toNat_inj_iff x u hu0
          have hxv2 : (x : Int) = v ↔ x = v.toNat := int_toNat_inj_iff x v hv0
          have hyu2 : (y : Int) = u ↔ y = u.toNat := int_toNat_inj_iff y u hu0
          have hyv2 : (y : Int) = v ↔ y = v.toNat := int_toNat_inj_iff y v hv0
          have hsym := hu.sym x hx y hy
          constructor
          · rintro (h | ⟨h1, h2⟩ | ⟨h1, h2⟩)
            · exact Or.inl (hsym.mp h)
            · exact Or.inr (Or.inr ⟨hyv2.mp h2, hxu2.mpr h1⟩)
            · exact Or.inr (Or.inl ⟨hyu2.mp h2, hxv2.mpr h1⟩)
          · rintro (h | ⟨h1, h2⟩ | ⟨h1, h2⟩)
            · exact Or.inl (hsym.mpr h)
            · exact Or.inr (Or.inr ⟨hxv2.mp h2, hyu2.mpr h1⟩)
            · exact Or.inr (Or.inl ⟨hxu2.mp h2, hyv2.mpr h1⟩)
        · exact ⟨r - 1, by dsimp only; omega⟩
        · refine ⟨fl, hfl1, hfl2, hfl3, hfl4, ?_⟩
          intro i hcap
          dsimp only at hcap ⊢
          rw [hdeg]
          split_ifs with c1 c2
          · subst c1
            have hni : v.toNat ∉ fl := fun hc =>
              absurd ((hfl5 v.toNat hvn).mpr hc) (by omega)
            constructor
            · intro hc
              omega
            · intro hc
              exact absurd hc hni
          · subst c2
            have hni : u.toNat ∉ fl := fun hc =>
              absurd ((hfl5 u.toNat hun).mpr hc) (by omega)
            constructor
            · intro hc
              omega
            · intro hc
              exact absurd hc hni
          · exact hfl5 i hcap

theorem removeEdgeFromList_spec (g : AlgoGraphImpl) (src dest : Int) :
    (iListRemoveFirstEdge dest (g.vertexEdges.getD src.toNat []) = Option.none ∧
      iGraphRemoveEdgeFromList g src dest = (false, g)) ∨
    (∃ newList, iListRemoveFirstEdge dest (g.vertexEdges.getD src.toNat []) =
        Option.some newList ∧
      iGraphRemoveEdgeFromList g src dest = (true, { g with
        vertexEdges := g.vertexEdges.set src.toNat newList
        edgePoolFreeCount := g.edgePoolFreeCount + 1
        vertexDegrees := g.vertexDegrees.set src.toNat
          (g.vertexDegrees.getD src.toNat (-1) - 1) })) := by
  unfold iGraphRemoveEdgeFromList
  cases h : iListRemoveFirstEdge dest (g.vertexEdges.getD src.toNat []) with
  | none => exact Or.inl ⟨rfl, rfl⟩
  | some newList => exact Or.inr ⟨newList, rfl, rfl⟩

theorem removeEdge_UGraphWF (g : AlgoGraphImpl) (u v : Int)
    (hmode : g.edgeMode = .undirected) (hu : UGraphWF g) :
    UGraphWF (algoGraphRemoveEdge g u v).2 := by
  unfold algoGraphRemoveEdge iGraphRemoveEdgeFromList
  by_cases hval : ¬ iGraphIsValidVertexId g u = true ∨ ¬ iGraphIsValidVertexId g v = true
  · rw [if_pos hval]
    exact hu
  · rw [if_neg hval]
    push_neg at hval
    obtain ⟨hvu, hvv⟩ := hval
    obtain ⟨hu0, hucap, hudeg⟩ := (iGraphIsValidVertexId_iff g u).mp hvu
    obtain ⟨hv0, hvcap, hvdeg⟩ := (iGraphIsValidVertexId_iff g v).mp hvv
    have hun : u.toNat < g.vertexCapacity.toNat := by omega
    have hvn : v.toNat < g.vertexCapacity.toNat := by omega
    have hedgLenU : u.toNat < g.vertexEdges.length := by rw [hu.lenEdges]; exact hun
    have hedgLenV0 : v.toNat < g.vertexEdges.length := by rw [hu.lenEdges]; exact hvn
    cases h1 : iListRemoveFirstEdge v (g.vertexEdges.getD u.toNat []) with
    | none =>
      dsimp only
      rw [if_pos (by simp)]
      exact hu
    | some L1f =>
      dsimp only
      rw [if_neg (by simp), hmode]
      dsimp only
      have hexu : ∃ e ∈ g.vertexEdges.getD u.toNat [], e.destVertex = v := by
        by_contra hc
        push_neg at hc
        rw [(iListRemoveFirstEdge_eq_none v _).mpr hc] at h1
        exact absurd h1 (by simp)
      have hneuv : u ≠ v := by
        intro hc
        obtain ⟨e, he, hd⟩ := hexu
        refine hu.noSelf u.toNat hun e he ?_
        rw [hd, ← hc, Int.toNat_of_nonneg hu0]
      have hne : u.toNat ≠ v.toNat := by omega
      have hL1f : L1f = (g.vertexEdges.getD u.toNat []).filter
          (fun e => decide (e.destVertex ≠ v)) := by
        have h2 := iListRemoveFirstEdge_eq_filter v _ (hu.nodupAdj u.toNat hun) hexu
        rw [h1] at h2
        injection h2
      have hexv : ∃ e ∈ g.vertexEdges.getD v.toNat [], e.destVertex = u := by
        obtain ⟨e, he, hd⟩ := hexu
        have hs := (hu.sym u.toNat hedgLenU v.toNat hedgLenV0).mp
          ⟨e, he, by rw [hd, Int.toNat_of_nonneg hv0]⟩
        obtain ⟨e2, he2, hd2⟩ := hs
        exact ⟨e2, he2, by rw [hd2, Int.toNat_of_nonneg hu0]⟩
      have hG1adjv : (g.vertexEdges.set u.toNat L1f).getD v.toNat [] =
          g.vertexEdges.getD v.toNat [] := listGetD_set_ne _ _ _ _ _ hne
      rw [hG1adjv]
      cases h2 : iListRemoveFirstEdge u (g.vertexEdges.getD v.toNat []) with
      | none =>
        exfalso
        rw [iListRemoveFirstEdge_eq_none] at h2
        obtain ⟨e, he, hd⟩ := hexv
        exact h2 e he hd
      | some L2f =>
        dsimp only
        rw [if_neg (by simp)]
        have hL2f : L2f = (g.vertexEdges.getD v.toNat []).filter
            (fun e => decide (e.destVertex ≠ u)) := by
          have h3 := iListRemoveFirstEdge_eq_filter u _ (hu.nodupAdj v.toNat hvn) hexv
          rw [h2] at h3
          injection h3
        have hlenU1 : 1 ≤ (g.vertexEdges.getD u.toNat []).length := by
          obtain ⟨e, he, _⟩ := hexu
          cases hl : g.vertexEdges.getD u.toNat []
          · rw [hl] at he
            exact absurd he (by simp)
          · simp [hl]
        have hlenV1 : 1 ≤ (g.vertexEdges.getD v.toNat []).length := by
          obtain ⟨e, he, _⟩ := hexv
          cases hl : g.vertexEdges.getD v.toNat []
          · rw [hl] at he
            exact absurd he (by simp)
          · simp [hl]
        have hdegU := hu.degMatch u.toNat hun hudeg
        have hdegV := hu.degMatch v.toNat hvn hvdeg
        have hlenFu : L1f.length + 1 = (g.vertexEdges.getD u.toNat []).length :=
          iListRemoveFirstEdge_some_length v _ _ h1
        have hlenFv : L2f.length + 1 = (g.vertexEdges.getD v.toNat []).length :=
          iListRemoveFirstEdge_some_length u _ _ h2
        have hmemFu : ∀ e, e ∈ L1f ↔
            (e ∈ g.vertexEdges.getD u.toNat [] ∧ e.destVertex ≠ v) := by
          intro e
          rw [hL1f]
          simp [List.mem_filter]
        have hmemFv : ∀ e, e ∈ L2f ↔
            (e ∈ g.vertexEdges.getD v.toNat [] ∧ e.destVertex ≠ u) := by
          intro e
          rw [hL2f]
          simp [List.mem_filter]
        dsimp only
        set E2 : List (List AlgoGraphEdge) :=
          (g.vertexEdges.set u.toNat L1f).set v.toNat L2f with hE2
        set D2 : List Int :=
          (g.vertexDegrees.set u.toNat (g.vertexDegrees.getD u.toNat (-1) - 1)).set
            v.toNat ((g.vertexDegrees.set u.toNat
              (g.vertexDegrees.getD u.toNat (-1) - 1)).getD v.toNat (-1) - 1) with hD2
        have hedgLenV : v.toNat < (g.vertexEdges.set u.toNat L1f).length := by
          simp only [List.length_set]
          exact hedgLenV0
        have hadj : ∀ x : Nat, E2.getD x [] =
            if x = v.toNat then L2f
            else if x = u.toNat then L1f
            else g.vertexEdges.getD x [] := by
          intro x
          rw [hE2]
          by_cases hxv : x = v.toNat
          · subst hxv
            rw [if_pos rfl]
            exact listGetD_set_self _ _ _ _ hedgLenV
          · rw [if_neg hxv, listGetD_set_ne _ _ _ _ _ (Ne.symm hxv)]
            by_cases hxu : x = u.toNat
            · subst hxu
              rw [if_pos rfl]
              exact listGetD_set_self _ _ _ _ hedgLenU
            · rw [if_neg hxu, listGetD_set_ne _ _ _ _ _ (Ne.symm hxu)]
        have hdegLenU : u.toNat < g.vertexDegrees.length := by rw [hu.lenDeg]; exact hun
        have hdegLenV : v.toNat < (g.vertexDegrees.set u.toNat
            (g.vertexDegrees.getD u.toNat (-1) - 1)).length := by
          simp only [List.length_set]
          rw [hu.lenDeg]
          exact hvn
        have hdeg : ∀ x : Nat, D2.getD x (-1) =
            if x = v.toNat then g.vertexDegrees.getD v.toNat (-1) - 1
            else if x = u.toNat then g.vertexDegrees.getD u.toNat (-1) - 1
            else g.vertexDegrees.getD x (-1) := by
          intro x
          rw [hD2]
          by_cases hxv : x = v.toNat
          · subst hxv
            rw [if_pos rfl, listGetD_set_self _ _ _ _ hdegLenV,
              listGetD_set_ne _ _ _ _ _ hne]
          · rw [if_neg hxv, listGetD_set_ne _ _ _ _ _ (Ne.symm hxv)]
            by_cases hxu : x = u.toNat
            · subst hxu
              rw [if_pos rfl]
              exact listGetD_set_self _ _ _ _ hdegLenU
            · rw [if_neg hxu, listGetD_set_ne _ _ _ _ _ (Ne.symm hxu)]
        obtain ⟨fl, hfl1, hfl2, hfl3, hfl4, hfl5⟩ := hu.freeChain
        have hvalstep : ∀ y : Int, iGraphIsValidVertexId g y = true →
            0 ≤ y ∧ y < g.vertexCapacity ∧ 0 ≤ D2.getD y.toNat (-1) := by
          intro y hy
          obtain ⟨hy1, hy2, hy3⟩ := (iGraphIsValidVertexId_iff g y).mp hy
          rw [hdeg]
          split_ifs with c1 c2
          · refine ⟨hy1, hy2, ?_⟩
            push_cast at hdegV ⊢
            omega
          · refine ⟨hy1, hy2, ?_⟩
            push_cast at hdegU ⊢
            omega
          · exact ⟨hy1, hy2, hy3⟩
        obtain ⟨r, hr⟩ := hu.evenFree
        refine ⟨by rw [hD2]; simp [hu.lenDeg], by rw [hE2]; simp [hu.lenEdges],
          hu.lenData, hu.countNonneg, hu.countLe, ?_, ?_, ?_, ?_, ?_, ?_, ?_, ?_⟩
        · intro x hcap e he
          dsimp only at he hcap ⊢
          rw [hadj x] at he
          rw [iGraphIsValidVertexId_iff]
          dsimp only
          split_ifs at he with c1 c2
          · exact hvalstep e.destVertex
              (hu.destValid v.toNat hvn e ((hmemFv e).mp he).1)
          · exact hvalstep e.destVertex
              (hu.destValid u.toNat hun e ((hmemFu e).mp he).1)
          · exact hvalstep e.destVertex (hu.destValid x hcap e he)
        · intro x hcap hneg
          dsimp only at hcap hneg ⊢
          rw [hdeg] at hneg
          rw [hadj]
          split_ifs at hneg with c1 c2
          · exfalso
            push_cast at hdegV hlenFv hneg
            omega
          · exfalso
            push_cast at hdegU hlenFu hneg
            omega
          · rw [if_neg c1, if_neg c2]
            exact hu.invalidEmpty x hcap hneg
        · intro x hcap hge
          dsimp only at hcap hge ⊢
          rw [hdeg] at hge ⊢
          rw [hadj]
          split_ifs at hge ⊢ with c1 c2
          · push_cast at hdegV hlenFv ⊢
            omega
          · push_cast at hdegU hlenFu ⊢
            omega
          · exact hu.degMatch x hcap hge
        · intro x hcap e he
          dsimp only at hcap he ⊢
          rw [hadj] at he
          split_ifs at he with c1 c2
          · subst c1
            exact hu.noSelf v.toNat hvn e ((hmemFv e).mp he).1
          · subst c2
            exact hu.noSelf u.toNat hun e ((hmemFu e).mp he).1
          · exact hu.noSelf x hcap e he
        · intro x hcap
          dsimp only at hcap ⊢
          rw [hadj]
          split_ifs with c1 c2
          · rw [hL2f]
            exact List.Nodup.sublist
              (List.Sublist.map _ (List.filter_sublist _)) (hu.nodupAdj v.toNat hvn)
          · rw [hL1f]
            exact List.Nodup.sublist
              (List.Sublist.map _ (List.filter_sublist _)) (hu.nodupAdj u.toNat hun)
          · exact hu.nodupAdj x hcap
        · intro x hx y hy
          dsimp only at hx hy ⊢
          rw [hE2] at hx hy
          simp only [List.length_set] at hx hy
          have hchar : ∀ z : Nat, z < g.vertexEdges.length → ∀ w2 : Int,
              ((∃ e ∈ E2.getD z [], e.destVertex = w2) ↔
                (edgeInAdj g z w2 ∧ ¬ (z = u.toNat ∧ w2 = v) ∧
                  ¬ (z = v.toNat ∧ w2 = u))) := by
            intro z hz w2
            unfold edgeInAdj
            rw [hadj z]
            split_ifs with c1 c2
            · subst c1
              constructor
              · rintro ⟨e, he, hd⟩
                obtain ⟨he2, hdne⟩ := (hmemFv e).mp he
                exact ⟨⟨e, he2, hd⟩, fun hc => absurd hc.1 (by omega),
                  fun hc => absurd (hd ▸ hc.2) hdne⟩
              · rintro ⟨⟨e, he, hd⟩, hn1, hn2⟩
                refine ⟨e, (hmemFv e).mpr ⟨he, ?_⟩, hd⟩
                intro hc
                exact hn2 ⟨rfl, hd ▸ hc⟩
            · subst c2
              constructor
              · rintro ⟨e, he, hd⟩
                obtain ⟨he2, hdne⟩ := (hmemFu e).mp he
                exact ⟨⟨e, he2, hd⟩, fun hc => absurd (hd ▸ hc.2) hdne,
                  fun hc => absurd hc.1 c1⟩
              · rintro ⟨⟨e, he, hd⟩, hn1, hn2⟩
                refine ⟨e, (hmemFu e).mpr ⟨he, ?_⟩, hd⟩
                intro hc
                exact hn1 ⟨rfl, hd ▸ hc⟩
            · constructor
              · rintro ⟨e, he, hd⟩
                exact ⟨⟨e, he, hd⟩, fun hc => absurd hc.1 c2, fun hc => absurd hc.1 c1⟩
              · rintro ⟨⟨e, he, hd⟩, _, _⟩
                exact ⟨e, he, hd⟩
          unfold edgeInAdj
          dsimp only
          rw [hchar x hx (y : Int), hchar y hy (x : Int)]
          have hxu2 : (x : Int) = u ↔ x = u.toNat := int_toNat_inj_iff x u hu0
          have hxv2 : (x : Int) = v ↔ x = v.toNat := int_toNat_inj_iff x v hv0
          have hyu2 : (y : Int) = u ↔ y = u.toNat := int_toNat_inj_iff y u hu0
          have hyv2 : (y : Int) = v ↔ y = v.toNat := int_toNat_inj_iff y v hv0
          have hsym := hu.sym x hx y hy
          constructor
          · rintro ⟨h, hn1, hn2⟩
            refine ⟨hsym.mp h, ?_, ?_⟩
            · rintro ⟨ha, hb⟩
              exact hn2 ⟨hxv2.mp hb, hyu2.mpr ha⟩
            · rintro ⟨ha, hb⟩
              exact hn1 ⟨hxu2.mp hb, hyv2.mpr ha⟩
          · rintro ⟨h, hn1, hn2⟩
            refine ⟨hsym.mpr h, ?_, ?_⟩
            · rintro ⟨ha, hb⟩
              exact hn2 ⟨hyv2.mp hb, hxu2.mpr ha⟩
            · rintro ⟨ha, hb⟩
              exact hn1 ⟨hyu2.mp hb, hxv2.mpr ha⟩
        · exact ⟨r + 1, by dsimp only; omega⟩
        · refine ⟨fl, hfl1, hfl2, hfl3, hfl4, ?_⟩
          intro i hcap
          dsimp only at hcap ⊢
          rw [hdeg]
          split_ifs with c1 c2
          · subst c1
            have hni : v.toNat ∉ fl := fun hc =>
              absurd ((hfl5 v.toNat hvn).mpr hc) (by omega)
            constructor
            · intro hc
              exfalso
              push_cast at hdegV hlenFv hc
              omega
            · intro hc
              exact absurd hc hni
          · subst c2
            have hni : u.toNat ∉ fl := fun hc =>
              absurd ((hfl5 u.toNat hun).mpr hc) (by omega)
            constructor
            · intro hc
              exfalso
              push_cast at hdegU hlenFu hc
              omega
            · intro hc
              exact absurd hc hni
          · exact hfl5 i hcap

theorem iGraphRemoveVertexUndirectedLoop_spec (w : Int) :
    ∀ (S : List AlgoGraphEdge) (gm g2 : AlgoGraphImpl),
    iGraphRemoveVertexUndirectedLoop w gm S = g2 →
    (∀ e ∈ S, 0 ≤ e.destVertex ∧ e.destVertex.toNat < gm.vertexEdges.length ∧
      e.destVertex.toNat < gm.vertexDegrees.length ∧ e.destVertex ≠ w ∧
      (∃ e2 ∈ gm.vertexEdges.getD e.destVertex.toNat [], e2.destVertex = w) ∧
      ((gm.vertexEdges.getD e.destVertex.toNat []).map
        (fun x => x.destVertex)).Nodup) →
    (S.map (fun e => e.destVertex)).Nodup →
    (g2.vertexCapacity = gm.vertexCapacity ∧
     g2.vertexData = gm.vertexData ∧
     g2.nextFreeVertexId = gm.nextFreeVertexId ∧
     g2.currentVertexCount = gm.currentVertexCount ∧
     g2.edgePoolFreeCount = gm.edgePoolFreeCount + 2 * S.length ∧
     g2.vertexEdges.length = gm.vertexEdges.length ∧
     g2.vertexDegrees.length = gm.vertexDegrees.length ∧
     (∀ x : Nat,
       ((x : Int) ∈ S.map (fun e => e.destVertex) →
         g2.vertexEdges.getD x [] = (gm.vertexEdges.getD x []).filter
           (fun e => decide (e.destVertex ≠ w)) ∧
         g2.vertexDegrees.getD x (-1) = gm.vertexDegrees.getD x (-1) - 1) ∧
       ((x : Int) ∉ S.map (fun e => e.destVertex) →
         g2.vertexEdges.getD x [] = gm.vertexEdges.getD x [] ∧
         g2.vertexDegrees.getD x (-1) = gm.vertexDegrees.getD x (-1)))) := by
  intro S
  induction S with
  | nil =>
    intro gm g2 hg2 hS hnd
    simp only [iGraphRemoveVertexUndirectedLoop] at hg2
    subst hg2
    refine ⟨rfl, rfl, rfl, rfl, by simp, rfl, rfl, ?_⟩
    intro x
    exact ⟨fun h => absurd h (by simp), fun _ => ⟨rfl, rfl⟩⟩
  | cons e rest ih =>
    intro gm g2 hg2 hS hnd
    obtain ⟨hd0, hdlenE, hdlenD, hdw, hex, hndl⟩ := hS e (by simp)
    set Fd : List AlgoGraphEdge := (gm.vertexEdges.getD e.destVertex.toNat []).filter
      (fun x => decide (x.destVertex ≠ w)) with hFd
    have hrem : iListRemoveFirstEdge w (gm.vertexEdges.getD e.destVertex.toNat []) =
        Option.some Fd :=
      iListRemoveFirstEdge_eq_filter w _ hndl hex
    simp only [iGraphRemoveVertexUndirectedLoop] at hg2
    unfold iGraphRemoveEdgeFromList at hg2
    rw [hrem] at hg2
    dsimp only at hg2
    have hSrest : ∀ e2 ∈ rest, 0 ≤ e2.destVertex ∧
        e2.destVertex.toNat < (gm.vertexEdges.set e.destVertex.toNat Fd).length ∧
        e2.destVertex.toNat < (gm.vertexDegrees.set e.destVertex.toNat
          (gm.vertexDegrees.getD e.destVertex.toNat (-1) - 1)).length ∧
        e2.destVertex ≠ w ∧
        (∃ e3 ∈ (gm.vertexEdges.set e.destVertex.toNat Fd).getD
          e2.destVertex.toNat [], e3.destVertex = w) ∧
        (((gm.vertexEdges.set e.destVertex.toNat Fd).getD
          e2.destVertex.toNat []).map (fun x => x.destVertex)).Nodup := by
      intro e2 he2
      obtain ⟨h0, hlE, hlD, hw2, hex2, hnd2⟩ := hS e2 (by simp [he2])
      have hne2 : e2.destVertex ≠ e.destVertex := by
        intro hc
        have hmm : e.destVertex ∈ rest.map (fun e => e.destVertex) := by
          rw [← hc]
          exact List.mem_map_of_mem _ he2
        exact (List.nodup_cons.mp hnd).1 hmm
      have hne2n : e2.destVertex.toNat ≠ e.destVertex.toNat := by omega
      have hget : (gm.vertexEdges.set e.destVertex.toNat Fd).getD
          e2.destVertex.toNat [] = gm.vertexEdges.getD e2.destVertex.toNat [] :=
        listGetD_set_ne _ _ _ _ _ (Ne.symm hne2n)
      refine ⟨h0, by simpa using hlE, by simpa using hlD, hw2, ?_, ?_⟩
      · rw [hget]
        exact hex2
      · rw [hget]
        exact hnd2
    have hndrest : (rest.map (fun e => e.destVertex)).Nodup :=
      (List.nodup_cons.mp hnd).2
    obtain ⟨c1, c2, c3, c4, c5, c6, c7, c8⟩ := ih _ g2 hg2 hSrest hndrest
    have d1 : g2.vertexCapacity = gm.vertexCapacity := c1
    have d2 : g2.vertexData = gm.vertexData := c2
    have d3 : g2.nextFreeVertexId = gm.nextFreeVertexId := c3
    have d4 : g2.currentVertexCount = gm.currentVertexCount := c4
    have d5 : g2.edgePoolFreeCount =
        gm.edgePoolFreeCount + 1 + 1 + 2 * rest.length := c5
    have d6 : g2.vertexEdges.length =
        (gm.vertexEdges.set e.destVertex.toNat Fd).length := c6
    have d7 : g2.vertexDegrees.length =
        (gm.vertexDegrees.set e.destVertex.toNat
          (gm.vertexDegrees.getD e.destVertex.toNat (-1) - 1)).length := c7
    have d8 : ∀ x : Nat,
        ((x : Int) ∈ rest.map (fun e => e.destVertex) →
          g2.vertexEdges.getD x [] =
            ((gm.vertexEdges.set e.destVertex.toNat Fd).getD x []).filter
              (fun e2 => decide (e2.destVertex ≠ w)) ∧
          g2.vertexDegrees.getD x (-1) =
            (gm.vertexDegrees.set e.destVertex.toNat
              (gm.vertexDegrees.getD e.destVertex.toNat (-1) - 1)).getD x (-1) - 1) ∧
        ((x : Int) ∉ rest.map (fun e => e.destVertex) →
          g2.vertexEdges.getD x [] =
            (gm.vertexEdges.set e.destVertex.toNat Fd).getD x [] ∧
          g2.vertexDegrees.getD x (-1) =
            (gm.vertexDegrees.set e.destVertex.toNat
              (gm.vertexDegrees.getD e.destVertex.toNat (-1) - 1)).getD x (-1)) := c8
    refine ⟨d1, d2, d3, d4, ?_, ?_, ?_, ?_⟩
    · rw [d5]
      simp only [List.length_cons]
      omega
    · rw [d6, List.length_set]
    · rw [d7, List.length_set]
    · intro x
      constructor
      · intro hmem
        rw [List.map_cons, List.mem_cons] at hmem
        by_cases hxe : (x : Int) = e.destVertex
        · have hxdn : x = e.destVertex.toNat := by omega
          have hxnotrest : (x : Int) ∉ rest.map (fun e => e.destVertex) := by
            rw [hxe]
            exact (List.nodup_cons.mp hnd).1
          obtain ⟨he1, he2⟩ := (d8 x).2 hxnotrest
          subst hxdn
          constructor
          · rw [he1, listGetD_set_self _ _ _ _ hdlenE]
          · rw [he2, listGetD_set_self _ _ _ _ hdlenD]
        · have hmem2 : (x : Int) ∈ rest.map (fun e => e.destVertex) :=
            hmem.resolve_left hxe
          have hxdn : x ≠ e.destVertex.toNat := by
            intro hc
            apply hxe
            rw [hc, Int.toNat_of_nonneg hd0]
          obtain ⟨he1, he2⟩ := (d8 x).1 hmem2
          constructor
          · rw [he1, listGetD_set_ne _ _ _ _ _ (Ne.symm hxdn)]
          · rw [he2, listGetD_set_ne _ _ _ _ _ (Ne.symm hxdn)]
      · intro hnmem
        rw [List.map_cons, List.mem_cons] at hnmem
        push_neg at hnmem
        have hxdn : x ≠ e.destVertex.toNat := by
          intro hc
          exact hnmem.1 (by rw [hc, Int.toNat_of_nonneg hd0])
        obtain ⟨he1, he2⟩ := (d8 x).2 hnmem.2
        exact ⟨by rw [he1, listGetD_set_ne _ _ _ _ _ (Ne.symm hxdn)],
          by rw [he2, listGetD_set_ne _ _ _ _ _ (Ne.symm hxdn)]⟩

theorem removeVertex_UGraphWF (g : AlgoGraphImpl) (v : Int)
    (hmode : g.edgeMode = .undirected) (hu : UGraphWF g) :
    UGraphWF (algoGraphRemoveVertex g v).2 := by
  unfold algoGraphRemoveVertex
  by_cases hval : ¬ iGraphIsValidVertexId g v = true
  · rw [if_pos hval]
    exact hu
  · rw [if_neg hval]
    rw [not_not] at hval
    obtain ⟨hv0, hvcap, hvdeg⟩ := (iGraphIsValidVertexId_iff g v).mp hval
    have hvn : v.toNat < g.vertexCapacity.toNat := by omega
    have hvcast : ((v.toNat : Nat) : Int) = v := Int.toNat_of_nonneg hv0
    have hedgLenW : v.toNat < g.vertexEdges.length := by rw [hu.lenEdges]; exact hvn
    have hdegLenW : v.toNat < g.vertexDegrees.length := by rw [hu.lenDeg]; exact hvn
    have hdatLenW : v.toNat < g.vertexData.length := by rw [hu.lenData]; exact hvn
    rw [hmode]
    dsimp only
    set L0 : List AlgoGraphEdge := g.vertexEdges.getD v.toNat [] with hL0
    set gL : AlgoGraphImpl := iGraphRemoveVertexUndirectedLoop v g L0 with hgL
    have hdestfact : ∀ x : Nat, (x : Int) ∈ L0.map (fun e => e.destVertex) →
        x < g.vertexCapacity.toNat ∧ x ≠ v.toNat ∧
        0 ≤ g.vertexDegrees.getD x (-1) ∧
        (∃ e2 ∈ g.vertexEdges.getD x [], e2.destVertex = v) ∧
        1 ≤ (g.vertexEdges.getD x []).length := by
      intro x hx
      obtain ⟨e, he, hdx⟩ := List.mem_map.mp hx
      obtain ⟨h0, hcap2, hdeg2⟩ :=
        (iGraphIsValidVertexId_iff g e.destVertex).mp (hu.destValid v.toNat hvn e he)
      have hxe : x = e.destVertex.toNat := by omega
      have hnself := hu.noSelf v.toNat hvn e he
      have hxw : x ≠ v.toNat := by
        intro hc
        apply hnself
        rw [hdx, hc]
      have hxcap : x < g.vertexCapacity.toNat := by omega
      have hxlen : x < g.vertexEdges.length := by rw [hu.lenEdges]; exact hxcap
      have hsym := (hu.sym v.toNat hedgLenW x hxlen).mp ⟨e, he, hdx.symm ▸ rfl⟩
      obtain ⟨e2, he2, hd2⟩ := hsym
      have hex : ∃ e2 ∈ g.vertexEdges.getD x [], e2.destVertex = v :=
        ⟨e2, he2, by rw [hd2, hvcast]⟩
      refine ⟨hxcap, hxw, by rw [hxe]; exact hdeg2, hex, ?_⟩
      obtain ⟨e3, he3, _⟩ := hex
      cases hl : g.vertexEdges.getD x []
      · rw [hl] at he3
        exact absurd he3 (by simp)
      · simp [hl]
    have hS : ∀ e ∈ L0, 0 ≤ e.destVertex ∧
        e.destVertex.toNat < g.vertexEdges.length ∧
        e.destVertex.toNat < g.vertexDegrees.length ∧ e.destVertex ≠ v ∧
        (∃ e2 ∈ g.vertexEdges.getD e.destVertex.toNat [], e2.destVertex = v) ∧
        ((g.vertexEdges.getD e.destVertex.toNat []).map
          (fun x => x.destVertex)).Nodup := by
      intro e he
      obtain ⟨h0, hcap2, hdeg2⟩ :=
        (iGraphIsValidVertexId_iff g e.destVertex).mp (hu.destValid v.toNat hvn e he)
      have hmm : ((e.destVertex.toNat : Nat) : Int) ∈ L0.map (fun e => e.destVertex) := by
        rw [Int.toNat_of_nonneg h0]
        exact List.mem_map_of_mem _ he
      obtain ⟨hxcap, hxw, hxdeg, hex, hlen1⟩ := hdestfact e.destVertex.toNat hmm
      refine ⟨h0, by rw [hu.lenEdges]; exact hxcap, by rw [hu.lenDeg]; exact hxcap,
        ?_, hex, hu.nodupAdj e.destVertex.toNat hxcap⟩
      intro hc
      apply hxw
      rw [hc]
    have hnd : (L0.map (fun e => e.destVertex)).Nodup := hu.nodupAdj v.toNat hvn
    obtain ⟨c1, c2, c3, c4, c5, c6, c7, c8⟩ :=
      iGraphRemoveVertexUndirectedLoop_spec v L0 g gL hgL.symm hS hnd
    have hfiltfact : ∀ x : Nat, (x : Int) ∈ L0.map (fun e => e.destVertex) →
        ((g.vertexEdges.getD x []).filter
          (fun e => decide (e.destVertex ≠ v))).length + 1 =
          (g.vertexEdges.getD x []).length := by
      intro x hx
      obtain ⟨hxcap, hxw, hxdeg, hex, hlen1⟩ := hdestfact x hx
      have hrem := iListRemoveFirstEdge_eq_filter v _ (hu.nodupAdj x hxcap) hex
      exact iListRemoveFirstEdge_some_length v _ _ hrem
    have hnomem : ∀ x : Nat, x < g.vertexCapacity.toNat →
        (x : Int) ∉ L0.map (fun e => e.destVertex) →
        ∀ e ∈ g.vertexEdges.getD x [], e.destVertex ≠ v := by
      intro x hxcap hnx e he hc
      apply hnx
      have hxlen : x < g.vertexEdges.length := by rw [hu.lenEdges]; exact hxcap
      have hsym := (hu.sym x hxlen v.toNat hedgLenW).mp ⟨e, he, by rw [hc, hvcast]⟩
      obtain ⟨e2, he2, hd2⟩ := hsym
      rw [← hd2]
      exact List.mem_map_of_mem _ he2
    have hEx : ∀ x : Nat, x < g.vertexCapacity.toNat → x ≠ v.toNat →
        gL.vertexEdges.getD x [] = (g.vertexEdges.getD x []).filter
          (fun e => decide (e.destVertex ≠ v)) := by
      intro x hxcap hxw
      by_cases hx : (x : Int) ∈ L0.map (fun e => e.destVertex)
      · exact ((c8 x).1 hx).1
      · rw [((c8 x).2 hx).1]
        refine (List.filter_eq_self.mpr ?_).symm
        intro e he
        simp [hnomem x hxcap hx e he]
    have hDx : ∀ x : Nat, x < g.vertexCapacity.toNat → x ≠ v.toNat →
        0 ≤ g.vertexDegrees.getD x (-1) →
        gL.vertexDegrees.getD x (-1) =
          ((gL.vertexEdges.getD x []).length : Int) ∧
        0 ≤ gL.vertexDegrees.getD x (-1) := by
      intro x hxcap hxw hxdeg
      rw [hEx x hxcap hxw]
      by_cases hx : (x : Int) ∈ L0.map (fun e => e.destVertex)
      · rw [((c8 x).1 hx).2]
        have hfl := hfiltfact x hx
        have hdm := hu.degMatch x hxcap hxdeg
        constructor
        · push_cast at hdm ⊢
          omega
        · push_cast at hdm ⊢
          omega
      · rw [((c8 x).2 hx).2]
        have heq : (g.vertexEdges.getD x []).filter
            (fun e => decide (e.destVertex ≠ v)) = g.vertexEdges.getD x [] := by
          refine List.filter_eq_self.mpr ?_
          intro e he
          simp [hnomem x hxcap hx e he]
        rw [heq]
        exact ⟨hu.degMatch x hxcap hxdeg, hxdeg⟩
    have hinvx : ∀ x : Nat, x < g.vertexCapacity.toNat →
        g.vertexDegrees.getD x (-1) < 0 →
        gL.vertexEdges.getD x [] = [] ∧
        gL.vertexDegrees.getD x (-1) = g.vertexDegrees.getD x (-1) := by
      intro x hxcap hxdeg
      have hnx : (x : Int) ∉ L0.map (fun e => e.destVertex) := by
        intro hx
        obtain ⟨_, _, hd3, _, _⟩ := hdestfact x hx
        omega
      obtain ⟨he1, he2⟩ := (c8 x).2 hnx
      rw [he1, he2]
      exact ⟨hu.invalidEmpty x hxcap hxdeg, rfl⟩
    have hWkeep : gL.vertexEdges.getD v.toNat [] = L0 := by
      have hnx : ((v.toNat : Nat) : Int) ∉ L0.map (fun e => e.destVertex) := by
        intro hx
        obtain ⟨_, hxw, _, _, _⟩ := hdestfact v.toNat hx
        exact hxw rfl
      exact ((c8 v.toNat).2 hnx).1
    have hWdeg : gL.vertexDegrees.getD v.toNat (-1) =
        g.vertexDegrees.getD v.toNat (-1) := by
      have hnx : ((v.toNat : Nat) : Int) ∉ L0.map (fun e => e.destVertex) := by
        intro hx
        obtain ⟨_, hxw, _, _, _⟩ := hdestfact v.toNat hx
        exact hxw rfl
      exact ((c8 v.toNat).2 hnx).2
    have hGLedgLen : gL.vertexEdges.length = g.vertexEdges.length := c6
    have hGLdegLen : gL.vertexDegrees.length = g.vertexDegrees.length := c7
    have hWlenGL : v.toNat < gL.vertexEdges.length := by rw [hGLedgLen]; exact hedgLenW
    have hWdegGL : v.toNat < gL.vertexDegrees.length := by rw [hGLdegLen]; exact hdegLenW
    obtain ⟨fl, hfl1, hfl2, hfl3, hfl4, hfl5⟩ := hu.freeChain
    have hWnotfl : v.toNat ∉ fl := by
      intro hin
      exact absurd ((hfl5 v.toNat hvn).mpr hin) (by omega)
    have hcount1 : 1 ≤ g.currentVertexCount := by
      by_contra hc
      push_neg at hc
      have hsub : fl.toFinset ⊆ (Finset.range g.vertexCapacity.toNat).erase v.toNat := by
        intro i hi
        rw [List.mem_toFinset] at hi
        rw [Finset.mem_erase, Finset.mem_range]
        exact ⟨fun hciW => hWnotfl (hciW ▸ hi), hfl4 i hi⟩
      have hcard := Finset.card_le_card hsub
      rw [List.toFinset_card_of_nodup hfl3,
        Finset.card_erase_of_mem (Finset.mem_range.mpr hvn), Finset.card_range] at hcard
      have hcnn := hu.countNonneg
      omega
    have hfinaldeg : ∀ x : Nat,
        (gL.vertexDegrees.set v.toNat (-1)).getD x (-1) =
          if x = v.toNat then -1 else gL.vertexDegrees.getD x (-1) := by
      intro x
      by_cases hx : x = v.toNat
      · subst hx
        rw [if_pos rfl]
        exact listGetD_set_self _ _ _ _ hWdegGL
      · rw [if_neg hx]
        exact listGetD_set_ne _ _ _ _ _ (Ne.symm hx)
    have hfinaledg : ∀ x : Nat,
        (gL.vertexEdges.set v.toNat []).getD x [] =
          if x = v.toNat then [] else gL.vertexEdges.getD x [] := by
      intro x
      by_cases hx : x = v.toNat
      · subst hx
        rw [if_pos rfl]
        exact listGetD_set_self _ _ _ _ hWlenGL
      · rw [if_neg hx]
        exact listGetD_set_ne _ _ _ _ _ (Ne.symm hx)
    obtain ⟨r, hr⟩ := hu.evenFree
    refine ⟨?_, ?_, ?_, ?_, ?_, ?_, ?_, ?_, ?_, ?_, ?_, ?_, ?_⟩
    · dsimp only
      rw [List.length_set, hGLdegLen, hu.lenDeg, c1]
    · dsimp only
      rw [List.length_set, hGLedgLen, hu.lenEdges, c1]
    · dsimp only
      rw [List.length_set, c2, hu.lenData, c1]
    · dsimp only
      rw [c4]
      omega
    · dsimp only
      rw [c4, c1]
      have := hu.countLe
      omega
    · intro x hcap e he
      dsimp only at hcap he ⊢
      rw [c1] at hcap
      rw [hfinaledg] at he
      split_ifs at he with hxw
      · exact absurd he (by simp)
      · rw [hEx x hcap hxw] at he
        rw [List.mem_filter] at he
        obtain ⟨he2, hdne⟩ := he
        simp only [decide_eq_true_eq] at hdne
        obtain ⟨h0, hcap2, hdeg2⟩ :=
          (iGraphIsValidVertexId_iff g e.destVertex).mp (hu.destValid x hcap e he2)
        rw [iGraphIsValidVertexId_iff]
        dsimp only
        have hdw : e.destVertex.toNat ≠ v.toNat := by omega
        rw [hfinaldeg, if_neg hdw, c1]
        refine ⟨h0, hcap2, ?_⟩
        exact (hDx e.destVertex.toNat (by omega) hdw hdeg2).2
    · intro x hcap hneg
      dsimp only at hcap hneg ⊢
      rw [c1] at hcap
      rw [hfinaldeg] at hneg
      rw [hfinaledg]
      split_ifs at hneg ⊢ with hxw
      · rfl
      · by_cases hxdeg : 0 ≤ g.vertexDegrees.getD x (-1)
        · exfalso
          have := (hDx x hcap hxw hxdeg).2
          omega
        · exact (hinvx x hcap (by omega)).1
    · intro x hcap hge
      dsimp only at hcap hge ⊢
      rw [c1] at hcap
      rw [hfinaldeg] at hge ⊢
      rw [hfinaledg]
      split_ifs at hge ⊢ with hxw
      · omega
      · by_cases hxdeg : 0 ≤ g.vertexDegrees.getD x (-1)
        · exact (hDx x hcap hxw hxdeg).1
        · exfalso
          have := (hinvx x hcap (by omega)).2
          omega
    · intro x hcap e he
      dsimp only at hcap he ⊢
      rw [c1] at hcap
      rw [hfinaledg] at he
      split_ifs at he with hxw
      · exact absurd he (by simp)
      · rw [hEx x hcap hxw, List.mem_filter] at he
        exact hu.noSelf x hcap e he.1
    · intro x hcap
      dsimp only at hcap ⊢
      rw [c1] at hcap
      rw [hfinaledg]
      split_ifs with hxw
      · simp
      · rw [hEx x hcap hxw]
        exact List.Nodup.sublist
          (List.Sublist.map _ (List.filter_sublist _)) (hu.nodupAdj x hcap)
    · intro x hx y hy
      dsimp only at hx hy ⊢
      simp only [List.length_set] at hx hy
      rw [hGLedgLen] at hx hy
      have hxcap : x < g.vertexCapacity.toNat := by rw [← hu.lenEdges]; exact hx
      have hycap : y < g.vertexCapacity.toNat := by rw [← hu.lenEdges]; exact hy
      have hpres : ∀ z : Nat, z < g.vertexCapacity.toNat → ∀ y2 : Int,
          ((∃ e ∈ (gL.vertexEdges.set v.toNat []).getD z [], e.destVertex = y2) ↔
            (z ≠ v.toNat ∧ y2 ≠ v ∧ edgeInAdj g z y2)) := by
        intro z hz y2
        rw [hfinaledg]
        split_ifs with hzw
        · constructor
          · rintro ⟨e, he, _⟩
            exact absurd he (by simp)
          · rintro ⟨hz2, _, _⟩
            exact absurd hzw hz2
        · rw [hEx z hz hzw]
          constructor
          · rintro ⟨e, he, hd⟩
            rw [List.mem_filter] at he
            obtain ⟨he2, hdne⟩ := he
            simp only [decide_eq_true_eq] at hdne
            exact ⟨hzw, hd ▸ hdne, ⟨e, he2, hd⟩⟩
          · rintro ⟨hz2, hy2, ⟨e, he, hd⟩⟩
            refine ⟨e, ?_, hd⟩
            rw [List.mem_filter]
            refine ⟨he, ?_⟩
            simp only [decide_eq_true_eq]
            rw [hd]
            exact hy2
      unfold edgeInAdj
      dsimp only
      rw [hpres x hxcap (y : Int), hpres y hycap (x : Int)]
      have hxw2 : (x : Int) = v ↔ x = v.toNat := int_toNat_inj_iff x v hv0
      have hyw2 : (y : Int) = v ↔ y = v.toNat := int_toNat_inj_iff y v hv0
      have hxlen : x < g.vertexEdges.length := by rw [hu.lenEdges]; exact hxcap
      have hylen : y < g.vertexEdges.length := by rw [hu.lenEdges]; exact hycap
      have hsym := hu.sym x hxlen y hylen
      constructor
      · rintro ⟨ha, hb, hc⟩
        exact ⟨fun hyv => hb (hyw2.mpr hyv), fun hxv => ha (hxw2.mp hxv), hsym.mp hc⟩
      · rintro ⟨ha, hb, hc⟩
        exact ⟨fun hxv => hb (hxw2.mpr hxv), fun hyv => ha (hyw2.mp hyv), hsym.mpr hc⟩
    · dsimp only
      rw [c5]
      exact ⟨r + L0.length, by omega⟩
    · refine ⟨v.toNat :: fl, ?_, ?_, ?_, ?_, ?_⟩
      · dsimp only
        refine ⟨hvcast.symm, ?_⟩
        rw [c2, c3]
        have hget : (g.vertexData.set v.toNat g.nextFreeVertexId).getD v.toNat 0 =
            g.nextFreeVertexId := listGetD_set_self _ _ _ _ hdatLenW
        rw [hget]
        refine vfl_congr _ _ fl _ hfl1 ?_
        intro i hi
        have hiw : i ≠ v.toNat := fun hc => hWnotfl (hc ▸ hi)
        exact listGetD_set_ne _ _ _ _ _ (Ne.symm hiw)
      · dsimp only
        rw [c4, c1]
        simp only [List.length_cons]
        push_cast
        push_cast at hfl2
        omega
      · rw [List.nodup_cons]
        exact ⟨hWnotfl, hfl3⟩
      · intro i hi
        dsimp only
        rw [c1]
        rcases List.mem_cons.mp hi with rfl | hi2
        · exact hvn
        · exact hfl4 i hi2
      · intro i hcap
        dsimp only at hcap ⊢
        rw [c1] at hcap
        rw [hfinaldeg]
        split_ifs with hiw
        · subst hiw
          simp
        · rw [List.mem_cons]
          by_cases hxdeg : 0 ≤ g.vertexDegrees.getD i (-1)
          · have hd2 := (hDx i hcap hiw hxdeg).2
            constructor
            · intro hc
              omega
            · rintro (hc | hc)
              · exact absurd hc hiw
              · have := (hfl5 i hcap).mpr hc
                omega
          · have hd2 := (hinvx i hcap (by omega)).2
            rw [hd2]
            constructor
            · intro hc
              exact Or.inr ((hfl5 i hcap).mp hc)
            · intro _
              omega

theorem graphReachable_UGraphWF (g : AlgoGraphImpl) (hr : GraphReachable g) :
    g.edgeMode = .undirected → UGraphWF g := by
  induction hr with
  | create vc ec mode g hc =>
    intro hmode
    exact create_UGraphWF vc ec mode g hc hmode
  | addVertex g d hr ih =>
    intro hmode
    rw [addVertex_edgeMode] at hmode
    exact addVertex_UGraphWF g d (ih hmode)
  | removeVertex g v hr ih =>
    intro hmode
    rw [removeVertex_edgeMode] at hmode
    exact removeVertex_UGraphWF g v hmode (ih hmode)
  | addEdge g u v hr ih =>
    intro hmode
    rw [addEdge_edgeMode] at hmode
    exact addEdge_UGraphWF g u v hmode (ih hmode)
  | removeEdge g u v hr ih =>
    intro hmode
    rw [removeEdge_edgeMode] at hmode
    exact removeEdge_UGraphWF g u v hmode (ih hmode)
  | setVertexData g v d hr ih =>
    intro hmode
    rw [setVertexData_edgeMode] at hmode
    exact setVertexData_UGraphWF g v d (ih hmode)

/-- C4.  For every undirected graph reachable from `algoGraphCreate`
through any sequence of the public operations (`algoGraphAddVertex`,
`algoGraphRemoveVertex`, `algoGraphAddEdge`, `algoGraphRemoveEdge`,
`algoGraphSetVertexData`), after each operation the adjacency lists are
symmetric: an edge `u -> v` is present in `u`'s adjacency list iff
`v -> u` is present in `v`'s. -/
theorem algoGraphUndirected_symmetric (g : AlgoGraphImpl)
    (hmode : g.edgeMode = .undirected) (hr : GraphReachable g) :
    GraphSymmetric g :=
  (graphReachable_UGraphWF g hr hmode).sym

/-- Witness for C4: the S5 graph is an undirected reachable state, so the
theorem yields its adjacency symmetry. -/
theorem algoGraphUndirected_symmetric_witness :
    graphS5.edgeMode = AlgoGraphEdgeMode.undirected ∧ GraphReachable graphS5 ∧
      GraphSymmetric graphS5 := by
  have hreach : GraphReachable graphS5 :=
    GraphReachable.addEdge _ 2 3 (GraphReachable.addEdge _ 1 3
      (GraphReachable.addEdge _ 0 2 (GraphReachable.addEdge _ 0 1
        (GraphReachable.addVertex _ 0 (GraphReachable.addVertex _ 0
          (GraphReachable.addVertex _ 0 (GraphReachable.addVertex _ 0
            (GraphReachable.create 4 4 .undirected _ rfl))))))))
  exact ⟨rfl, hreach, algoGraphUndirected_symmetric graphS5 rfl hreach⟩

/-!
## DFS invariants (C6, C2)
-/

theorem algoStackPop_ok (s : AlgoStack) (h : s.nodes ≠ []) :
    algoStackPop s = .ok (s.nodes.getLastD 0, { s with nodes := s.nodes.dropLast }) := by
  unfold algoStackPop iStackIsEmpty AlgoStack.top
  rw [if_neg]
  simp only [decide_eq_true_eq]
  intro hc
  have : s.nodes.length = 0 := by exact_mod_cast hc
  exact h (List.length_eq_zero.mp this)

theorem algoStackPush_ok (s : AlgoStack) (x : AlgoData)
    (h : (s.nodes.length : Int) ≠ s.capacity) :
    (algoStackPush s x).2 = { s with nodes := s.nodes ++ [x] } := by
  unfold algoStackPush iStackIsFull AlgoStack.top
  rw [if_neg (by simp only [decide_eq_true_eq]; exact h)]

theorem nodup_length_le_card (P : List Nat) (hnd : P.Nodup) (s : Finset Nat)
    (h : ∀ v ∈ P, v ∈ s) : P.length ≤ s.card := by
  have hsub : P.toFinset ⊆ s := by
    intro i hi
    exact h i (List.mem_toFinset.mp hi)
  have := Finset.card_le_card hsub
  rw [List.toFinset_card_of_nodup hnd] at this
  exact this

theorem sum_map_length_set (l : List (List AlgoGraphEdge)) (i : Nat)
    (r : List AlgoGraphEdge) :
    ∀ hi : i < l.length,
    ((l.set i r).map List.length).sum + (l.getD i []).length =
      (l.map List.length).sum + r.length := by
  induction l generalizing i with
  | nil => intro hi; exact absurd hi (by simp)
  | cons x xs ih =>
    intro hi
    cases i with
    | zero =>
      simp [List.set]
      omega
    | succ i =>
      have hi2 : i < xs.length := by simpa using hi
      have := ih i hi2
      simp only [List.set, List.map_cons, List.sum_cons, List.getD_cons_succ]
      omega

theorem reachN_trans_edge (g : AlgoGraphImpl) (a b c : Nat) (m : Nat)
    (h1 : edgeInAdj g a (b : Int)) (h2 : ReachN g b c m) :
    ReachN g a c (m + 1) := by
  obtain ⟨e, he, hd⟩ := h1
  refine ⟨e, he, ?_⟩
  rw [hd]
  simpa using h2

theorem chainReach (g : AlgoGraphImpl) :
    ∀ (Q : List Nat) (u : Nat),
    (Q ++ [u]).Chain' (fun a b => edgeInAdj g a (b : Int)) →
    ∀ v ∈ Q, ∃ n, ReachN g v u (n + 1) := by
  intro Q
  induction Q with
  | nil => intro u _ v hv; exact absurd hv (by simp)
  | cons q Q ih =>
    intro u hch v hv
    have hch2 := hch
    rw [List.cons_append, List.chain'_cons'] at hch2
    obtain ⟨hhead, htail⟩ := hch2
    rcases List.mem_cons.mp hv with rfl | hv2
    · cases Q with
      | nil =>
        have hrel := hhead u (by simp)
        exact ⟨0, reachN_trans_edge g v u u 0 hrel rfl⟩
      | cons q2 Q2 =>
        have hrel := hhead q2 (by simp)
        obtain ⟨n, hn⟩ := ih u htail q2 (by simp)
        exact ⟨n + 1, reachN_trans_edge g v q2 u (n + 1) hrel hn⟩
    · exact ih u htail v hv2

theorem intervalsNOD_comm (a1 b1 a2 b2 : Nat)
    (h : IntervalsNestedOrDisjoint a1 b1 a2 b2) :
    IntervalsNestedOrDisjoint a2 b2 a1 b1 := by
  unfold IntervalsNestedOrDisjoint at *
  omega


theorem iDfsStep_eq_cont_disc {σ : Type} (g : AlgoGraphImpl)
    (cb : AlgoGraphDfsCallbacks σ) (stud : AlgoGraphDfsState × σ)
    (Q : List Nat) (p0 : Nat)
    (hstk : stud.1.vertexStack.nodes =
      Q.map (fun v : Nat => (v : Int)) ++ [(p0 : Int)])
    (hdisc : p0 ∈ stud.1.isVertexDiscovered) :
    iDfsStep g cb stud = iDfsCont g cb p0
      { stud.1 with vertexStack :=
        { stud.1.vertexStack with nodes := Q.map (fun v : Nat => (v : Int)) } }
      stud.2 := by
  have hne : stud.1.vertexStack.nodes ≠ [] := by
    rw [hstk]
    simp
  unfold iDfsStep iDfsCont
  rw [algoStackPop_ok _ hne]
  rw [hstk]
  simp only [List.getLastD_concat, List.dropLast_concat, Int.toNat_natCast]
  rw [if_neg (not_not.mpr hdisc)]
  rfl

theorem iDfsStep_eq_cont_undisc {σ : Type} (g : AlgoGraphImpl)
    (cb : AlgoGraphDfsCallbacks σ) (stud : AlgoGraphDfsState × σ)
    (P : List Nat) (w : Nat)
    (hstk : stud.1.vertexStack.nodes =
      P.map (fun v : Nat => (v : Int)) ++ [(w : Int)])
    (hdisc : w ∉ stud.1.isVertexDiscovered) :
    iDfsStep g cb stud = iDfsCont g cb w
      { stud.1 with
        vertexStack :=
          { stud.1.vertexStack with nodes := P.map (fun v : Nat => (v : Int)) }
        isVertexDiscovered := insert w stud.1.isVertexDiscovered
        currentTime := stud.1.currentTime + 1
        vertexEntryTime := stud.1.vertexEntryTime.set w (stud.1.currentTime + 1) }
      (iDfsRunVertexCb cb.vertexFuncEarly g
        { stud.1 with
          vertexStack :=
            { stud.1.vertexStack with nodes := P.map (fun v : Nat => (v : Int)) }
          isVertexDiscovered := insert w stud.1.isVertexDiscovered
          currentTime := stud.1.currentTime + 1
          vertexEntryTime := stud.1.vertexEntryTime.set w (stud.1.currentTime + 1) }
        (w : Int) stud.2) := by
  have hne : stud.1.vertexStack.nodes ≠ [] := by
    rw [hstk]
    simp
  unfold iDfsStep iDfsCont
  rw [algoStackPop_ok _ hne]
  rw [hstk]
  simp only [List.getLastD_concat, List.dropLast_concat, Int.toNat_natCast]
  rw [if_pos hdisc]
  rfl

theorem iDfsDiscover_inv (g : AlgoGraphImpl) (st : AlgoGraphDfsState)
    (P : List Nat) (w : Nat) (hinv : DfsInv g st P)
    (hwcap : w < g.vertexCapacity.toNat)
    (hwdisc : w ∉ st.isVertexDiscovered)
    (hwval : 0 ≤ g.vertexDegrees.getD w (-1))
    (hwedge : P = [] ∨ edgeInAdj g (P.getLastD 0) (w : Int))
    (hstk : st.vertexStack.nodes = P.map (fun v : Nat => (v : Int)) ++ [(w : Int)]) :
    DfsInv g { st with
      isVertexDiscovered := insert w st.isVertexDiscovered
      currentTime := st.currentTime + 1
      vertexEntryTime := st.vertexEntryTime.set w (st.currentTime + 1) }
      (P ++ [w]) := by
  have hwP : w ∉ P := fun hc => hwdisc ((hinv.activeP w).mpr hc).1
  have hentrylen : w < st.vertexEntryTime.length := by
    rw [hinv.lenEntry]
    exact hwcap
  refine ⟨?_, ?_, ?_, ?_, ?_, ?_, ?_, ?_, ?_, ?_, ?_, ?_, ?_, ?_, ?_, ?_, ?_⟩
  · dsimp only
    simp [hinv.lenEntry]
  · exact hinv.lenExit
  · exact hinv.stackCap
  · intro v hv
    rcases Finset.mem_insert.mp hv with rfl | hv
    · exact hwcap
    · exact hinv.discRange v hv
  · intro v hv
    rcases Finset.mem_insert.mp hv with rfl | hv
    · exact hwval
    · exact hinv.discValid v hv
  · exact hinv.procSub.trans (Finset.subset_insert _ _)
  · intro v
    dsimp only
    constructor
    · rintro ⟨hd, hnp⟩
      rcases Finset.mem_insert.mp hd with rfl | hd
      · exact List.mem_append_right _ (by simp)
      · exact List.mem_append_left _ ((hinv.activeP v).mp ⟨hd, hnp⟩)
    · intro hv
      rcases List.mem_append.mp hv with hv2 | hv2
      · obtain ⟨hd, hnp⟩ := (hinv.activeP v).mpr hv2
        exact ⟨Finset.mem_insert_of_mem hd, hnp⟩
      · obtain rfl := List.mem_singleton.mp hv2
        exact ⟨Finset.mem_insert_self _ _, fun hc => hwdisc (hinv.procSub hc)⟩
  · rw [List.nodup_append]
    exact ⟨hinv.Pnodup, List.nodup_singleton w,
      fun a ha hb => hwP ((List.mem_singleton.mp hb) ▸ ha)⟩
  · left
    dsimp only
    rw [hstk]
    simp
  · intro v hv
    obtain ⟨pre, h1, h2⟩ := hinv.cursorDone v hv
    refine ⟨pre, h1, fun e he => ?_⟩
    rcases h2 e he with hc | hc
    · exact Or.inl (Finset.mem_insert_of_mem hc)
    · left
      rw [hstk] at hc
      have h4 := List.append_inj_right hc rfl
      injection h4 with h5 h6
      have h7 : w = e.destVertex.toNat := by exact_mod_cast h5
      rw [← h7]
      exact Finset.mem_insert_self w st.isVertexDiscovered
  · intro v hv
    dsimp only at hv ⊢
    rcases Finset.mem_insert.mp hv with rfl | hv
    · rw [listGetD_set_self _ _ _ _ hentrylen]
      omega
    · have hvw : v ≠ w := fun hc => hwdisc (hc ▸ hv)
      rw [listGetD_set_ne _ _ _ _ _ (Ne.symm hvw)]
      have := hinv.entryLe v hv
      omega
  · intro v hv
    dsimp only at hv ⊢
    have hvw : v ≠ w := fun hc => hwdisc (hinv.procSub (hc ▸ hv))
    rw [listGetD_set_ne _ _ _ _ _ (Ne.symm hvw)]
    have := hinv.exitProc v hv
    omega
  · rw [List.pairwise_append]
    refine ⟨?_, by simp, ?_⟩
    · refine hinv.Pentry.imp_of_mem ?_
      intro a b ha hb hab
      have haw : a ≠ w := fun hc => hwP (hc ▸ ha)
      have hbw : b ≠ w := fun hc => hwP (hc ▸ hb)
      dsimp only
      rw [listGetD_set_ne _ _ _ _ _ (Ne.symm haw),
        listGetD_set_ne _ _ _ _ _ (Ne.symm hbw)]
      exact hab
    · intro a ha b hb
      rw [show b = w from List.mem_singleton.mp hb]
      have haw : a ≠ w := fun hc => hwP (hc ▸ ha)
      dsimp only
      rw [listGetD_set_ne _ _ _ _ _ (Ne.symm haw),
        listGetD_set_self _ _ _ _ hentrylen]
      have := (hinv.entryLe a ((hinv.activeP a).mpr ha).1).2
      omega
  · rw [List.chain'_append]
    refine ⟨hinv.Ppath, by simp, ?_⟩
    intro x hx y hy
    simp only [List.head?_cons, Option.mem_def, Option.some.injEq] at hy
    subst hy
    rcases hwedge with hP | hedge
    · rw [hP] at hx
      simp at hx
    · have hPne : P ≠ [] := by
        intro hc
        rw [hc] at hx
        simp at hx
      rw [List.getLast?_eq_getLast _ hPne] at hx
      simp only [Option.mem_def, Option.some.injEq] at hx
      have hgl : P.getLastD 0 = P.getLast hPne := by
        rw [List.getLastD_eq_getLast?, List.getLast?_eq_getLast _ hPne]
        rfl
      rw [← hx, ← hgl]
      exact hedge
  · intro u hu v hv
    dsimp only at hu hv ⊢
    have hune : u ≠ w := fun hc => hwdisc (hinv.procSub (hc ▸ hu))
    have hvne : v ≠ w := fun hc => hwdisc (hinv.procSub (hc ▸ hv))
    rw [listGetD_set_ne _ _ _ _ _ (Ne.symm hune),
      listGetD_set_ne _ _ _ _ _ (Ne.symm hvne)]
    exact hinv.nested u hu v hv
  · intro u hu v hv
    dsimp only at hu hv ⊢
    have hune : u ≠ w := fun hc => hwdisc (hinv.procSub (hc ▸ hu))
    rcases List.mem_append.mp hv with hv2 | hv2
    · have hvne : v ≠ w := fun hc => hwP (hc ▸ hv2)
      rw [listGetD_set_ne _ _ _ _ _ (Ne.symm hune),
        listGetD_set_ne _ _ _ _ _ (Ne.symm hvne)]
      exact hinv.procActive u hu v hv2
    · obtain rfl := List.mem_singleton.mp hv2
      right
      rw [listGetD_set_self _ _ _ _ hentrylen]
      have := (hinv.exitProc u hu).2
      omega
  · intro u hu e he
    dsimp only at hu ⊢
    obtain ⟨hdisc, hdisj⟩ := hinv.edgeDone u hu e he
    refine ⟨Finset.mem_insert_of_mem hdisc, ?_⟩
    rcases hdisj with ⟨hdp, hlt⟩ | hr
    · exact Or.inl ⟨hdp, hlt⟩
    · exact Or.inr hr

theorem iDfsCont_inv {σ : Type} (g : AlgoGraphImpl) (cb : AlgoGraphDfsCallbacks σ)
    (J : AlgoGraphDfsState → σ → Prop)
    (hJstable : ∀ st st2 ud, J st ud →
      st2.isVertexProcessed = st.isVertexProcessed →
      st2.vertexExitTime = st.vertexExitTime → J st2 ud)
    (hJedge : ∀ st (v0 v1 : Int) ud, J st ud →
      J st (iDfsRunEdgeCb cb.edgeFunc g st v0 v1 ud))
    (hJexit : ∀ st ud (v0 : Nat), v0 ∉ st.isVertexProcessed →
      0 ≤ g.vertexDegrees.getD v0 (-1) → v0 < g.vertexCapacity.toNat →
      st.vertexExitTime.length = g.vertexCapacity.toNat →
      (∀ u ∈ st.isVertexProcessed, 0 ≤ g.vertexDegrees.getD u (-1) ∧
        u < g.vertexCapacity.toNat ∧ st.vertexExitTime.getD u 0 ≤ st.currentTime) →
      J st ud →
      J { st with
          currentTime := st.currentTime + 1
          vertexExitTime := st.vertexExitTime.set v0 (st.currentTime + 1)
          isVertexProcessed := insert v0 st.isVertexProcessed }
        (iDfsRunVertexCb cb.vertexFuncLate g st ((v0 : Nat) : Int) ud))
    (hwf : GraphTravWF g) (st : AlgoGraphDfsState) (ud : σ)
    (Q : List Nat) (p0 : Nat)
    (hinv : DfsInv g st (Q ++ [p0]))
    (hstk : st.vertexStack.nodes = Q.map (fun v : Nat => (v : Int)) ++ [(p0 : Int)])
    (hJ : J st ud) :
    ∃ P2, DfsInv g (iDfsCont g cb p0
        { st with vertexStack :=
          { st.vertexStack with nodes := Q.map (fun v : Nat => (v : Int)) } } ud).1 P2 ∧
      J (iDfsCont g cb p0
        { st with vertexStack :=
          { st.vertexStack with nodes := Q.map (fun v : Nat => (v : Int)) } } ud).1
        (iDfsCont g cb p0
        { st with vertexStack :=
          { st.vertexStack with nodes := Q.map (fun v : Nat => (v : Int)) } } ud).2 ∧
      iDfsMeasure (iDfsCont g cb p0
        { st with vertexStack :=
          { st.vertexStack with nodes := Q.map (fun v : Nat => (v : Int)) } } ud).1 <
        iDfsMeasure st := by
  have hp0active : p0 ∈ st.isVertexDiscovered ∧ p0 ∉ st.isVertexProcessed :=
    (hinv.activeP p0).mpr (by simp)
  have hp0disc := hp0active.1
  have hp0proc := hp0active.2
  have hp0cap : p0 < g.vertexCapacity.toNat := hinv.discRange p0 hp0disc
  have hp0val : 0 ≤ g.vertexDegrees.getD p0 (-1) := hinv.discValid p0 hp0disc
  have hQactive : ∀ v ∈ Q, v ∈ st.isVertexDiscovered ∧ v ∉ st.isVertexProcessed :=
    fun v hv => (hinv.activeP v).mpr (by simp [hv])
  have hp0notQ : p0 ∉ Q := by
    have hn := hinv.Pnodup
    rw [List.nodup_append] at hn
    intro hc
    exact hn.2.2 hc (by simp)
  have hPcap : ∀ v ∈ Q ++ [p0], v < g.vertexCapacity.toNat := by
    intro v hv
    rcases List.mem_append.mp hv with hv2 | hv2
    · exact hinv.discRange v (hQactive v hv2).1
    · rw [List.mem_singleton.mp hv2]
      exact hp0cap
  have hPlen : (Q ++ [p0]).length ≤ g.vertexCapacity.toNat := by
    have := nodup_length_le_card (Q ++ [p0]) hinv.Pnodup
      (Finset.range g.vertexCapacity.toNat)
      (fun v hv => Finset.mem_range.mpr (hPcap v hv))
    simpa using this
  have hQlen : Q.length + 1 ≤ g.vertexCapacity.toNat := by simpa using hPlen
  have hcap0 : 0 < g.vertexCapacity := hwf.capPos
  have hconsumed : ∀ v : Nat, v < g.vertexCapacity.toNat →
      ∃ pre, g.vertexEdges.getD v [] = pre ++ st.vertexNextEdge.getD v [] ∧
        ∀ e ∈ pre, e.destVertex.toNat ∈ st.isVertexDiscovered := by
    intro v hv
    obtain ⟨pre, h1, h2⟩ := hinv.cursorDone v hv
    refine ⟨pre, h1, fun e he => (h2 e he).resolve_right (fun hc => ?_)⟩
    rw [hstk] at hc
    have hlen := congrArg List.length hc
    simp only [List.length_append, List.length_map, List.length_cons,
      List.length_nil] at hlen
    omega
  have hstklen : st.vertexStack.nodes.length = Q.length + 1 := by
    rw [hstk]
    simp only [List.length_append, List.length_map, List.length_cons,
      List.length_nil]
  unfold iDfsCont
  dsimp only
  cases hcur : st.vertexNextEdge.getD p0 [] with
  | nil =>
    have hexitLen : p0 < st.vertexExitTime.length := by
      rw [hinv.lenExit]
      exact hp0cap
    have hadjp0 : ∀ e ∈ g.vertexEdges.getD p0 [],
        e.destVertex.toNat ∈ st.isVertexDiscovered := by
      obtain ⟨pre0, h01, h02⟩ := hconsumed p0 hp0cap
      rw [hcur, List.append_nil] at h01
      exact fun e he => h02 e (h01 ▸ he)
    refine ⟨Q, ?_, ?_, ?_⟩
    · refine ⟨hinv.lenEntry, by simp [hinv.lenExit], hinv.stackCap,
        hinv.discRange, hinv.discValid, ?_, ?_,
        (List.nodup_append.mp hinv.Pnodup).1, Or.inl rfl, ?_, ?_, ?_,
        (List.pairwise_append.mp hinv.Pentry).1,
        (List.chain'_append.mp hinv.Ppath).1, ?_, ?_, ?_⟩
      · exact Finset.insert_subset hp0disc hinv.procSub
      · intro v
        dsimp only
        constructor
        · rintro ⟨hd, hnp⟩
          rw [Finset.mem_insert] at hnp
          push_neg at hnp
          have := (hinv.activeP v).mp ⟨hd, hnp.2⟩
          rcases List.mem_append.mp this with hv2 | hv2
          · exact hv2
          · exact absurd (List.mem_singleton.mp hv2) hnp.1
        · intro hv
          obtain ⟨hd, hnp⟩ := hQactive v hv
          refine ⟨hd, ?_⟩
          rw [Finset.mem_insert]
          push_neg
          exact ⟨fun hc => hp0notQ (hc ▸ hv), hnp⟩
      · intro v hv
        obtain ⟨pre, h1, h2⟩ := hconsumed v hv
        exact ⟨pre, h1, fun e he => Or.inl (h2 e he)⟩
      · intro v hv
        dsimp only
        obtain ⟨h1, h2⟩ := hinv.entryLe v hv
        exact ⟨h1, by omega⟩
      · intro v hv
        dsimp only at hv ⊢
        rcases Finset.mem_insert.mp hv with hvp | hv
        · rw [hvp, listGetD_set_self _ _ _ _ hexitLen]
          obtain ⟨h1, h2⟩ := hinv.entryLe p0 hp0disc
          omega
        · have hvne : v ≠ p0 := fun hc => hp0proc (hc ▸ hv)
          rw [listGetD_set_ne _ _ _ _ _ (Ne.symm hvne)]
          obtain ⟨h1, h2⟩ := hinv.exitProc v hv
          omega
      · intro u hu v hv
        dsimp only at hu hv ⊢
        have hget : ∀ x ∈ st.isVertexProcessed,
            (st.vertexExitTime.set p0 (st.currentTime + 1)).getD x 0 =
              st.vertexExitTime.getD x 0 := by
          intro x hx
          refine listGetD_set_ne _ _ _ _ _ ?_
          intro hc
          exact hp0proc (hc ▸ hx)
        have hgetp0 : (st.vertexExitTime.set p0 (st.currentTime + 1)).getD p0 0 =
            st.currentTime + 1 := listGetD_set_self _ _ _ _ hexitLen
        rcases Finset.mem_insert.mp hu with hup | hu <;>
          rcases Finset.mem_insert.mp hv with hvp | hv
        · rw [hup, hvp, hgetp0]
          unfold IntervalsNestedOrDisjoint
          omega
        · rw [hup, hgetp0, hget v hv]
          obtain ⟨he1, he2⟩ := hinv.exitProc v hv
          rcases hinv.procActive v hv p0 (by simp) with hpa | hpa
          · unfold IntervalsNestedOrDisjoint
            omega
          · unfold IntervalsNestedOrDisjoint
            omega
        · rw [hvp, hgetp0, hget u hu]
          obtain ⟨he1, he2⟩ := hinv.exitProc u hu
          rcases hinv.procActive u hu p0 (by simp) with hpa | hpa
          · unfold IntervalsNestedOrDisjoint
            omega
          · unfold IntervalsNestedOrDisjoint
            omega
        · rw [hget u hu, hget v hv]
          exact hinv.nested u hu v hv
      · intro u hu v hv
        dsimp only at hu hv ⊢
        rcases Finset.mem_insert.mp hu with hup | hu
        · left
          rw [hup]
          exact (List.pairwise_append.mp hinv.Pentry).2.2 v hv p0 (by simp)
        · rcases hinv.procActive u hu v (List.mem_append_left _ hv) with hpa | hpa
          · exact Or.inl hpa
          · refine Or.inr ?_
            have hune : u ≠ p0 := fun hc => hp0proc (hc ▸ hu)
            rw [listGetD_set_ne _ _ _ _ _ (Ne.symm hune)]
            exact hpa
      · intro u hu e he
        dsimp only at hu ⊢
        have hget : ∀ x : Nat, x ≠ p0 →
            (st.vertexExitTime.set p0 (st.currentTime + 1)).getD x 0 =
              st.vertexExitTime.getD x 0 :=
          fun x hx => listGetD_set_ne _ _ _ _ _ (Ne.symm hx)
        have hgetp0 : (st.vertexExitTime.set p0 (st.currentTime + 1)).getD p0 0 =
            st.currentTime + 1 := listGetD_set_self _ _ _ _ hexitLen
        rcases Finset.mem_insert.mp hu with hup | hu
        · rw [hup] at he ⊢
          have hdisc := hadjp0 e he
          refine ⟨hdisc, ?_⟩
          by_cases hdp : e.destVertex.toNat ∈ st.isVertexProcessed
          · left
            refine ⟨Finset.mem_insert_of_mem hdp, ?_⟩
            have hdne : e.destVertex.toNat ≠ p0 := fun hc => hp0proc (hc ▸ hdp)
            rw [hget _ hdne, hgetp0]
            obtain ⟨_, hb⟩ := hinv.exitProc _ hdp
            omega
          · right
            have hdP : e.destVertex.toNat ∈ Q ++ [p0] :=
              (hinv.activeP _).mp ⟨hdisc, hdp⟩
            rcases List.mem_append.mp hdP with hdQ | hdp0
            · exact chainReach g Q p0 hinv.Ppath _ hdQ
            · rw [List.mem_singleton.mp hdp0]
              exact ⟨0, e, he, List.mem_singleton.mp hdp0⟩
        · obtain ⟨hdisc, hdisj⟩ := hinv.edgeDone u hu e he
          have hune : u ≠ p0 := fun hc => hp0proc (hc ▸ hu)
          refine ⟨hdisc, ?_⟩
          rcases hdisj with ⟨hdp, hlt⟩ | hreach
          · left
            have hdne : e.destVertex.toNat ≠ p0 := fun hc => hp0proc (hc ▸ hdp)
            rw [hget _ hdne, hget _ hune]
            exact ⟨Finset.mem_insert_of_mem hdp, hlt⟩
          · exact Or.inr hreach
    · exact hJexit
        { st with vertexStack :=
          { st.vertexStack with nodes := Q.map (fun v : Nat => (v : Int)) } }
        ud p0 hp0proc hp0val hp0cap hinv.lenExit
        (fun u hu => ⟨hinv.discValid u (hinv.procSub hu),
          hinv.discRange u (hinv.procSub hu), (hinv.exitProc u hu).2⟩)
        (hJstable _ _ _ hJ rfl rfl)
    · unfold iDfsMeasure
      dsimp only
      rw [hstklen]
      simp only [List.length_map]
      omega
  | cons edge rest =>
    obtain ⟨pre, h1, h2⟩ := hconsumed p0 hp0cap
    rw [hcur] at h1
    have hcurlen : p0 < st.vertexNextEdge.length := by
      by_contra hc
      push_neg at hc
      rw [listGetD_of_len_le _ _ _ hc] at hcur
      exact absurd hcur (by simp)
    have headj : edge ∈ g.vertexEdges.getD p0 [] := by
      rw [h1]
      exact List.mem_append_right _ (List.mem_cons_self _ _)
    have hdval := hwf.destValid p0 hp0cap edge headj
    obtain ⟨hd0, hdcapI, hddeg⟩ := (iGraphIsValidVertexId_iff g edge.destVertex).mp hdval
    have hdncap : edge.destVertex.toNat < g.vertexCapacity.toNat := by omega
    have hdcast : ((edge.destVertex.toNat : Nat) : Int) = edge.destVertex :=
      Int.toNat_of_nonneg hd0
    have hpushfull : (((Q.map (fun v : Nat => (v : Int))).length : Int) ≠
        st.vertexStack.capacity) := by
      rw [hinv.stackCap]
      simp only [List.length_map]
      omega
    rw [algoStackPush_ok
      { st.vertexStack with nodes := Q.map (fun v : Nat => (v : Int)) } _ hpushfull]
    dsimp only [algoDataFromInt]
    have hsumset := sum_map_length_set st.vertexNextEdge p0 rest hcurlen
    rw [hcur] at hsumset
    simp only [List.length_cons] at hsumset
    have hcursorNew : ∀ v : Nat, v < g.vertexCapacity.toNat →
        ∃ pre2, g.vertexEdges.getD v [] =
          pre2 ++ (st.vertexNextEdge.set p0 rest).getD v [] ∧
          ((v = p0 ∧ pre2 = pre ++ [edge]) ∨
            (v ≠ p0 ∧ ∀ e ∈ pre2, e.destVertex.toNat ∈ st.isVertexDiscovered)) := by
      intro v hv
      by_cases hvp : v = p0
      · subst hvp
        refine ⟨pre ++ [edge], ?_, Or.inl ⟨rfl, rfl⟩⟩
        rw [h1, listGetD_set_self _ _ _ _ hcurlen]
        simp
      · obtain ⟨pre2, h21, h22⟩ := hconsumed v hv
        refine ⟨pre2, ?_, Or.inr ⟨hvp, h22⟩⟩
        rw [h21, listGetD_set_ne _ _ _ _ _ (Ne.symm hvp)]
    by_cases hdd : edge.destVertex.toNat ∈ st.isVertexDiscovered
    · rw [if_neg (not_not.mpr hdd)]
      have hinv2 : DfsInv g { st with
          vertexNextEdge := st.vertexNextEdge.set p0 rest
          vertexStack := { st.vertexStack with
            nodes := Q.map (fun v : Nat => (v : Int)) ++ [(p0 : Int)] } } (Q ++ [p0]) := by
        refine ⟨hinv.lenEntry, hinv.lenExit, hinv.stackCap, hinv.discRange,
          hinv.discValid, hinv.procSub, hinv.activeP, hinv.Pnodup, ?_, ?_,
          hinv.entryLe, hinv.exitProc, hinv.Pentry, hinv.Ppath, hinv.nested,
          hinv.procActive, hinv.edgeDone⟩
        · left
          dsimp only
          simp
        · intro v hv
          obtain ⟨pre2, h21, h22⟩ := hcursorNew v hv
          refine ⟨pre2, h21, fun e he => ?_⟩
          rcases h22 with ⟨rfl, rfl⟩ | ⟨hvp, h23⟩
          · rcases List.mem_append.mp he with he2 | he2
            · exact Or.inl (h2 e he2)
            · rw [List.mem_singleton.mp he2]
              exact Or.inl hdd
          · exact Or.inl (h23 e he)
      have hmes : iDfsMeasure { st with
          vertexNextEdge := st.vertexNextEdge.set p0 rest
          vertexStack := { st.vertexStack with
            nodes := Q.map (fun v : Nat => (v : Int)) ++ [(p0 : Int)] } } <
          iDfsMeasure st := by
        unfold iDfsMeasure
        dsimp only
        rw [hstklen]
        simp only [List.length_append, List.length_map, List.length_cons,
          List.length_nil]
        omega
      split_ifs with hclass
      · exact ⟨Q ++ [p0], hinv2,
          hJedge _ _ _ _ (hJstable _ _ _ hJ rfl rfl), hmes⟩
      · exact ⟨Q ++ [p0], hinv2, hJstable _ _ _ hJ rfl rfl, hmes⟩
    · rw [if_pos hdd]
      have hdnotP : edge.destVertex.toNat ∉ Q ++ [p0] :=
        fun hc => hdd ((hinv.activeP _).mpr hc).1
      have hPlen2 : (Q ++ [p0]).length < g.vertexCapacity.toNat := by
        have := nodup_length_le_card (Q ++ [p0]) hinv.Pnodup
          ((Finset.range g.vertexCapacity.toNat).erase edge.destVertex.toNat)
          (fun v hv => by
            rw [Finset.mem_erase, Finset.mem_range]
            exact ⟨fun hc => hdnotP (hc ▸ hv), hPcap v hv⟩)
        rw [Finset.card_erase_of_mem (Finset.mem_range.mpr hdncap),
          Finset.card_range] at this
        simp only [List.length_append, List.length_cons, List.length_nil] at this ⊢
        omega
      have hpushfull2 : (((Q.map (fun v : Nat => (v : Int)) ++ [(p0 : Int)]).length : Int) ≠
          st.vertexStack.capacity) := by
        rw [hinv.stackCap]
        simp only [List.length_append, List.length_map, List.length_cons,
          List.length_nil]
        simp only [List.length_append, List.length_cons, List.length_nil] at hPlen2
        omega
      rw [algoStackPush_ok
        { st.vertexStack with nodes := Q.map (fun v : Nat => (v : Int)) ++ [(p0 : Int)] }
        _ hpushfull2]
      dsimp only [algoDataFromInt]
      have hstackEq : Q.map (fun v : Nat => (v : Int)) ++ [(p0 : Int)] ++ [edge.destVertex] =
          (Q ++ [p0]).map (fun x : Nat => (x : Int)) ++
            [((edge.destVertex.toNat : Nat) : Int)] := by
        rw [hdcast]
        simp
      refine ⟨Q ++ [p0], ?_, ?_, ?_⟩
      · refine ⟨hinv.lenEntry, hinv.lenExit, hinv.stackCap, hinv.discRange,
          hinv.discValid, hinv.procSub, hinv.activeP, hinv.Pnodup, ?_, ?_,
          hinv.entryLe, hinv.exitProc, hinv.Pentry, hinv.Ppath, hinv.nested,
          hinv.procActive, hinv.edgeDone⟩
        · right
          refine ⟨edge.destVertex.toNat, hdncap, hdd, hddeg, ?_, hstackEq⟩
          right
          rw [List.getLastD_concat, hdcast]
          exact ⟨edge, headj, rfl⟩
        · intro v hv
          obtain ⟨pre2, h21, h22⟩ := hcursorNew v hv
          refine ⟨pre2, h21, fun e he => ?_⟩
          rcases h22 with ⟨rfl, rfl⟩ | ⟨hvp, h23⟩
          · rcases List.mem_append.mp he with he2 | he2
            · exact Or.inl (h2 e he2)
            · right
              rw [List.mem_singleton.mp he2]
              exact hstackEq
          · exact Or.inl (h23 e he)
      · exact hJstable _ _ _ (hJedge _ _ _ _ (hJstable _ _ _ hJ rfl rfl)) rfl rfl
      · unfold iDfsMeasure
        dsimp only
        rw [hstklen]
        simp only [List.length_append, List.length_map, List.length_cons,
          List.length_nil]
        omega

theorem iDfsStep_inv {σ : Type} (g : AlgoGraphImpl) (cb : AlgoGraphDfsCallbacks σ)
    (J : AlgoGraphDfsState → σ → Prop)
    (hJstable : ∀ st st2 ud, J st ud →
      st2.isVertexProcessed = st.isVertexProcessed →
      st2.vertexExitTime = st.vertexExitTime → J st2 ud)
    (hJedge : ∀ st (v0 v1 : Int) ud, J st ud →
      J st (iDfsRunEdgeCb cb.edgeFunc g st v0 v1 ud))
    (hJearly : ∀ st (v0 : Int) ud, J st ud →
      J st (iDfsRunVertexCb cb.vertexFuncEarly g st v0 ud))
    (hJexit : ∀ st ud (v0 : Nat), v0 ∉ st.isVertexProcessed →
      0 ≤ g.vertexDegrees.getD v0 (-1) → v0 < g.vertexCapacity.toNat →
      st.vertexExitTime.length = g.vertexCapacity.toNat →
      (∀ u ∈ st.isVertexProcessed, 0 ≤ g.vertexDegrees.getD u (-1) ∧
        u < g.vertexCapacity.toNat ∧ st.vertexExitTime.getD u 0 ≤ st.currentTime) →
      J st ud →
      J { st with
          currentTime := st.currentTime + 1
          vertexExitTime := st.vertexExitTime.set v0 (st.currentTime + 1)
          isVertexProcessed := insert v0 st.isVertexProcessed }
        (iDfsRunVertexCb cb.vertexFuncLate g st ((v0 : Nat) : Int) ud))
    (hwf : GraphTravWF g) (stud : AlgoGraphDfsState × σ) (P : List Nat)
    (hinv : DfsInv g stud.1 P) (hJ : J stud.1 stud.2)
    (hne : stud.1.vertexStack.nodes ≠ []) :
    ∃ P2, DfsInv g (iDfsStep g cb stud).1 P2 ∧
      J (iDfsStep g cb stud).1 (iDfsStep g cb stud).2 ∧
      iDfsMeasure (iDfsStep g cb stud).1 < iDfsMeasure stud.1 := by
  rcases hinv.stackOk with hstk | ⟨w, hwcap, hwdisc, hwval, hwedge, hstk⟩
  · have hPne : P ≠ [] := by
      intro hc
      rw [hc] at hstk
      simp at hstk
      exact hne hstk
    obtain ⟨Q, p0, hQp⟩ : ∃ Q p0, P = Q ++ [p0] :=
      ⟨P.dropLast, P.getLast hPne, (List.dropLast_append_getLast hPne).symm⟩
    subst hQp
    have hstk2 : stud.1.vertexStack.nodes =
        Q.map (fun v : Nat => (v : Int)) ++ [(p0 : Int)] := by
      rw [hstk]
      simp
    have hp0disc : p0 ∈ stud.1.isVertexDiscovered :=
      ((hinv.activeP p0).mpr (by simp)).1
    rw [iDfsStep_eq_cont_disc g cb stud Q p0 hstk2 hp0disc]
    exact iDfsCont_inv g cb J hJstable hJedge hJexit hwf stud.1 stud.2 Q p0
      hinv hstk2 hJ
  · rw [iDfsStep_eq_cont_undisc g cb stud P w hstk hwdisc]
    have hinv2 : DfsInv g { stud.1 with
        isVertexDiscovered := insert w stud.1.isVertexDiscovered
        currentTime := stud.1.currentTime + 1
        vertexEntryTime := stud.1.vertexEntryTime.set w (stud.1.currentTime + 1) }
        (P ++ [w]) :=
      iDfsDiscover_inv g stud.1 P w hinv hwcap hwdisc hwval hwedge hstk
    have hJ2 : J { stud.1 with
        vertexStack :=
          { stud.1.vertexStack with nodes := P.map (fun v : Nat => (v : Int)) }
        isVertexDiscovered := insert w stud.1.isVertexDiscovered
        currentTime := stud.1.currentTime + 1
        vertexEntryTime := stud.1.vertexEntryTime.set w (stud.1.currentTime + 1) }
        stud.2 := hJstable _ _ _ hJ rfl rfl
    have hJ3 := hJearly _ ((w : Nat) : Int) _ hJ2
    have hJ4 : J { stud.1 with
        isVertexDiscovered := insert w stud.1.isVertexDiscovered
        currentTime := stud.1.currentTime + 1
        vertexEntryTime := stud.1.vertexEntryTime.set w (stud.1.currentTime + 1) }
        (iDfsRunVertexCb cb.vertexFuncEarly g
          { stud.1 with
            vertexStack :=
              { stud.1.vertexStack with nodes := P.map (fun v : Nat => (v : Int)) }
            isVertexDiscovered := insert w stud.1.isVertexDiscovered
            currentTime := stud.1.currentTime + 1
            vertexEntryTime := stud.1.vertexEntryTime.set w (stud.1.currentTime + 1) }
          ((w : Nat) : Int) stud.2) := hJstable _ _ _ hJ3 rfl rfl
    have hstkfull : ({ stud.1 with
        isVertexDiscovered := insert w stud.1.isVertexDiscovered
        currentTime := stud.1.currentTime + 1
        vertexEntryTime := stud.1.vertexEntryTime.set w (stud.1.currentTime + 1) }
          : AlgoGraphDfsState).vertexStack.nodes =
        P.map (fun v : Nat => (v : Int)) ++ [(w : Int)] := hstk
    exact iDfsCont_inv g cb J hJstable hJedge hJexit hwf _ _ P w hinv2 hstkfull hJ4

theorem iDfsLoop_inv {σ : Type} (g : AlgoGraphImpl) (cb : AlgoGraphDfsCallbacks σ)
    (J : AlgoGraphDfsState → σ → Prop)
    (hJstable : ∀ st st2 ud, J st ud →
      st2.isVertexProcessed = st.isVertexProcessed →
      st2.vertexExitTime = st.vertexExitTime → J st2 ud)
    (hJedge : ∀ st (v0 v1 : Int) ud, J st ud →
      J st (iDfsRunEdgeCb cb.edgeFunc g st v0 v1 ud))
    (hJearly : ∀ st (v0 : Int) ud, J st ud →
      J st (iDfsRunVertexCb cb.vertexFuncEarly g st v0 ud))
    (hJexit : ∀ st ud (v0 : Nat), v0 ∉ st.isVertexProcessed →
      0 ≤ g.vertexDegrees.getD v0 (-1) → v0 < g.vertexCapacity.toNat →
      st.vertexExitTime.length = g.vertexCapacity.toNat →
      (∀ u ∈ st.isVertexProcessed, 0 ≤ g.vertexDegrees.getD u (-1) ∧
        u < g.vertexCapacity.toNat ∧ st.vertexExitTime.getD u 0 ≤ st.currentTime) →
      J st ud →
      J { st with
          currentTime := st.currentTime + 1
          vertexExitTime := st.vertexExitTime.set v0 (st.currentTime + 1)
          isVertexProcessed := insert v0 st.isVertexProcessed }
        (iDfsRunVertexCb cb.vertexFuncLate g st ((v0 : Nat) : Int) ud))
    (hwf : GraphTravWF g) :
    ∀ (fuel : Nat) (stud : AlgoGraphDfsState × σ) (P : List Nat),
      DfsInv g stud.1 P → J stud.1 stud.2 → iDfsMeasure stud.1 ≤ fuel →
      ∃ P2, DfsInv g (iDfsLoop g cb fuel stud).1 P2 ∧
        J (iDfsLoop g cb fuel stud).1 (iDfsLoop g cb fuel stud).2 ∧
        (iDfsLoop g cb fuel stud).1.vertexStack.nodes = [] := by
  intro fuel
  induction fuel with
  | zero =>
    intro stud P hinv hJ hm
    have hlen : stud.1.vertexStack.nodes.length = 0 := by
      unfold iDfsMeasure at hm
      omega
    simp only [iDfsLoop]
    exact ⟨P, hinv, hJ, List.eq_nil_of_length_eq_zero hlen⟩
  | succ fuel ih =>
    intro stud P hinv hJ hm
    simp only [iDfsLoop]
    by_cases hn : stud.1.vertexStack.nodes = []
    · have hnpos : ¬ algoStackGetCurrentSize stud.1.vertexStack > 0 := by
        unfold algoStackGetCurrentSize AlgoStack.top
        rw [hn]
        simp
      rw [if_neg hnpos]
      exact ⟨P, hinv, hJ, hn⟩
    · have hpos : algoStackGetCurrentSize stud.1.vertexStack > 0 := by
        unfold algoStackGetCurrentSize AlgoStack.top
        exact_mod_cast List.length_pos.mpr hn
      rw [if_pos hpos]
      obtain ⟨P2, hinv2, hJ2, hlt⟩ := iDfsStep_inv g cb J hJstable hJedge hJearly
        hJexit hwf stud P hinv hJ hn
      exact ih (iDfsStep g cb stud) P2 hinv2 hJ2 (by omega)

theorem dfsInit_inv (g : AlgoGraphImpl) (hwf : GraphTravWF g) (root : Int)
    (hroot : iGraphIsValidVertexId g root = true) :
    DfsInv g { algoGraphDfsStateCreate g with
      vertexStack := (algoStackPush (algoGraphDfsStateCreate g).vertexStack
        (algoDataFromInt root)).2 } [] := by
  obtain ⟨h0, hlt, hdeg⟩ := (iGraphIsValidVertexId_iff g root).mp hroot
  have hcap0 : 0 < g.vertexCapacity := hwf.capPos
  have hpush : (algoStackPush (algoGraphDfsStateCreate g).vertexStack
      (algoDataFromInt root)).2 =
      { (algoGraphDfsStateCreate g).vertexStack with
        nodes := (algoGraphDfsStateCreate g).vertexStack.nodes ++
          [algoDataFromInt root] } :=
    algoStackPush_ok _ _ (by
      unfold algoGraphDfsStateCreate
      dsimp only
      simp only [List.length_nil]
      omega)
  rw [hpush]
  unfold algoGraphDfsStateCreate
  dsimp only
  simp only [List.nil_append]
  refine ⟨?_, ?_, ?_, ?_, ?_, ?_, ?_, ?_, ?_, ?_, ?_, ?_, ?_, ?_, ?_, ?_, ?_⟩
  · dsimp only
    simp
  · dsimp only
    simp
  · rfl
  · intro v hv
    exact absurd hv (Finset.not_mem_empty v)
  · intro v hv
    exact absurd hv (Finset.not_mem_empty v)
  · intro x hx
    exact hx
  · intro v
    constructor
    · rintro ⟨hd, _⟩
      exact absurd hd (Finset.not_mem_empty v)
    · intro hv
      exact absurd hv (List.not_mem_nil v)
  · exact List.nodup_nil
  · right
    refine ⟨root.toNat, by omega, Finset.not_mem_empty _, hdeg, Or.inl rfl, ?_⟩
    · dsimp only [algoDataFromInt]
      rw [Int.toNat_of_nonneg h0]
      simp
  · intro v hv
    refine ⟨[], by simp, fun e he => absurd he (List.not_mem_nil e)⟩
  · intro v hv
    exact absurd hv (Finset.not_mem_empty v)
  · intro v hv
    exact absurd hv (Finset.not_mem_empty v)
  · exact List.Pairwise.nil
  · exact List.chain'_nil
  · intro u hu
    exact absurd hu (Finset.not_mem_empty u)
  · intro u hu
    exact absurd hu (Finset.not_mem_empty u)
  · intro u hu
    exact absurd hu (Finset.not_mem_empty u)

/-- C6: after `algoGraphDfs` completes from a valid root on a freshly
created DFS state, every vertex `v` discovered by the traversal satisfies
`entryTime[v] < exitTime[v]`, and for any two discovered vertices the
entry/exit intervals are either disjoint or one contains the other
(parenthesis property). -/
theorem algoGraphDfs_parenthesis {σ : Type} (g : AlgoGraphImpl)
    (cb : AlgoGraphDfsCallbacks σ) (ud : σ) (root : Int)
    (stf : AlgoGraphDfsState) (udf : σ)
    (hwf : GraphTravWF g)
    (hrun : algoGraphDfs g (algoGraphDfsStateCreate g) root cb ud =
      .ok (stf, udf)) :
    (∀ v ∈ stf.isVertexDiscovered,
      stf.vertexEntryTime.getD v 0 < stf.vertexExitTime.getD v 0) ∧
    ∀ u ∈ stf.isVertexDiscovered, ∀ v ∈ stf.isVertexDiscovered,
      IntervalsNestedOrDisjoint
        (stf.vertexEntryTime.getD u 0) (stf.vertexExitTime.getD u 0)
        (stf.vertexEntryTime.getD v 0) (stf.vertexExitTime.getD v 0) := by
  unfold algoGraphDfs at hrun
  by_cases hval : iGraphIsValidVertexId g root = true
  · rw [if_neg (not_not_intro hval)] at hrun
    have h2 : iDfsLoop g cb (iDfsMeasure (iDfsInitState g root))
        (iDfsInitState g root, ud) = (stf, udf) := Except.ok.inj hrun
    obtain ⟨P2, hfin, _, hempty⟩ := iDfsLoop_inv g cb (fun _ _ => True)
      (fun _ _ _ _ _ _ => trivial) (fun _ _ _ _ _ => trivial)
      (fun _ _ _ _ => trivial) (fun _ _ _ _ _ _ _ _ _ => trivial) hwf
      (iDfsMeasure (iDfsInitState g root)) (iDfsInitState g root, ud) []
      (dfsInit_inv g hwf root hval) trivial le_rfl
    have hstf : stf = (iDfsLoop g cb (iDfsMeasure (iDfsInitState g root))
        (iDfsInitState g root, ud)).1 := by
      rw [h2]
    subst hstf
    rcases hfin.stackOk with hsl | ⟨w, _, _, _, _, hsr⟩
    · rw [hempty] at hsl
      have hP2 : P2 = [] := List.map_eq_nil.mp hsl.symm
      subst hP2
      have hsub : ∀ v ∈ (iDfsLoop g cb (iDfsMeasure (iDfsInitState g root))
          (iDfsInitState g root, ud)).1.isVertexDiscovered,
          v ∈ (iDfsLoop g cb (iDfsMeasure (iDfsInitState g root))
          (iDfsInitState g root, ud)).1.isVertexProcessed := by
        intro v hv
        by_contra hc
        exact absurd ((hfin.activeP v).mp ⟨hv, hc⟩) (List.not_mem_nil v)
      constructor
      · intro v hv
        exact (hfin.exitProc v (hsub v hv)).1
      · intro u hu v hv
        exact hfin.nested u (hsub u hu) v (hsub v hv)
    · rw [hempty] at hsr
      exact absurd hsr (by simp)
  · rw [if_pos hval] at hrun
    exact Except.noConfusion hrun

/-- Witness for C6: scenario S5 (undirected diamond A-B, A-C, B-D, C-D),
DFS from root 0 with no callbacks; the hypotheses are discharged by
computation. -/
theorem algoGraphDfs_parenthesis_witness :
    (∀ v ∈ dfsS5st.isVertexDiscovered,
      dfsS5st.vertexEntryTime.getD v 0 < dfsS5st.vertexExitTime.getD v 0) ∧
    ∀ u ∈ dfsS5st.isVertexDiscovered, ∀ v ∈ dfsS5st.isVertexDiscovered,
      IntervalsNestedOrDisjoint
        (dfsS5st.vertexEntryTime.getD u 0) (dfsS5st.vertexExitTime.getD u 0)
        (dfsS5st.vertexEntryTime.getD v 0) (dfsS5st.vertexExitTime.getD v 0) :=
  algoGraphDfs_parenthesis graphS5
    { vertexFuncEarly := Option.none, edgeFunc := Option.none
      vertexFuncLate := Option.none } () 0 dfsS5st ()
    ⟨by decide, by decide, by decide, by decide, by decide, by decide,
      by decide, by decide, by decide, by decide, by decide⟩
    (by rfl)

theorem dfsCreate_inv (g : AlgoGraphImpl) (hwf : GraphTravWF g) :
    DfsInv g (algoGraphDfsStateCreate g) [] := by
  unfold algoGraphDfsStateCreate
  refine ⟨?_, ?_, rfl, ?_, ?_, ?_, ?_, List.nodup_nil, Or.inl rfl, ?_, ?_, ?_,
    List.Pairwise.nil, List.chain'_nil, ?_, ?_, ?_⟩
  · dsimp only
    simp
  · dsimp only
    simp
  · intro v hv
    exact absurd hv (Finset.not_mem_empty v)
  · intro v hv
    exact absurd hv (Finset.not_mem_empty v)
  · intro x hx
    exact hx
  · intro v
    constructor
    · rintro ⟨hd, _⟩
      exact absurd hd (Finset.not_mem_empty v)
    · intro hv
      exact absurd hv (List.not_mem_nil v)
  · intro v hv
    exact ⟨[], by simp, fun e he => absurd he (List.not_mem_nil e)⟩
  · intro v hv
    exact absurd hv (Finset.not_mem_empty v)
  · intro v hv
    exact absurd hv (Finset.not_mem_empty v)
  · intro u hu
    exact absurd hu (Finset.not_mem_empty u)
  · intro u hu
    exact absurd hu (Finset.not_mem_empty u)
  · intro u hu
    exact absurd hu (Finset.not_mem_empty u)

theorem dfsReinit_inv (g : AlgoGraphImpl) (hwf : GraphTravWF g)
    (dfs : AlgoGraphDfsState) (hinv : DfsInv g dfs [])
    (hempty : dfs.vertexStack.nodes = []) (root : Int)
    (hroot : iGraphIsValidVertexId g root = true)
    (hnd : root.toNat ∉ dfs.isVertexDiscovered) :
    DfsInv g { dfs with vertexStack :=
      (algoStackPush dfs.vertexStack (algoDataFromInt root)).2 } [] := by
  obtain ⟨h0, hlt, hdeg⟩ := (iGraphIsValidVertexId_iff g root).mp hroot
  have hcap0 : 0 < g.vertexCapacity := hwf.capPos
  have hpush : (algoStackPush dfs.vertexStack (algoDataFromInt root)).2 =
      { dfs.vertexStack with
        nodes := dfs.vertexStack.nodes ++ [algoDataFromInt root] } :=
    algoStackPush_ok _ _ (by
      rw [hempty, hinv.stackCap]
      simp only [List.length_nil]
      omega)
  rw [hpush, hempty]
  simp only [List.nil_append]
  refine ⟨hinv.lenEntry, hinv.lenExit, hinv.stackCap, hinv.discRange,
    hinv.discValid, hinv.procSub, hinv.activeP, List.nodup_nil, ?_, ?_,
    hinv.entryLe, hinv.exitProc, List.Pairwise.nil, List.chain'_nil,
    hinv.nested, hinv.procActive, hinv.edgeDone⟩
  · right
    refine ⟨root.toNat, by omega, hnd, hdeg, Or.inl rfl, ?_⟩
    dsimp only [algoDataFromInt]
    rw [Int.toNat_of_nonneg h0]
    simp
  · intro v hv
    obtain ⟨pre, hh1, hh2⟩ := hinv.cursorDone v hv
    refine ⟨pre, hh1, fun e he => Or.inl ?_⟩
    rcases hh2 e he with hc | hc
    · exact hc
    · rw [hempty] at hc
      exact absurd hc (by simp)

theorem iDfsCont_disc {σ : Type} (g : AlgoGraphImpl)
    (cb : AlgoGraphDfsCallbacks σ) (v0 : Nat) (st : AlgoGraphDfsState)
    (ud : σ) :
    (iDfsCont g cb v0 st ud).1.isVertexDiscovered = st.isVertexDiscovered := by
  unfold iDfsCont
  cases st.vertexNextEdge.getD v0 [] with
  | nil => rfl
  | cons edge rest =>
    dsimp only
    split_ifs <;> rfl

theorem iDfsStep_mono {σ : Type} (g : AlgoGraphImpl)
    (cb : AlgoGraphDfsCallbacks σ) (stud : AlgoGraphDfsState × σ) :
    stud.1.isVertexDiscovered ⊆ (iDfsStep g cb stud).1.isVertexDiscovered ∧
    stud.1.isVertexProcessed ⊆ (iDfsStep g cb stud).1.isVertexProcessed := by
  unfold iDfsStep
  cases algoStackPop stud.1.vertexStack with
  | error e => exact ⟨Finset.Subset.refl _, Finset.Subset.refl _⟩
  | ok v =>
    obtain ⟨a, s⟩ := v
    dsimp only
    by_cases hd : a.toNat ∉ stud.1.isVertexDiscovered
    · rw [if_pos hd]
      dsimp only
      cases stud.1.vertexNextEdge.getD a.toNat [] with
      | nil =>
        exact ⟨Finset.subset_insert _ _,
          (Finset.subset_insert _ _).trans (Finset.Subset.refl _)⟩
      | cons edge rest =>
        dsimp only
        split_ifs <;> exact ⟨Finset.subset_insert _ _, Finset.Subset.refl _⟩
    · rw [if_neg hd]
      dsimp only
      cases stud.1.vertexNextEdge.getD a.toNat [] with
      | nil => exact ⟨Finset.Subset.refl _, Finset.subset_insert _ _⟩
      | cons edge rest =>
        dsimp only
        split_ifs <;> exact ⟨Finset.Subset.refl _, Finset.Subset.refl _⟩

theorem iDfsLoop_mono {σ : Type} (g : AlgoGraphImpl)
    (cb : AlgoGraphDfsCallbacks σ) :
    ∀ (fuel : Nat) (stud : AlgoGraphDfsState × σ),
      stud.1.isVertexDiscovered ⊆
        (iDfsLoop g cb fuel stud).1.isVertexDiscovered ∧
      stud.1.isVertexProcessed ⊆
        (iDfsLoop g cb fuel stud).1.isVertexProcessed := by
  intro fuel
  induction fuel with
  | zero =>
    intro stud
    simp only [iDfsLoop]
    exact ⟨Finset.Subset.refl _, Finset.Subset.refl _⟩
  | succ fuel ih =>
    intro stud
    simp only [iDfsLoop]
    split_ifs with hguard
    · obtain ⟨h1, h2⟩ := iDfsStep_mono g cb stud
      obtain ⟨h3, h4⟩ := ih (iDfsStep g cb stud)
      exact ⟨h1.trans h3, h2.trans h4⟩
    · exact ⟨Finset.Subset.refl _, Finset.Subset.refl _⟩

theorem acyclic_of_rank (g : AlgoGraphImpl) (rank : Nat → Nat)
    (h : ∀ u, u < g.vertexEdges.length →
      ∀ e ∈ g.vertexEdges.getD u [], rank u < rank e.destVertex.toNat) :
    GraphAcyclic g := by
  have hedge : ∀ u, ∀ e ∈ g.vertexEdges.getD u [],
      rank u < rank e.destVertex.toNat := by
    intro u e he
    by_cases hu : u < g.vertexEdges.length
    · exact h u hu e he
    · rw [listGetD_of_len_le _ _ _ (le_of_not_lt hu)] at he
      exact absurd he (List.not_mem_nil e)
  have key : ∀ m v w, ReachN g v w m → rank v ≤ rank w := by
    intro m
    induction m with
    | zero =>
      intro v w hr
      exact le_of_eq (congrArg rank hr)
    | succ m ih =>
      rintro v w ⟨e, he, hr⟩
      exact le_trans (le_of_lt (hedge v e he)) (ih _ _ hr)
  rintro v n ⟨e, he, hr⟩
  have h1 := key _ _ _ hr
  have h2 := hedge v e he
  omega

theorem topoValidFinset (g : AlgoGraphImpl) (hwf : GraphTravWF g) :
    ∃ VS : Finset Nat, (VS.card : Int) = g.currentVertexCount ∧
      ∀ v : Nat, v ∈ VS ↔
        v < g.vertexCapacity.toNat ∧ 0 ≤ g.vertexDegrees.getD v (-1) := by
  refine ⟨((g.validVertexIds.take g.currentVertexCount.toNat).map
    Int.toNat).toFinset, ?_, ?_⟩
  · have hnd : ((g.validVertexIds.take g.currentVertexCount.toNat).map
        Int.toNat).Nodup := by
      refine hwf.validIdsNodup.map_on ?_
      intro x hx y hy hxy
      have hx0 := (hwf.validIdsRange x hx).1
      have hy0 := (hwf.validIdsRange y hy).1
      omega
    rw [List.toFinset_card_of_nodup hnd]
    simp only [List.length_map]
    rw [List.length_take, hwf.lenValid]
    have h1 := hwf.countNonneg
    have h2 := hwf.countLe
    omega
  · intro v
    rw [List.mem_toFinset, List.mem_map]
    constructor
    · rintro ⟨id, hid, rfl⟩
      obtain ⟨hid0, hltc⟩ := hwf.validIdsRange id hid
      refine ⟨by omega, ?_⟩
      refine (hwf.validIdsChar id.toNat (by omega)).mpr ?_
      rw [Int.toNat_of_nonneg hid0]
      exact hid
    · rintro ⟨hcap, hdeg⟩
      refine ⟨(v : Int), (hwf.validIdsChar v hcap).mp hdeg, ?_⟩
      simp

theorem pairwise_indexOf_lt (l : List Int) (f : Int → Nat)
    (hp : l.Pairwise (fun a b => f b < f a))
    (a b : Int) (ha : a ∈ l) (hb : b ∈ l) (hfb : f b < f a) :
    l.indexOf a < l.indexOf b := by
  have hia := List.indexOf_lt_length.mpr ha
  have hib := List.indexOf_lt_length.mpr hb
  have hga : l.get ⟨l.indexOf a, hia⟩ = a := List.indexOf_get hia
  have hgb : l.get ⟨l.indexOf b, hib⟩ = b := List.indexOf_get hib
  rcases Nat.lt_trichotomy (l.indexOf a) (l.indexOf b) with h | h | h
  · exact h
  · exfalso
    have hfe : (⟨l.indexOf a, hia⟩ : Fin l.length) = ⟨l.indexOf b, hib⟩ :=
      Fin.ext h
    have hab : a = b := by
      rw [← hga, hfe, hgb]
    rw [hab] at hfb
    omega
  · exfalso
    have h2 := List.pairwise_iff_get.mp hp ⟨l.indexOf b, hib⟩
      ⟨l.indexOf a, hia⟩ h
    rw [hga, hgb] at h2
    omega

theorem topoJ_exit (g : AlgoGraphImpl) (hwf : GraphTravWF g) (scount : Nat)
    (hsc : g.currentVertexCount ≤ (scount : Int)) :
    ∀ (st : AlgoGraphDfsState) (ud : IGraphTopoSortResults) (v0 : Nat),
      v0 ∉ st.isVertexProcessed →
      0 ≤ g.vertexDegrees.getD v0 (-1) → v0 < g.vertexCapacity.toNat →
      st.vertexExitTime.length = g.vertexCapacity.toNat →
      (∀ u ∈ st.isVertexProcessed, 0 ≤ g.vertexDegrees.getD u (-1) ∧
        u < g.vertexCapacity.toNat ∧
        st.vertexExitTime.getD u 0 ≤ st.currentTime) →
      TopoJ g scount st ud →
      TopoJ g scount { st with
          currentTime := st.currentTime + 1
          vertexExitTime := st.vertexExitTime.set v0 (st.currentTime + 1)
          isVertexProcessed := insert v0 st.isVertexProcessed }
        (iDfsRunVertexCb (iTopoSortCallbacks g).vertexFuncLate g st
          ((v0 : Nat) : Int) ud) := by
  intro st ud v0 hv0p hv0deg hv0cap hlenE hprocF hJ
  obtain ⟨w, hwlen, hslen, hnf0, hchar, hmem, hpair⟩ := hJ
  have hud : iDfsRunVertexCb (iTopoSortCallbacks g).vertexFuncLate g st
      ((v0 : Nat) : Int) ud =
      { sortedVertices := ud.sortedVertices.set ud.nextFreeIndex.toNat
          ((v0 : Nat) : Int)
        nextFreeIndex := ud.nextFreeIndex - 1 } := rfl
  rw [hud]
  have hwnd : w.Nodup :=
    hpair.imp (fun hab hc => by rw [hc] at hab; omega)
  have hwcard : w.length = st.isVertexProcessed.card := by
    have hfs : w.toFinset = st.isVertexProcessed := by
      apply Finset.ext
      intro x
      rw [List.mem_toFinset]
      exact hmem x
    rw [← hfs, List.toFinset_card_of_nodup hwnd]
  obtain ⟨VS, hVScard, hVSmem⟩ := topoValidFinset g hwf
  have hsub : insert v0 st.isVertexProcessed ⊆ VS := by
    intro x hx
    rcases Finset.mem_insert.mp hx with rfl | hx
    · exact (hVSmem _).mpr ⟨hv0cap, hv0deg⟩
    · obtain ⟨hdeg, hcap, _⟩ := hprocF x hx
      exact (hVSmem x).mpr ⟨hcap, hdeg⟩
  have hcardle : st.isVertexProcessed.card + 1 ≤ VS.card := by
    have h1 := Finset.card_le_card hsub
    rw [Finset.card_insert_of_not_mem hv0p] at h1
    exact h1
  have hnfpos : 0 ≤ ud.nextFreeIndex := by omega
  have hnfnat : ud.nextFreeIndex.toNat < ud.sortedVertices.length := by
    rw [hslen]
    omega
  refine ⟨v0 :: w, ?_, ?_, ?_, ?_, ?_, ?_⟩
  · dsimp only
    simp only [List.length_cons]
    push_cast
    omega
  · simp [hslen]
  · dsimp only
    omega
  · intro k hk
    dsimp only at hk ⊢
    cases k with
    | zero =>
      have hidx : (ud.nextFreeIndex - 1 + 1 + ((0 : Nat) : Int)).toNat =
          ud.nextFreeIndex.toNat := by omega
      rw [hidx, listGetD_set_self _ _ _ _ hnfnat]
      rfl
    | succ k2 =>
      rw [List.length_cons] at hk
      have hidx : (ud.nextFreeIndex - 1 + 1 + ((k2 + 1 : Nat) : Int)).toNat =
          (ud.nextFreeIndex + 1 + (k2 : Int)).toNat := by
        push_cast
        omega
      rw [hidx]
      have hne2 : ud.nextFreeIndex.toNat ≠
          (ud.nextFreeIndex + 1 + (k2 : Int)).toNat := by omega
      rw [listGetD_set_ne _ _ _ _ _ hne2]
      have h3 := hchar k2 (by omega)
      rw [h3]
      rfl
  · intro v
    dsimp only
    rw [List.mem_cons, Finset.mem_insert]
    constructor
    · rintro (rfl | hv)
      · exact Or.inl rfl
      · exact Or.inr ((hmem v).mp hv)
    · rintro (rfl | hv)
      · exact Or.inl rfl
      · exact Or.inr ((hmem v).mpr hv)
  · dsimp only
    rw [List.pairwise_cons]
    constructor
    · intro b hb
      have hbp : b ∈ st.isVertexProcessed := (hmem b).mp hb
      have hbne : b ≠ v0 := fun hc => hv0p (hc ▸ hbp)
      have hexitb := (hprocF b hbp).2.2
      rw [listGetD_set_ne _ _ _ _ _ (Ne.symm hbne),
        listGetD_set_self _ _ _ _ (by rw [hlenE]; exact hv0cap)]
      omega
    · refine hpair.imp_of_mem ?_
      intro a b ha hb hab
      have hap : a ∈ st.isVertexProcessed := (hmem a).mp ha
      have hbp : b ∈ st.isVertexProcessed := (hmem b).mp hb
      have hane : a ≠ v0 := fun hc => hv0p (hc ▸ hap)
      have hbne : b ≠ v0 := fun hc => hv0p (hc ▸ hbp)
      rw [listGetD_set_ne _ _ _ _ _ (Ne.symm hane),
        listGetD_set_ne _ _ _ _ _ (Ne.symm hbne)]
      exact hab

theorem iDfsStep_graph {σ : Type} (g : AlgoGraphImpl)
    (cb : AlgoGraphDfsCallbacks σ) (stud : AlgoGraphDfsState × σ) :
    (iDfsStep g cb stud).1.graph = stud.1.graph := by
  unfold iDfsStep
  cases algoStackPop stud.1.vertexStack with
  | error e => rfl
  | ok v =>
    obtain ⟨a, s⟩ := v
    dsimp only
    by_cases hd : a.toNat ∉ stud.1.isVertexDiscovered
    · rw [if_pos hd]
      dsimp only
      cases stud.1.vertexNextEdge.getD a.toNat [] with
      | nil => rfl
      | cons edge rest =>
        dsimp only
        split_ifs <;> rfl
    · rw [if_neg hd]
      dsimp only
      cases stud.1.vertexNextEdge.getD a.toNat [] with
      | nil => rfl
      | cons edge rest =>
        dsimp only
        split_ifs <;> rfl

theorem iDfsLoop_graph {σ : Type} (g : AlgoGraphImpl)
    (cb : AlgoGraphDfsCallbacks σ) :
    ∀ (fuel : Nat) (stud : AlgoGraphDfsState × σ),
      (iDfsLoop g cb fuel stud).1.graph = stud.1.graph := by
  intro fuel
  induction fuel with
  | zero =>
    intro stud
    simp only [iDfsLoop]
  | succ fuel ih =>
    intro stud
    simp only [iDfsLoop]
    split_ifs with hguard
    · rw [ih (iDfsStep g cb stud), iDfsStep_graph]
    · rfl

theorem topoJ_stable (g : AlgoGraphImpl) (scount : Nat) :
    ∀ (st st2 : AlgoGraphDfsState) (ud : IGraphTopoSortResults),
      TopoJ g scount st ud →
      st2.isVertexProcessed = st.isVertexProcessed →
      st2.vertexExitTime = st.vertexExitTime →
      TopoJ g scount st2 ud := by
  intro st st2 ud hJ hp he
  obtain ⟨w, h1, h2, h3, h4, h5, h6⟩ := hJ
  refine ⟨w, h1, h2, h3, h4, ?_, ?_⟩
  · intro v
    rw [hp]
    exact h5 v
  · refine h6.imp ?_
    intro a b hab
    rw [he]
    exact hab

theorem algoGraphDfs_mid {σ : Type} (g : AlgoGraphImpl)
    (cb : AlgoGraphDfsCallbacks σ) (J : AlgoGraphDfsState → σ → Prop)
    (hJstable : ∀ st st2 ud, J st ud →
      st2.isVertexProcessed = st.isVertexProcessed →
      st2.vertexExitTime = st.vertexExitTime → J st2 ud)
    (hJedge : ∀ st (v0 v1 : Int) ud, J st ud →
      J st (iDfsRunEdgeCb cb.edgeFunc g st v0 v1 ud))
    (hJearly : ∀ st (v0 : Int) ud, J st ud →
      J st (iDfsRunVertexCb cb.vertexFuncEarly g st v0 ud))
    (hJexit : ∀ st ud (v0 : Nat), v0 ∉ st.isVertexProcessed →
      0 ≤ g.vertexDegrees.getD v0 (-1) → v0 < g.vertexCapacity.toNat →
      st.vertexExitTime.length = g.vertexCapacity.toNat →
      (∀ u ∈ st.isVertexProcessed, 0 ≤ g.vertexDegrees.getD u (-1) ∧
        u < g.vertexCapacity.toNat ∧ st.vertexExitTime.getD u 0 ≤ st.currentTime) →
      J st ud →
      J { st with
          currentTime := st.currentTime + 1
          vertexExitTime := st.vertexExitTime.set v0 (st.currentTime + 1)
          isVertexProcessed := insert v0 st.isVertexProcessed }
        (iDfsRunVertexCb cb.vertexFuncLate g st ((v0 : Nat) : Int) ud))
    (hwf : GraphTravWF g) (dfs : AlgoGraphDfsState) (ud : σ) (root : Int)
    (hinv : DfsInv g dfs []) (hempty : dfs.vertexStack.nodes = [])
    (hroot : iGraphIsValidVertexId g root = true)
    (hnp : root.toNat ∉ dfs.isVertexProcessed)
    (hJ : J dfs ud) :
    ∃ res : AlgoGraphDfsState × σ,
      algoGraphDfs g dfs root cb ud = .ok res ∧
      DfsInv g res.1 [] ∧ res.1.vertexStack.nodes = [] ∧ J res.1 res.2 ∧
      root.toNat ∈ res.1.isVertexProcessed ∧
      dfs.isVertexProcessed ⊆ res.1.isVertexProcessed ∧
      res.1.graph = dfs.graph := by
  obtain ⟨h0, hltc, hdeg⟩ := (iGraphIsValidVertexId_iff g root).mp hroot
  have hcap0 : 0 < g.vertexCapacity := hwf.capPos
  have hsubdp : ∀ v ∈ dfs.isVertexDiscovered, v ∈ dfs.isVertexProcessed := by
    intro v hv
    by_contra hc
    exact absurd ((hinv.activeP v).mp ⟨hv, hc⟩) (List.not_mem_nil v)
  have hnd : root.toNat ∉ dfs.isVertexDiscovered := fun hd => hnp (hsubdp _ hd)
  unfold algoGraphDfs
  rw [if_neg (not_not_intro hroot)]
  set ST1 : AlgoGraphDfsState := { dfs with vertexStack :=
    (algoStackPush dfs.vertexStack (algoDataFromInt root)).2 } with hST1
  have hinv1 : DfsInv g ST1 [] :=
    dfsReinit_inv g hwf dfs hinv hempty root hroot hnd
  have hJ1 : J ST1 ud := hJstable _ _ _ hJ rfl rfl
  obtain ⟨P2, hfin, hJf, hemp2⟩ := iDfsLoop_inv g cb J hJstable hJedge hJearly
    hJexit hwf (iDfsMeasure ST1) (ST1, ud) [] hinv1 hJ1 le_rfl
  have hP2 : P2 = [] := by
    rcases hfin.stackOk with hsl | ⟨w2, _, _, _, _, hsr⟩
    · rw [hemp2] at hsl
      exact List.map_eq_nil.mp hsl.symm
    · rw [hemp2] at hsr
      exact absurd hsr (by simp)
  subst hP2
  have hpn : ST1.vertexStack.nodes = [algoDataFromInt root] := by
    rw [hST1]
    dsimp only
    rw [algoStackPush_ok _ _ (by
      rw [hempty, hinv.stackCap]
      simp only [List.length_nil]
      omega)]
    rw [hempty]
    simp
  have hstk1 : ST1.vertexStack.nodes =
      List.map (fun v : Nat => (v : Int)) [] ++ [(root.toNat : Int)] := by
    rw [hpn]
    dsimp only [algoDataFromInt]
    rw [Int.toNat_of_nonneg h0]
    simp
  have hm1 : 1 ≤ iDfsMeasure ST1 := by
    unfold iDfsMeasure
    rw [hpn]
    simp
  obtain ⟨f, hf⟩ : ∃ f, iDfsMeasure ST1 = f + 1 :=
    ⟨iDfsMeasure ST1 - 1, by omega⟩
  have hguard : algoStackGetCurrentSize ST1.vertexStack > 0 := by
    unfold algoStackGetCurrentSize AlgoStack.top
    rw [hpn]
    simp
  have hloopeq : iDfsLoop g cb (iDfsMeasure ST1) (ST1, ud) =
      iDfsLoop g cb f (iDfsStep g cb (ST1, ud)) := by
    rw [hf]
    simp only [iDfsLoop]
    rw [if_pos hguard]
  have hnd1 : root.toNat ∉ ST1.isVertexDiscovered := hnd
  have hstepdisc : root.toNat ∈
      (iDfsStep g cb (ST1, ud)).1.isVertexDiscovered := by
    rw [iDfsStep_eq_cont_undisc g cb (ST1, ud) [] root.toNat hstk1 hnd1,
      iDfsCont_disc]
    exact Finset.mem_insert_self _ _
  have hrd : root.toNat ∈
      (iDfsLoop g cb (iDfsMeasure ST1) (ST1, ud)).1.isVertexDiscovered := by
    rw [hloopeq]
    exact (iDfsLoop_mono g cb f _).1 hstepdisc
  have hsub2 : root.toNat ∈
      (iDfsLoop g cb (iDfsMeasure ST1) (ST1, ud)).1.isVertexProcessed := by
    by_contra hc
    exact absurd ((hfin.activeP root.toNat).mp ⟨hrd, hc⟩)
      (List.not_mem_nil root.toNat)
  refine ⟨iDfsLoop g cb (iDfsMeasure ST1) (ST1, ud), rfl, hfin, hemp2, hJf,
    hsub2, (iDfsLoop_mono g cb (iDfsMeasure ST1) (ST1, ud)).2,
    iDfsLoop_graph g cb (iDfsMeasure ST1) (ST1, ud)⟩

theorem iTopoSortLoop_ok (g : AlgoGraphImpl) (hwf : GraphTravWF g)
    (scount : Nat) (hsc : g.currentVertexCount ≤ (scount : Int)) :
    ∀ (ids : List Int) (dfs : AlgoGraphDfsState) (r : IGraphTopoSortResults),
      DfsInv g dfs [] → dfs.vertexStack.nodes = [] → TopoJ g scount dfs r →
      dfs.graph = g →
      ∃ res : AlgoGraphDfsState × IGraphTopoSortResults,
        iTopoSortLoop g dfs r ids = .ok res ∧
        DfsInv g res.1 [] ∧ res.1.vertexStack.nodes = [] ∧
        TopoJ g scount res.1 res.2 ∧
        dfs.isVertexProcessed ⊆ res.1.isVertexProcessed ∧
        (∀ id ∈ ids, iGraphIsValidVertexId g id = true →
          id.toNat ∈ res.1.isVertexProcessed) := by
  intro ids
  induction ids with
  | nil =>
    intro dfs r hinv hempty hJ hgr
    refine ⟨(dfs, r), rfl, hinv, hempty, hJ, Finset.Subset.refl _, ?_⟩
    intro id hid
    exact absurd hid (List.not_mem_nil id)
  | cons id rest ih =>
    intro dfs r hinv hempty hJ hgr
    simp only [iTopoSortLoop]
    by_cases hval : iGraphIsValidVertexId g id = true
    · by_cases hs : id.toNat ∈ dfs.isVertexProcessed
      · have hsorted : iTopoIsVertexSorted dfs id = true := by
          unfold iTopoIsVertexSorted
          obtain ⟨h0, hlt, _⟩ := (iGraphIsValidVertexId_iff g id).mp hval
          rw [hgr]
          rw [if_pos ⟨h0, hlt⟩]
          exact decide_eq_true hs
        rw [if_neg (by simp [hsorted])]
        obtain ⟨res, heq, hinv2, hemp2, hJ2, hmono2, hcov2⟩ :=
          ih dfs r hinv hempty hJ hgr
        refine ⟨res, heq, hinv2, hemp2, hJ2, hmono2, ?_⟩
        intro id2 hid2 hval2
        rcases List.mem_cons.mp hid2 with hh | hid2
        · rw [hh]
          exact hmono2 hs
        · exact hcov2 id2 hid2 hval2
      · have hnot : iTopoIsVertexSorted dfs id = false := by
          unfold iTopoIsVertexSorted
          obtain ⟨h0, hlt, _⟩ := (iGraphIsValidVertexId_iff g id).mp hval
          rw [hgr]
          rw [if_pos ⟨h0, hlt⟩]
          simp [hs]
        rw [if_pos ⟨hval, by simp [hnot]⟩]
        obtain ⟨res1, hok, hinv2, hemp2, hJ2, hproc2, hmono2, hgr2⟩ :=
          algoGraphDfs_mid g (iTopoSortCallbacks g) (TopoJ g scount)
            (topoJ_stable g scount)
            (fun st v0 v1 ud h => h)
            (fun st v0 ud h => h)
            (topoJ_exit g hwf scount hsc)
            hwf dfs r id hinv hempty hval hs hJ
        obtain ⟨dfs2, r2⟩ := res1
        rw [hok]
        dsimp only at hinv2 hemp2 hJ2 hproc2 hmono2 hgr2 ⊢
        by_cases hnf : r2.nextFreeIndex < 0
        · rw [if_pos hnf]
          refine ⟨(dfs2, r2), rfl, hinv2, hemp2, hJ2, hmono2, ?_⟩
          obtain ⟨VS, hVScard, hVSmem⟩ := topoValidFinset g hwf
          have hsubVS : dfs2.isVertexProcessed ⊆ VS := fun x hx =>
            (hVSmem x).mpr ⟨hinv2.discRange x (hinv2.procSub hx),
              hinv2.discValid x (hinv2.procSub hx)⟩
          obtain ⟨w, hwlen, _, _, _, hmemw, hpairw⟩ := hJ2
          have hwnd : w.Nodup :=
            hpairw.imp (fun hab hc => by rw [hc] at hab; omega)
          have hwcard : w.length = dfs2.isVertexProcessed.card := by
            have hfs : w.toFinset = dfs2.isVertexProcessed := by
              apply Finset.ext
              intro x
              rw [List.mem_toFinset]
              exact hmemw x
            rw [← hfs, List.toFinset_card_of_nodup hwnd]
          have hVSeq : dfs2.isVertexProcessed = VS :=
            Finset.eq_of_subset_of_card_le hsubVS (by omega)
          intro id2 hid2 hval2
          obtain ⟨h20, h2lt, h2deg⟩ := (iGraphIsValidVertexId_iff g id2).mp hval2
          have hin : id2.toNat ∈ VS := (hVSmem _).mpr ⟨by omega, h2deg⟩
          rw [hVSeq]
          exact hin
        · rw [if_neg hnf]
          obtain ⟨res2, heq2, hinv3, hemp3, hJ3, hmono3, hcov3⟩ :=
            ih dfs2 r2 hinv2 hemp2 hJ2 (by rw [hgr2]; exact hgr)
          refine ⟨res2, heq2, hinv3, hemp3, hJ3, hmono2.trans hmono3, ?_⟩
          intro id2 hid2 hval2
          rcases List.mem_cons.mp hid2 with hh | hid2
          · rw [hh]
            exact hmono3 hproc2
          · exact hcov3 id2 hid2 hval2
    · rw [if_neg (fun hc => hval hc.1)]
      obtain ⟨res, heq, hinv2, hemp2, hJ2, hmono2, hcov2⟩ :=
        ih dfs r hinv hempty hJ hgr
      refine ⟨res, heq, hinv2, hemp2, hJ2, hmono2, ?_⟩
      intro id2 hid2 hval2
      rcases List.mem_cons.mp hid2 with hh | hid2
      · rw [hh] at hval2
        exact absurd hval2 hval
      · exact hcov2 id2 hid2 hval2

/-- C2: on a directed acyclic graph with `n = currentVertexCount` valid
vertices, `algoGraphTopoSort` with an output array of length at least `n`
returns OK, the first `n` output cells are a permutation of the `n` valid
vertex ids, and for every stored edge `u -> v` the index of `u` in the
output is smaller than the index of `v`. -/
theorem algoGraphTopoSort_dag_correct (g : AlgoGraphImpl)
    (hwf : GraphTravWF g) (hdir : g.edgeMode = AlgoGraphEdgeMode.directed)
    (hacy : GraphAcyclic g) (scount : Nat)
    (hsc : g.currentVertexCount ≤ (scount : Int)) :
    ∃ out : List Int,
      algoGraphTopoSort g scount true = (AlgoError.none, out) ∧
      (out.take g.currentVertexCount.toNat).Perm
        (g.validVertexIds.take g.currentVertexCount.toNat) ∧
      ∀ u : Nat, u < g.vertexCapacity.toNat →
        0 ≤ g.vertexDegrees.getD u (-1) →
        ∀ e ∈ g.vertexEdges.getD u [],
          (out.take g.currentVertexCount.toNat).indexOf ((u : Nat) : Int) <
            (out.take g.currentVertexCount.toNat).indexOf e.destVertex := by
  have hn0 := hwf.countNonneg
  have hund : ¬ (g.edgeMode = AlgoGraphEdgeMode.undirected) := by
    rw [hdir]
    simp
  have hb : ¬ ¬ ((true : Bool) = true) := not_not_intro rfl
  have hJ0 : TopoJ g scount (algoGraphDfsStateCreate g)
      { sortedVertices := List.replicate scount (0 : Int)
        nextFreeIndex := g.currentVertexCount - 1 } := by
    refine ⟨[], ?_, ?_, ?_, ?_, ?_, List.Pairwise.nil⟩
    · simp only [List.length_nil, Nat.cast_zero]
      omega
    · simp
    · dsimp only
      omega
    · intro k hk
      exact absurd hk (by simp)
    · intro v
      constructor
      · intro hv
        exact absurd hv (List.not_mem_nil v)
      · intro hv
        exact absurd hv (Finset.not_mem_empty v)
  obtain ⟨res, hok, hinvF, hempF, hJF, _, hcovF⟩ :=
    iTopoSortLoop_ok g hwf scount hsc
      (g.validVertexIds.take g.currentVertexCount.toNat)
      (algoGraphDfsStateCreate g)
      { sortedVertices := List.replicate scount (0 : Int)
        nextFreeIndex := g.currentVertexCount - 1 }
      (dfsCreate_inv g hwf) rfl hJ0 rfl
  obtain ⟨dfsF, rF⟩ := res
  dsimp only at hok hinvF hempF hJF hcovF
  have hallproc : ∀ v : Nat, v < g.vertexCapacity.toNat →
      0 ≤ g.vertexDegrees.getD v (-1) → v ∈ dfsF.isVertexProcessed := by
    intro v hcap hdeg
    have hmem : ((v : Nat) : Int) ∈
        g.validVertexIds.take g.currentVertexCount.toNat :=
      (hwf.validIdsChar v hcap).mp hdeg
    have hvalid : iGraphIsValidVertexId g ((v : Nat) : Int) = true := by
      rw [iGraphIsValidVertexId_iff]
      refine ⟨by omega, by omega, ?_⟩
      rw [Int.toNat_natCast]
      exact hdeg
    have h5 := hcovF _ hmem hvalid
    rw [Int.toNat_natCast] at h5
    exact h5
  have hprocvalid : ∀ v ∈ dfsF.isVertexProcessed,
      v < g.vertexCapacity.toNat ∧ 0 ≤ g.vertexDegrees.getD v (-1) :=
    fun v hv => ⟨hinvF.discRange v (hinvF.procSub hv),
      hinvF.discValid v (hinvF.procSub hv)⟩
  obtain ⟨w, hwlen, hslen, hnf0, hchar, hmemw, hpairw⟩ := hJF
  have hwnd : w.Nodup :=
    hpairw.imp (fun hab hc => by rw [hc] at hab; omega)
  have hwcard : w.length = dfsF.isVertexProcessed.card := by
    have hfs : w.toFinset = dfsF.isVertexProcessed := by
      apply Finset.ext
      intro x
      rw [List.mem_toFinset]
      exact hmemw x
    rw [← hfs, List.toFinset_card_of_nodup hwnd]
  obtain ⟨VS, hVScard, hVSmem⟩ := topoValidFinset g hwf
  have hVSeq : dfsF.isVertexProcessed = VS := by
    apply Finset.ext
    intro v
    constructor
    · intro hv
      exact (hVSmem v).mpr (hprocvalid v hv)
    · intro hv
      obtain ⟨ha, hb2⟩ := (hVSmem v).mp hv
      exact hallproc v ha hb2
  have hcardI : (dfsF.isVertexProcessed.card : Int) = g.currentVertexCount := by
    rw [hVSeq]
    exact hVScard
  have hnf : rF.nextFreeIndex = -1 := by omega
  have hwlenN : w.length = g.currentVertexCount.toNat := by omega
  have htake : rF.sortedVertices.take g.currentVertexCount.toNat =
      w.map (fun v : Nat => (v : Int)) := by
    apply List.ext_getElem
    · rw [List.length_take, hslen, List.length_map, hwlenN]
      omega
    · intro i h1 h2
      have hi : i < g.currentVertexCount.toNat := by
        rw [List.length_take] at h1
        omega
      have hgi := hchar i (by omega)
      rw [hnf] at hgi
      have hidx : ((-1 : Int) + 1 + (i : Int)).toNat = i := by omega
      rw [hidx] at hgi
      rw [List.getElem_take]
      have h3 : i < rF.sortedVertices.length := by
        rw [hslen]
        omega
      have h4 : i < w.length := by omega
      rw [← List.getD_eq_getElem rF.sortedVertices 0 h3, hgi,
        List.getElem_map, ← List.getD_eq_getElem w 0 h4]
  have hperm : (rF.sortedVertices.take g.currentVertexCount.toNat).Perm
      (g.validVertexIds.take g.currentVertexCount.toNat) := by
    rw [htake]
    apply List.perm_of_nodup_nodup_toFinset_eq
    · exact hwnd.map_on (fun x hx y hy hxy => by exact_mod_cast hxy)
    · exact hwf.validIdsNodup
    · apply Finset.ext
      intro x
      rw [List.mem_toFinset, List.mem_toFinset, List.mem_map]
      constructor
      · rintro ⟨v, hv, rfl⟩
        obtain ⟨hcap, hdeg⟩ := hprocvalid v ((hmemw v).mp hv)
        exact (hwf.validIdsChar v hcap).mp hdeg
      · intro hx
        obtain ⟨hx0, hxlt⟩ := hwf.validIdsRange x hx
        refine ⟨x.toNat, ?_, by rw [Int.toNat_of_nonneg hx0]⟩
        refine (hmemw x.toNat).mpr ?_
        refine hallproc x.toNat (by omega) ?_
        refine (hwf.validIdsChar x.toNat (by omega)).mpr ?_
        rw [Int.toNat_of_nonneg hx0]
        exact hx
  unfold algoGraphTopoSort
  rw [if_neg (not_lt.mpr hsc), if_neg hund, if_neg hb]
  dsimp only
  rw [hok]
  refine ⟨rF.sortedVertices, rfl, hperm, ?_⟩
  intro u hucap hudeg e he
  have hup : u ∈ dfsF.isVertexProcessed := hallproc u hucap hudeg
  obtain ⟨hdisc, hdisj⟩ := hinvF.edgeDone u hup e he
  have hdval := hwf.destValid u hucap e he
  obtain ⟨hd0, hdlt, hddeg⟩ := (iGraphIsValidVertexId_iff g e.destVertex).mp hdval
  have hdp : e.destVertex.toNat ∈ dfsF.isVertexProcessed :=
    hallproc _ (by omega) hddeg
  have hexitlt : dfsF.vertexExitTime.getD e.destVertex.toNat 0 <
      dfsF.vertexExitTime.getD u 0 := by
    rcases hdisj with ⟨_, hlt⟩ | ⟨n, hreach⟩
    · exact hlt
    · exfalso
      exact hacy u (n + 1) (reachN_trans_edge g u e.destVertex.toNat u (n + 1)
        ⟨e, he, (Int.toNat_of_nonneg hd0).symm⟩ hreach)
  have humem : ((u : Nat) : Int) ∈
      rF.sortedVertices.take g.currentVertexCount.toNat := by
    rw [htake]
    exact List.mem_map_of_mem _ ((hmemw u).mpr hup)
  have hdmem : e.destVertex ∈
      rF.sortedVertices.take g.currentVertexCount.toNat := by
    rw [htake]
    rw [show e.destVertex = ((e.destVertex.toNat : Nat) : Int) from
      (Int.toNat_of_nonneg hd0).symm]
    exact List.mem_map_of_mem _ ((hmemw _).mpr hdp)
  have hpairout : (rF.sortedVertices.take g.currentVertexCount.toNat).Pairwise
      (fun a b => dfsF.vertexExitTime.getD b.toNat 0 <
        dfsF.vertexExitTime.getD a.toNat 0) := by
    rw [htake, List.pairwise_map]
    refine hpairw.imp ?_
    intro a b hab
    simpa using hab
  have hfb : dfsF.vertexExitTime.getD e.destVertex.toNat 0 <
      dfsF.vertexExitTime.getD ((u : Nat) : Int).toNat 0 := by
    simpa using hexitlt
  exact pairwise_indexOf_lt
    (rF.sortedVertices.take g.currentVertexCount.toNat)
    (fun x => dfsF.vertexExitTime.getD x.toNat 0) hpairout
    ((u : Nat) : Int) e.destVertex humem hdmem hfb

/-- Witness for C2: scenario S6 (directed DAG 0→1, 0→2, 1→3, 2→3, 3→4),
five valid vertices, output array of length 5; acyclicity is discharged by
the identity ranking. -/
theorem algoGraphTopoSort_dag_correct_witness :
    ∃ out : List Int,
      algoGraphTopoSort graphS6 5 true = (AlgoError.none, out) ∧
      (out.take graphS6.currentVertexCount.toNat).Perm
        (graphS6.validVertexIds.take graphS6.currentVertexCount.toNat) ∧
      ∀ u : Nat, u < graphS6.vertexCapacity.toNat →
        0 ≤ graphS6.vertexDegrees.getD u (-1) →
        ∀ e ∈ graphS6.vertexEdges.getD u [],
          (out.take graphS6.currentVertexCount.toNat).indexOf ((u : Nat) : Int) <
            (out.take graphS6.currentVertexCount.toNat).indexOf e.destVertex :=
  algoGraphTopoSort_dag_correct graphS6
    ⟨by decide, by decide, by decide, by decide, by decide, by decide,
      by decide, by decide, by decide, by decide, by decide⟩
    (by decide)
    (acyclic_of_rank graphS6 (fun v => v) (by decide))
    5 (by decide)

theorem natMod_add_cancel (a i j nc : Nat) (ha : a < nc) (hi : i < nc)
    (hj : j < nc) (h : (a + i) % nc = (a + j) % nc) : i = j := by
  rcases Nat.lt_or_ge (a + i) nc with h1 | h1 <;>
    rcases Nat.lt_or_ge (a + j) nc with h2 | h2
  · rw [Nat.mod_eq_of_lt h1, Nat.mod_eq_of_lt h2] at h
    omega
  · rw [Nat.mod_eq_of_lt h1, Nat.mod_eq_sub_mod h2,
      Nat.mod_eq_of_lt (by omega)] at h
    omega
  · rw [Nat.mod_eq_sub_mod h1, Nat.mod_eq_of_lt (by omega),
      Nat.mod_eq_of_lt h2] at h
    omega
  · rw [Nat.mod_eq_sub_mod h1, Nat.mod_eq_of_lt (by omega),
      Nat.mod_eq_sub_mod h2, Nat.mod_eq_of_lt (by omega)] at h
    omega

theorem queueList_length (q : AlgoQueue) :
    (queueList q).length = algoQueueGetCurrentSize q := by
  unfold queueList
  simp

theorem queueSize_eq (q : AlgoQueue) (hh : q.head < q.nodeCount)
    (ht : q.tail < q.nodeCount) :
    algoQueueGetCurrentSize q =
      if q.head ≤ q.tail then q.tail - q.head
      else q.tail + q.nodeCount - q.head := by
  unfold algoQueueGetCurrentSize
  split_ifs with hle
  · rw [show q.tail + q.nodeCount - q.head =
      q.nodeCount + (q.tail - q.head) from by omega, Nat.add_mod_left]
    exact Nat.mod_eq_of_lt (by omega)
  · exact Nat.mod_eq_of_lt (by omega)

theorem queueEmpty_iff (q : AlgoQueue) (hh : q.head < q.nodeCount)
    (ht : q.tail < q.nodeCount) :
    iQueueIsEmpty q = true ↔ algoQueueGetCurrentSize q = 0 := by
  unfold iQueueIsEmpty
  rw [queueSize_eq q hh ht]
  simp only [decide_eq_true_eq]
  split_ifs with h1 <;> omega

theorem queueFull_iff (q : AlgoQueue) (hh : q.head < q.nodeCount)
    (ht : q.tail < q.nodeCount) :
    iQueueIsFull q = true ↔
      algoQueueGetCurrentSize q = q.nodeCount - 1 := by
  unfold iQueueIsFull
  simp only [decide_eq_true_eq]
  rw [queueSize_eq q hh ht]
  by_cases hc : q.tail + 1 < q.nodeCount
  · rw [Nat.mod_eq_of_lt hc]
    split_ifs with h1 <;> omega
  · rw [show q.tail + 1 = q.nodeCount from by omega, Nat.mod_self]
    split_ifs with h1 <;> omega

theorem queueTail_eq (q : AlgoQueue) (hh : q.head < q.nodeCount)
    (ht : q.tail < q.nodeCount) :
    q.tail = (q.head + algoQueueGetCurrentSize q) % q.nodeCount := by
  rw [queueSize_eq q hh ht]
  split_ifs with h1
  · rw [show q.head + (q.tail - q.head) = q.tail from by omega,
      Nat.mod_eq_of_lt ht]
  · rw [show q.head + (q.tail + q.nodeCount - q.head) =
      q.tail + q.nodeCount from by omega, Nat.add_mod_right,
      Nat.mod_eq_of_lt ht]

theorem algoQueueInsert_ok (q : AlgoQueue) (x : AlgoData)
    (hh : q.head < q.nodeCount) (ht : q.tail < q.nodeCount)
    (hlen : q.nodes.length = q.nodeCount)
    (hsz : algoQueueGetCurrentSize q + 1 < q.nodeCount) :
    (algoQueueInsert q x).2 =
      { q with nodes := q.nodes.set q.tail x
               tail := (q.tail + 1) % q.nodeCount } ∧
    algoQueueGetCurrentSize (algoQueueInsert q x).2 =
      algoQueueGetCurrentSize q + 1 ∧
    queueList (algoQueueInsert q x).2 = queueList q ++ [x] := by
  have hnc : 0 < q.nodeCount := by omega
  have hnotfull : ¬ iQueueIsFull q = true := by
    rw [queueFull_iff q hh ht]
    omega
  have hq2 : (algoQueueInsert q x).2 =
      { q with nodes := q.nodes.set q.tail x
               tail := (q.tail + 1) % q.nodeCount } := by
    unfold algoQueueInsert
    rw [if_neg hnotfull]
  have htail := queueTail_eq q hh ht
  have hsize2 : algoQueueGetCurrentSize (algoQueueInsert q x).2 =
      algoQueueGetCurrentSize q + 1 := by
    rw [hq2]
    have ht2 : (q.tail + 1) % q.nodeCount < q.nodeCount := Nat.mod_lt _ hnc
    rw [queueSize_eq
      { q with nodes := q.nodes.set q.tail x, tail := (q.tail + 1) % q.nodeCount }
      hh ht2]
    dsimp only
    rw [queueSize_eq q hh ht] at hsz ⊢
    by_cases hc : q.tail + 1 < q.nodeCount
    · rw [Nat.mod_eq_of_lt hc]
      split_ifs at hsz ⊢ with h1 h2 h3 <;> omega
    · rw [show q.tail + 1 = q.nodeCount from by omega, Nat.mod_self]
      split_ifs at hsz ⊢ with h1 h2 h3 <;> omega
  refine ⟨hq2, hsize2, ?_⟩
  unfold queueList
  rw [hsize2, hq2]
  dsimp only
  rw [List.range_succ, List.map_append, List.map_singleton]
  congr 1
  · apply List.map_congr_left
    intro a ha
    rw [List.mem_range] at ha
    have hs : algoQueueGetCurrentSize q < q.nodeCount := by omega
    refine listGetD_set_ne _ _ _ _ _ ?_
    rw [htail]
    intro hc
    have := natMod_add_cancel q.head (algoQueueGetCurrentSize q) a q.nodeCount
      hh hs (by omega) hc
    omega
  · rw [← htail, listGetD_set_self _ _ _ _ (by omega)]

theorem algoQueueRemove_ok (q : AlgoQueue)
    (hh : q.head < q.nodeCount) (ht : q.tail < q.nodeCount)
    (hne : 0 < algoQueueGetCurrentSize q) :
    algoQueueRemove q = .ok (q.nodes.getD q.head 0,
      { q with head := (q.head + 1) % q.nodeCount }) ∧
    algoQueueGetCurrentSize { q with head := (q.head + 1) % q.nodeCount } =
      algoQueueGetCurrentSize q - 1 ∧
    queueList { q with head := (q.head + 1) % q.nodeCount } =
      (queueList q).drop 1 := by
  have hnc : 0 < q.nodeCount := by omega
  have hnotempty : ¬ iQueueIsEmpty q = true := by
    rw [queueEmpty_iff q hh ht]
    omega
  have hh2 : (q.head + 1) % q.nodeCount < q.nodeCount := Nat.mod_lt _ hnc
  have hsize2 : algoQueueGetCurrentSize
      { q with head := (q.head + 1) % q.nodeCount } =
      algoQueueGetCurrentSize q - 1 := by
    rw [queueSize_eq { q with head := (q.head + 1) % q.nodeCount } hh2 ht]
    dsimp only
    rw [queueSize_eq q hh ht] at hne ⊢
    by_cases hc : q.head + 1 < q.nodeCount
    · rw [Nat.mod_eq_of_lt hc]
      split_ifs at hne ⊢ with h1 h2 h3 <;> omega
    · rw [show q.head + 1 = q.nodeCount from by omega, Nat.mod_self]
      split_ifs at hne ⊢ with h1 h2 h3 <;> omega
  refine ⟨?_, hsize2, ?_⟩
  · unfold algoQueueRemove
    rw [if_neg hnotempty]
  · unfold queueList
    rw [hsize2]
    dsimp only
    apply List.ext_getElem
    · simp only [List.length_map, List.length_range, List.length_drop]
    · intro i h1 h2
      simp only [List.length_map, List.length_range] at h1
      rw [List.getElem_drop]
      simp only [List.getElem_map, List.getElem_range]
      congr 1
      rw [Nat.mod_add_mod]
      congr 1
      omega


theorem iBfsEdgeFold {σ : Type} (g : AlgoGraphImpl) (hwf : GraphTravWF g)
    (cb : AlgoGraphBfsCallbacks σ) (rootN : Nat) (u : Nat)
    (hucap : u < g.vertexCapacity.toNat) :
    ∀ (es : List AlgoGraphEdge) (st : AlgoGraphBfsState) (ud : σ)
      (D : Nat → Nat) (Q : List Nat),
      BfsPre g rootN st D Q (D u) →
      (∀ u2 ∈ st.isVertexProcessed, ∀ e2 ∈ g.vertexEdges.getD u2 [],
        (e2 ∈ es ∧ u2 = u) ∨
        (e2.destVertex.toNat ∈ st.isVertexDiscovered ∧
          D e2.destVertex.toNat ≤ D u2 + 1)) →
      u ∈ st.isVertexProcessed →
      (∀ e ∈ es, e ∈ g.vertexEdges.getD u []) →
      ∃ D2 Q2,
        BfsCore g rootN
          (es.foldl (iBfsEdgeStep g cb ((u : Nat) : Int)) (st, ud)).1
          D2 Q2 (D u) ∧
        (es.foldl (iBfsEdgeStep g cb ((u : Nat) : Int))
          (st, ud)).1.isVertexProcessed = st.isVertexProcessed ∧
        (∀ v ∈ st.isVertexDiscovered,
          v ∈ (es.foldl (iBfsEdgeStep g cb ((u : Nat) : Int))
            (st, ud)).1.isVertexDiscovered ∧ D2 v = D v) ∧
        (∀ e ∈ es,
          e.destVertex.toNat ∈ (es.foldl (iBfsEdgeStep g cb ((u : Nat) : Int))
            (st, ud)).1.isVertexDiscovered ∧
          D2 e.destVertex.toNat ≤ D u + 1) ∧
        Q2.length + st.isVertexDiscovered.card =
          Q.length + (es.foldl (iBfsEdgeStep g cb ((u : Nat) : Int))
            (st, ud)).1.isVertexDiscovered.card := by
  intro es
  induction es with
  | nil =>
    intro st ud D Q hcore hPE hu hes
    refine ⟨D, Q, ⟨hcore, ?_⟩, rfl, fun v hv => ⟨hv, rfl⟩,
      fun e he => absurd he (List.not_mem_nil e), rfl⟩
    intro u2 hu2 e2 he2
    rcases hPE u2 hu2 e2 he2 with ⟨hmem, _⟩ | hok
    · exact absurd hmem (List.not_mem_nil e2)
    · exact hok
  | cons e rest ih =>
    intro st ud D Q hcore hPE hu hes
    have headj : e ∈ g.vertexEdges.getD u [] := hes e (List.mem_cons_self e rest)
    have hdval := hwf.destValid u hucap e headj
    obtain ⟨hd0, hdlt, hddeg⟩ :=
      (iGraphIsValidVertexId_iff g e.destVertex).mp hdval
    have hdncap : e.destVertex.toNat < g.vertexCapacity.toNat := by omega
    simp only [List.foldl_cons]
    by_cases hdd : e.destVertex.toNat ∈ st.isVertexDiscovered
    · have hstep1 : (iBfsEdgeStep g cb ((u : Nat) : Int) (st, ud) e).1 = st := by
        unfold iBfsEdgeStep
        dsimp only
        rw [if_neg (not_not.mpr hdd)]
      have hpair : iBfsEdgeStep g cb ((u : Nat) : Int) (st, ud) e =
          (st, (iBfsEdgeStep g cb ((u : Nat) : Int) (st, ud) e).2) :=
        Prod.ext_iff.mpr ⟨hstep1, rfl⟩
      rw [hpair]
      have hPE2 : ∀ u2 ∈ st.isVertexProcessed,
          ∀ e2 ∈ g.vertexEdges.getD u2 [],
          (e2 ∈ rest ∧ u2 = u) ∨
          (e2.destVertex.toNat ∈ st.isVertexDiscovered ∧
            D e2.destVertex.toNat ≤ D u2 + 1) := by
        intro u2 hu2 e2 he2
        rcases hPE u2 hu2 e2 he2 with ⟨hmem, hequ⟩ | hok
        · rcases List.mem_cons.mp hmem with hh | hh
          · right
            rw [hequ, hh]
            exact ⟨hdd, hcore.discD _ hdd⟩
          · exact Or.inl ⟨hh, hequ⟩
        · exact Or.inr hok
      obtain ⟨D2, Q2, hc2, hp2, hm2, he2, hb2⟩ :=
        ih st (iBfsEdgeStep g cb ((u : Nat) : Int) (st, ud) e).2 D Q hcore hPE2
          hu (fun e2 h => hes e2 (List.mem_cons_of_mem _ h))
      refine ⟨D2, Q2, hc2, hp2, hm2, ?_, hb2⟩
      intro e2 he2m
      rcases List.mem_cons.mp he2m with hh | hh
      · rw [hh]
        obtain ⟨ha, hb⟩ := hm2 _ hdd
        refine ⟨ha, ?_⟩
        rw [hb]
        exact hcore.discD _ hdd
      · exact he2 e2 hh
    · have hune : u ≠ e.destVertex.toNat := fun hc => hdd (hc ▸ hcore.procSub hu)
      have hrootne : rootN ≠ e.destVertex.toNat :=
        fun hc => hdd (hc ▸ hcore.rootDisc)
      have hdnQ : e.destVertex.toNat ∉ Q := fun hc => hdd (hcore.qMem _ hc).1
      have hdcast : ((e.destVertex.toNat : Nat) : Int) = e.destVertex :=
        Int.toNat_of_nonneg hd0
      have hparlend : e.destVertex.toNat < st.vertexParents.length := by
        rw [hcore.parLen]
        exact hdncap
      have hsz : algoQueueGetCurrentSize st.vertexQueue + 1 <
          st.vertexQueue.nodeCount := by
        have hQlen : Q.length ≤ g.vertexCapacity.toNat - 1 := by
          have h5 := nodup_length_le_card Q hcore.qNodup
            ((Finset.range g.vertexCapacity.toNat).erase u)
            (fun v hv => by
              rw [Finset.mem_erase, Finset.mem_range]
              obtain ⟨hvd, hvp⟩ := hcore.qMem v hv
              exact ⟨fun hc => hvp (hc ▸ hu), hcore.discLt v hvd⟩)
          rw [Finset.card_erase_of_mem (Finset.mem_range.mpr hucap),
            Finset.card_range] at h5
          exact h5
        have hqs : algoQueueGetCurrentSize st.vertexQueue = Q.length := by
          rw [← queueList_length, hcore.qList, List.length_map]
        rw [hcore.ncEq, hqs]
        omega
      obtain ⟨hq2, hsz2, hql2⟩ := algoQueueInsert_ok st.vertexQueue
        (algoDataFromInt e.destVertex) hcore.headLt hcore.tailLt
        hcore.nodesLen hsz
      have hstep1 : (iBfsEdgeStep g cb ((u : Nat) : Int) (st, ud) e).1 =
          { st with
            isVertexDiscovered :=
              insert e.destVertex.toNat st.isVertexDiscovered
            vertexQueue :=
              (algoQueueInsert st.vertexQueue (algoDataFromInt e.destVertex)).2
            vertexParents :=
              st.vertexParents.set e.destVertex.toNat ((u : Nat) : Int) } := by
        unfold iBfsEdgeStep
        dsimp only
        rw [if_pos hdd]
      have hpre2 : BfsPre g rootN
          { st with
            isVertexDiscovered :=
              insert e.destVertex.toNat st.isVertexDiscovered
            vertexQueue :=
              (algoQueueInsert st.vertexQueue (algoDataFromInt e.destVertex)).2
            vertexParents :=
              st.vertexParents.set e.destVertex.toNat ((u : Nat) : Int) }
          (fun v => if v = e.destVertex.toNat then D u + 1 else D v)
          (Q ++ [e.destVertex.toNat]) (D u) := by
        refine ⟨?_, ?_, ?_, ?_, ?_, ?_, ?_, ?_, ?_, ?_, ?_, ?_, ?_, ?_, ?_,
          ?_, ?_, ?_, ?_⟩
        · rw [hq2]
          exact hcore.ncEq
        · rw [hq2]
          exact hcore.headLt
        · rw [hq2]
          exact Nat.mod_lt _ (by have := hcore.ncEq; omega)
        · rw [hq2]
          dsimp only
          rw [List.length_set]
          exact hcore.nodesLen
        · dsimp only
          rw [hql2, hcore.qList]
          simp only [List.map_append, List.map_cons, List.map_nil,
            algoDataFromInt]
          rw [hdcast]
        · rw [List.nodup_append]
          exact ⟨hcore.qNodup, List.nodup_singleton _,
            fun a ha hb => hdnQ ((List.mem_singleton.mp hb) ▸ ha)⟩
        · dsimp only
          rw [List.length_set]
          exact hcore.parLen
        · exact hcore.procSub.trans (Finset.subset_insert _ _)
        · intro v hv
          dsimp only at hv
          rcases Finset.mem_insert.mp hv with hvp | hv2
          · rw [hvp]
            exact hdncap
          · exact hcore.discLt v hv2
        · intro v hv
          rcases List.mem_append.mp hv with hv2 | hv2
          · obtain ⟨ha, hb⟩ := hcore.qMem v hv2
            exact ⟨Finset.mem_insert_of_mem ha, hb⟩
          · rw [List.mem_singleton.mp hv2]
            exact ⟨Finset.mem_insert_self _ _,
              fun hc => hdd (hcore.procSub hc)⟩
        · intro v hv hnp
          dsimp only at hv hnp
          rcases Finset.mem_insert.mp hv with hvp | hv2
          · rw [hvp]
            exact List.mem_append_right _ (by simp)
          · exact List.mem_append_left _ (hcore.activeQ v hv2 hnp)
        · exact Finset.mem_insert_of_mem hcore.rootDisc
        · dsimp only
          rw [if_neg hrootne]
          exact hcore.rootD
        · dsimp only
          rw [listGetD_set_ne _ _ _ _ _ (Ne.symm hrootne)]
          exact hcore.rootPar
        · intro v hv hvroot
          dsimp only at hv ⊢
          rcases Finset.mem_insert.mp hv with hvp | hv2
          · rw [hvp, listGetD_set_self _ _ _ _ hparlend, Int.toNat_natCast]
            refine ⟨Int.natCast_nonneg u, Finset.mem_insert_of_mem
              (hcore.procSub hu), ⟨e, headj, hdcast.symm⟩, ?_⟩
            rw [if_pos rfl, if_neg hune]
          · have hvne : v ≠ e.destVertex.toNat := fun hc => hdd (hc ▸ hv2)
            obtain ⟨h1, h2, h3, h4⟩ := hcore.parChain v hv2 hvroot
            have hpne : (st.vertexParents.getD v (-1)).toNat ≠
                e.destVertex.toNat := fun hc => hdd (hc ▸ h2)
            rw [listGetD_set_ne _ _ _ _ _ (Ne.symm hvne)]
            refine ⟨h1, Finset.mem_insert_of_mem h2, h3, ?_⟩
            rw [if_neg hvne, if_neg hpne]
            exact h4
        · intro u2 hu2
          dsimp only at hu2 ⊢
          have hu2ne : u2 ≠ e.destVertex.toNat :=
            fun hc => hdd (hc ▸ hcore.procSub hu2)
          rw [if_neg hu2ne]
          exact hcore.procD u2 hu2
        · intro v hv
          dsimp only
          rcases List.mem_append.mp hv with hv2 | hv2
          · have hvne : v ≠ e.destVertex.toNat := fun hc => hdnQ (hc ▸ hv2)
            rw [if_neg hvne]
            exact hcore.qD v hv2
          · rw [List.mem_singleton.mp hv2, if_pos rfl]
            omega
        · rw [List.pairwise_append]
          refine ⟨?_, by simp, ?_⟩
          · refine hcore.qMono.imp_of_mem ?_
            intro a b ha hb hab
            have hane : a ≠ e.destVertex.toNat := fun hc => hdnQ (hc ▸ ha)
            have hbne : b ≠ e.destVertex.toNat := fun hc => hdnQ (hc ▸ hb)
            rw [if_neg hane, if_neg hbne]
            exact hab
          · intro a ha b hb
            rw [List.mem_singleton.mp hb]
            have hane : a ≠ e.destVertex.toNat := fun hc => hdnQ (hc ▸ ha)
            rw [if_neg hane, if_pos rfl]
            have := (hcore.qD a ha).2
            omega
        · intro v hv
          dsimp only at hv ⊢
          rcases Finset.mem_insert.mp hv with hvp | hv2
          · rw [hvp, if_pos rfl]
          · have hvne : v ≠ e.destVertex.toNat := fun hc => hdd (hc ▸ hv2)
            rw [if_neg hvne]
            have := hcore.discD v hv2
            omega
      have hpre3 : BfsPre g rootN
          { st with
            isVertexDiscovered :=
              insert e.destVertex.toNat st.isVertexDiscovered
            vertexQueue :=
              (algoQueueInsert st.vertexQueue (algoDataFromInt e.destVertex)).2
            vertexParents :=
              st.vertexParents.set e.destVertex.toNat ((u : Nat) : Int) }
          (fun v => if v = e.destVertex.toNat then D u + 1 else D v)
          (Q ++ [e.destVertex.toNat])
          (if u = e.destVertex.toNat then D u + 1 else D u) := by
        rw [if_neg hune]
        exact hpre2
      have hPE3 : ∀ u2 ∈ st.isVertexProcessed,
          ∀ e2 ∈ g.vertexEdges.getD u2 [],
          (e2 ∈ rest ∧ u2 = u) ∨
          (e2.destVertex.toNat ∈
            insert e.destVertex.toNat st.isVertexDiscovered ∧
          (if e2.destVertex.toNat = e.destVertex.toNat then D u + 1
            else D e2.destVertex.toNat) ≤
          (if u2 = e.destVertex.toNat then D u + 1 else D u2) + 1) := by
        intro u2 hu2 e2 he2
        have hu2ne : u2 ≠ e.destVertex.toNat :=
          fun hc => hdd (hc ▸ hcore.procSub hu2)
        rcases hPE u2 hu2 e2 he2 with ⟨hmem, hequ⟩ | hok
        · rcases List.mem_cons.mp hmem with hh | hh
          · right
            rw [hequ, hh]
            refine ⟨Finset.mem_insert_self _ _, ?_⟩
            rw [if_pos rfl, if_neg hune]
          · exact Or.inl ⟨hh, hequ⟩
        · right
          have hdne : e2.destVertex.toNat ≠ e.destVertex.toNat :=
            fun hc => hdd (hc ▸ hok.1)
          refine ⟨Finset.mem_insert_of_mem hok.1, ?_⟩
          rw [if_neg hdne, if_neg hu2ne]
          exact hok.2
      have hpair : iBfsEdgeStep g cb ((u : Nat) : Int) (st, ud) e =
          ({ st with
            isVertexDiscovered :=
              insert e.destVertex.toNat st.isVertexDiscovered
            vertexQueue :=
              (algoQueueInsert st.vertexQueue (algoDataFromInt e.destVertex)).2
            vertexParents :=
              st.vertexParents.set e.destVertex.toNat ((u : Nat) : Int) },
            (iBfsEdgeStep g cb ((u : Nat) : Int) (st, ud) e).2) :=
        Prod.ext_iff.mpr ⟨hstep1, rfl⟩
      rw [hpair]
      obtain ⟨D2, Q2, hc2, hp2, hm2, he2, hb2⟩ :=
        ih _ (iBfsEdgeStep g cb ((u : Nat) : Int) (st, ud) e).2
          (fun v => if v = e.destVertex.toNat then D u + 1 else D v)
          (Q ++ [e.destVertex.toNat]) hpre3 hPE3 hu
          (fun e2 h => hes e2 (List.mem_cons_of_mem _ h))
      rw [if_neg hune] at hc2 he2
      refine ⟨D2, Q2, hc2, ?_, ?_, ?_, ?_⟩
      · rw [hp2]
      · intro v hv
        have hvne : v ≠ e.destVertex.toNat := fun hc => hdd (hc ▸ hv)
        obtain ⟨ha, hb⟩ := hm2 v (Finset.mem_insert_of_mem hv)
        refine ⟨ha, ?_⟩
        rw [hb, if_neg hvne]
      · intro e2 he2m
        rcases List.mem_cons.mp he2m with hh | hh
        · rw [hh]
          obtain ⟨ha, hb⟩ := hm2 e.destVertex.toNat (Finset.mem_insert_self _ _)
          refine ⟨ha, ?_⟩
          rw [hb, if_pos rfl]
        · exact he2 e2 hh
      · have hcard : (insert e.destVertex.toNat st.isVertexDiscovered).card =
            st.isVertexDiscovered.card + 1 := Finset.card_insert_of_not_mem hdd
        have hlen2 : (Q ++ [e.destVertex.toNat]).length = Q.length + 1 := by
          simp
        dsimp only at hb2
        omega

theorem queueList_head (q : AlgoQueue) (hh : q.head < q.nodeCount)
    (hpos : 0 < algoQueueGetCurrentSize q) :
    (queueList q).getD 0 0 = q.nodes.getD q.head 0 := by
  unfold queueList
  rw [List.getD_eq_getElem _ _ (by
    simp only [List.length_map, List.length_range]
    exact hpos)]
  simp only [List.getElem_map, List.getElem_range]
  rw [Nat.add_zero, Nat.mod_eq_of_lt hh]

theorem iBfsStep_inv {σ : Type} (g : AlgoGraphImpl) (hwf : GraphTravWF g)
    (cb : AlgoGraphBfsCallbacks σ) (rootN : Nat) (st : AlgoGraphBfsState)
    (ud : σ) (D : Nat → Nat) (q0 : Nat) (Q1 : List Nat) (d : Nat)
    (hcore : BfsCore g rootN st D (q0 :: Q1) d) :
    ∃ D2 Q2,
      BfsCore g rootN (iBfsStep g cb (st, ud)).1 D2 Q2 (D q0) ∧
      (iBfsStep g cb (st, ud)).1.isVertexProcessed =
        insert q0 st.isVertexProcessed ∧
      (∀ v ∈ st.isVertexDiscovered,
        v ∈ (iBfsStep g cb (st, ud)).1.isVertexDiscovered ∧ D2 v = D v) ∧
      Q2.length + st.isVertexDiscovered.card + 1 =
        (q0 :: Q1).length + (iBfsStep g cb (st, ud)).1.isVertexDiscovered.card := by
  have hq0Q := hcore.qMem q0 (List.mem_cons_self q0 Q1)
  have hq0cap : q0 < g.vertexCapacity.toNat := hcore.discLt q0 hq0Q.1
  have hq0nQ1 : q0 ∉ Q1 := (List.nodup_cons.mp hcore.qNodup).1
  have hdq0 : d ≤ D q0 := (hcore.qD q0 (List.mem_cons_self q0 Q1)).1
  have hqs : algoQueueGetCurrentSize st.vertexQueue = Q1.length + 1 := by
    rw [← queueList_length, hcore.qList]
    simp
  have hpos : 0 < algoQueueGetCurrentSize st.vertexQueue := by omega
  obtain ⟨hrem, hsz2, hql2⟩ := algoQueueRemove_ok st.vertexQueue hcore.headLt
    hcore.tailLt hpos
  have hfirst : st.vertexQueue.nodes.getD st.vertexQueue.head 0 =
      ((q0 : Nat) : Int) := by
    have h0 := queueList_head st.vertexQueue hcore.headLt hpos
    rw [hcore.qList] at h0
    simpa using h0.symm
  have hstep1 : (iBfsStep g cb (st, ud)).1 =
      ((g.vertexEdges.getD q0 []).foldl (iBfsEdgeStep g cb ((q0 : Nat) : Int))
        ({ st with
            vertexQueue := { st.vertexQueue with
              head := (st.vertexQueue.head + 1) % st.vertexQueue.nodeCount }
            isVertexProcessed := insert q0 st.isVertexProcessed },
          iBfsRunVertexCb cb.vertexFuncEarly g
            { st with vertexQueue := { st.vertexQueue with
                head := (st.vertexQueue.head + 1) % st.vertexQueue.nodeCount } }
            ((q0 : Nat) : Int) ud)).1 := by
    unfold iBfsStep
    dsimp only
    rw [hrem]
    dsimp only
    rw [hfirst]
    simp only [Int.toNat_natCast]
  have hpre2 : BfsPre g rootN
      { st with
        vertexQueue := { st.vertexQueue with
          head := (st.vertexQueue.head + 1) % st.vertexQueue.nodeCount }
        isVertexProcessed := insert q0 st.isVertexProcessed }
      D Q1 (D q0) := by
    refine ⟨?_, ?_, ?_, ?_, ?_, ?_, ?_, ?_, ?_, ?_, ?_, ?_, ?_, ?_, ?_,
      ?_, ?_, ?_, ?_⟩
    · exact hcore.ncEq
    · exact Nat.mod_lt _ (by have := hcore.ncEq; omega)
    · exact hcore.tailLt
    · exact hcore.nodesLen
    · dsimp only
      rw [hql2, hcore.qList]
      simp only [List.map_cons, List.drop_succ_cons, List.drop_zero]
    · exact (List.nodup_cons.mp hcore.qNodup).2
    · exact hcore.parLen
    · exact Finset.insert_subset hq0Q.1 hcore.procSub
    · exact hcore.discLt
    · intro v hv
      have hvQ := hcore.qMem v (List.mem_cons_of_mem _ hv)
      refine ⟨hvQ.1, ?_⟩
      intro hc
      rcases Finset.mem_insert.mp hc with h | h
      · exact hq0nQ1 (h ▸ hv)
      · exact hvQ.2 h
    · intro v hv hnp
      dsimp only at hnp
      have hvne : v ≠ q0 :=
        fun hc => hnp (hc ▸ Finset.mem_insert_self q0 st.isVertexProcessed)
      have hnp2 : v ∉ st.isVertexProcessed :=
        fun hc => hnp (Finset.mem_insert_of_mem hc)
      have hvm := hcore.activeQ v hv hnp2
      rcases List.mem_cons.mp hvm with h | h
      · exact absurd h hvne
      · exact h
    · exact hcore.rootDisc
    · exact hcore.rootD
    · exact hcore.rootPar
    · intro v hv hvr
      exact hcore.parChain v hv hvr
    · intro u2 hu2
      dsimp only at hu2
      rcases Finset.mem_insert.mp hu2 with h | h
      · rw [h]
      · exact le_trans (hcore.procD u2 h) hdq0
    · intro v hv
      have h1 := (List.pairwise_cons.mp hcore.qMono).1 v hv
      have h2 := (hcore.qD v (List.mem_cons_of_mem _ hv)).2
      exact ⟨h1, by omega⟩
    · exact (List.pairwise_cons.mp hcore.qMono).2
    · intro v hv
      have h1 := hcore.discD v hv
      omega
  have hPE2 : ∀ u2 ∈
      ({ st with
        vertexQueue := { st.vertexQueue with
          head := (st.vertexQueue.head + 1) % st.vertexQueue.nodeCount }
        isVertexProcessed :=
          insert q0 st.isVertexProcessed } :
        AlgoGraphBfsState).isVertexProcessed,
      ∀ e2 ∈ g.vertexEdges.getD u2 [],
      (e2 ∈ g.vertexEdges.getD q0 [] ∧ u2 = q0) ∨
      (e2.destVertex.toNat ∈ st.isVertexDiscovered ∧
        D e2.destVertex.toNat ≤ D u2 + 1) := by
    intro u2 hu2 e2 he2
    dsimp only at hu2
    rcases Finset.mem_insert.mp hu2 with h | h
    · exact Or.inl ⟨h ▸ he2, h⟩
    · exact Or.inr (hcore.procEdges u2 h e2 he2)
  obtain ⟨D2, Q2, hc2, hp2, hm2, he2, hb2⟩ :=
    iBfsEdgeFold g hwf cb rootN q0 hq0cap (g.vertexEdges.getD q0 [])
      { st with
        vertexQueue := { st.vertexQueue with
          head := (st.vertexQueue.head + 1) % st.vertexQueue.nodeCount }
        isVertexProcessed := insert q0 st.isVertexProcessed }
      (iBfsRunVertexCb cb.vertexFuncEarly g
        { st with vertexQueue := { st.vertexQueue with
            head := (st.vertexQueue.head + 1) % st.vertexQueue.nodeCount } }
        ((q0 : Nat) : Int) ud)
      D Q1 hpre2 hPE2 (Finset.mem_insert_self _ _) (fun e he => he)
  rw [hstep1]
  refine ⟨D2, Q2, hc2, hp2, hm2, ?_⟩
  dsimp only at hb2
  simp only [List.length_cons]
  omega

theorem disc_subset_universe (g : AlgoGraphImpl) (s : Finset Nat)
    (h : ∀ v ∈ s, v < g.vertexCapacity.toNat) : s ⊆ bfsVertexUniverse g := by
  intro v hv
  exact Finset.mem_union_left _ (Finset.mem_range.mpr (h v hv))

theorem iBfsLoop_inv {σ : Type} (g : AlgoGraphImpl) (hwf : GraphTravWF g)
    (cb : AlgoGraphBfsCallbacks σ) (rootN : Nat) :
    ∀ (fuel : Nat) (st : AlgoGraphBfsState) (ud : σ) (D : Nat → Nat)
      (Q : List Nat) (d : Nat),
      BfsCore g rootN st D Q d →
      Q ≠ [] →
      iBfsFuel g st ≤ fuel →
      ∃ D2 Q2 d2,
        BfsCore g rootN (iBfsLoop g cb fuel (st, ud)).1 D2 Q2 d2 ∧
        Q2 = [] ∧
        (∀ v ∈ st.isVertexDiscovered,
          v ∈ (iBfsLoop g cb fuel (st, ud)).1.isVertexDiscovered ∧
            D2 v = D v) := by
  intro fuel
  induction fuel with
  | zero =>
    intro st ud D Q d hcore hne hfuel
    exfalso
    have hqs : algoQueueGetCurrentSize st.vertexQueue = Q.length := by
      rw [← queueList_length, hcore.qList, List.length_map]
    have hQpos : 0 < Q.length := List.length_pos.mpr hne
    unfold iBfsFuel at hfuel
    omega
  | succ fuel ih =>
    intro st ud D Q d hcore hne hfuel
    obtain ⟨q0, Q1, rfl⟩ := List.exists_cons_of_ne_nil hne
    obtain ⟨D2, Q2, hc2, hp2, hm2, hb2⟩ :=
      iBfsStep_inv g hwf cb rootN st ud D q0 Q1 d hcore
    have hqs2 : algoQueueGetCurrentSize
        (iBfsStep g cb (st, ud)).1.vertexQueue = Q2.length := by
      rw [← queueList_length, hc2.qList, List.length_map]
    have hunfold : iBfsLoop g cb (fuel + 1) (st, ud) =
        if algoQueueGetCurrentSize
            (iBfsStep g cb (st, ud)).1.vertexQueue > 0 then
          iBfsLoop g cb fuel (iBfsStep g cb (st, ud))
        else iBfsStep g cb (st, ud) := rfl
    rw [hunfold]
    by_cases hq2 : Q2 = []
    · rw [if_neg (by rw [hqs2, hq2]; simp)]
      exact ⟨D2, Q2, D q0, hc2, hq2, hm2⟩
    · rw [if_pos (by
        rw [hqs2]
        exact Nat.pos_of_ne_zero (fun hc => hq2 (List.length_eq_zero.mp hc)))]
      have hUsub1 : st.isVertexDiscovered ⊆ bfsVertexUniverse g :=
        disc_subset_universe g _ hcore.discLt
      have hUsub2 : (iBfsStep g cb (st, ud)).1.isVertexDiscovered ⊆
          bfsVertexUniverse g := disc_subset_universe g _ hc2.discLt
      have hdiscmono : st.isVertexDiscovered ⊆
          (iBfsStep g cb (st, ud)).1.isVertexDiscovered :=
        fun v hv => (hm2 v hv).1
      have hcard1 := Finset.card_sdiff hUsub1
      have hcard2 := Finset.card_sdiff hUsub2
      have hcardle := Finset.card_le_card hdiscmono
      have hcardle2 := Finset.card_le_card hUsub2
      have hqs1 : algoQueueGetCurrentSize st.vertexQueue = Q1.length + 1 := by
        rw [← queueList_length, hcore.qList, List.length_map, List.length_cons]
      have hfuel2 : iBfsFuel g (iBfsStep g cb (st, ud)).1 ≤ fuel := by
        unfold iBfsFuel at hfuel ⊢
        rw [hqs1] at hfuel
        rw [hqs2]
        simp only [List.length_cons] at hb2
        omega
      obtain ⟨D3, Q3, d3, hc3, hq3, hm3⟩ :=
        ih (iBfsStep g cb (st, ud)).1 (iBfsStep g cb (st, ud)).2 D2 Q2 (D q0)
          hc2 hq2 hfuel2
      refine ⟨D3, Q3, d3, hc3, hq3, ?_⟩
      intro v hv
      obtain ⟨hv2, hD2⟩ := hm2 v hv
      obtain ⟨hv3, hD3⟩ := hm3 v hv2
      exact ⟨hv3, hD3.trans hD2⟩

theorem reachN_snoc (g : AlgoGraphImpl) :
    ∀ (n : Nat) (a b c : Nat), ReachN g a b n →
      edgeInAdj g b ((c : Nat) : Int) → ReachN g a c (n + 1) := by
  intro n
  induction n with
  | zero =>
    intro a b c hr he
    have hab : a = b := hr
    subst hab
    obtain ⟨e, hee, hd⟩ := he
    refine ⟨e, hee, ?_⟩
    show e.destVertex.toNat = c
    rw [hd]
    exact Int.toNat_natCast c
  | succ n ihn =>
    intro a b c hr he
    obtain ⟨e, hee, hr2⟩ := hr
    exact ⟨e, hee, ihn _ _ _ hr2 he⟩

theorem reachN_unsnoc (g : AlgoGraphImpl) :
    ∀ (n : Nat) (a c : Nat), ReachN g a c (n + 1) →
      ∃ b, ReachN g a b n ∧ ∃ e ∈ g.vertexEdges.getD b [],
        e.destVertex.toNat = c := by
  intro n
  induction n with
  | zero =>
    intro a c hr
    obtain ⟨e, hee, hr2⟩ := hr
    exact ⟨a, rfl, e, hee, hr2⟩
  | succ n ihn =>
    intro a c hr
    obtain ⟨e, hee, hr2⟩ := hr
    obtain ⟨b, hb, hedge⟩ := ihn _ _ hr2
    exact ⟨b, ⟨e, hee, hb⟩, hedge⟩

theorem bfs_parentChain (g : AlgoGraphImpl) (rootN : Nat)
    (st : AlgoGraphBfsState) (D : Nat → Nat) (Q : List Nat) (d : Nat)
    (hcore : BfsCore g rootN st D Q d) :
    ∀ k v, v ∈ st.isVertexDiscovered → D v = k →
      ParentChain st.vertexParents rootN v k ∧ ReachN g rootN v k := by
  intro k
  induction k with
  | zero =>
    intro v hv hDv
    by_cases hvr : v = rootN
    · subst hvr
      exact ⟨.zero, rfl⟩
    · obtain ⟨_, _, _, hDv2⟩ := hcore.parChain v hv hvr
      omega
  | succ k ihk =>
    intro v hv hDv
    by_cases hvr : v = rootN
    · exfalso
      rw [hvr] at hDv
      have := hcore.rootD
      omega
    · obtain ⟨hp0, hpdisc, hpedge, hDv2⟩ := hcore.parChain v hv hvr
      have hDp : D (st.vertexParents.getD v (-1)).toNat = k := by omega
      obtain ⟨hchain, hreach⟩ := ihk _ hpdisc hDp
      exact ⟨.succ v k hp0 hchain,
        reachN_snoc g k rootN (st.vertexParents.getD v (-1)).toNat v
          hreach hpedge⟩

theorem bfs_dist_lower (g : AlgoGraphImpl) (rootN : Nat)
    (st : AlgoGraphBfsState) (D : Nat → Nat) (d : Nat)
    (hcore : BfsCore g rootN st D [] d) :
    ∀ m x, ReachN g rootN x m → x ∈ st.isVertexDiscovered ∧ D x ≤ m := by
  have hdiscproc : ∀ v ∈ st.isVertexDiscovered, v ∈ st.isVertexProcessed := by
    intro v hv
    by_contra hc
    exact absurd (hcore.activeQ v hv hc) (List.not_mem_nil v)
  intro m
  induction m with
  | zero =>
    intro x hr
    have hx : rootN = x := hr
    rw [← hx]
    exact ⟨hcore.rootDisc, le_of_eq hcore.rootD⟩
  | succ m ihm =>
    intro x hr
    obtain ⟨b, hb, e, hee, hdest⟩ := reachN_unsnoc g m rootN x hr
    obtain ⟨hbdisc, hbD⟩ := ihm b hb
    have hbproc := hdiscproc b hbdisc
    obtain ⟨hxdisc, hxD⟩ := hcore.procEdges b hbproc e hee
    rw [hdest] at hxdisc hxD
    exact ⟨hxdisc, by omega⟩


theorem bfsCreate_ok (g : AlgoGraphImpl) (hwf : GraphTravWF g) :
    algoGraphBfsStateCreate g = .ok (bfsStart g) := by
  unfold algoGraphBfsStateCreate algoQueueCreate bfsStart
  rw [if_neg (by have := hwf.capPos; omega)]

theorem bfsInit_core (g : AlgoGraphImpl) (hwf : GraphTravWF g)
    (root : Int) (hvalid : iGraphIsValidVertexId g root = true) :
    BfsCore g root.toNat (bfsRootStart g root)
      (fun _ => 0) [root.toNat] 0 := by
  obtain ⟨hr0, hrcap, hrdeg⟩ := (iGraphIsValidVertexId_iff g root).mp hvalid
  have hcap1 : 1 ≤ g.vertexCapacity.toNat := by have := hwf.capPos; omega
  have hsz0 : algoQueueGetCurrentSize (bfsStart g).vertexQueue = 0 := by
    unfold bfsStart algoQueueGetCurrentSize
    simp only [Nat.zero_add, Nat.sub_zero, Nat.mod_self]
  obtain ⟨hq2, hsz2, hql2⟩ := algoQueueInsert_ok (bfsStart g).vertexQueue
    (algoDataFromInt root) (Nat.succ_pos _) (Nat.succ_pos _)
    (List.length_replicate _ _)
    (by
      rw [hsz0]
      show 0 + 1 < (bfsStart g).vertexQueue.nodeCount
      have hnc : (bfsStart g).vertexQueue.nodeCount =
        g.vertexCapacity.toNat + 1 := rfl
      omega)
  have hql0 : queueList (bfsStart g).vertexQueue = [] := by
    have hl := queueList_length (bfsStart g).vertexQueue
    rw [hsz0] at hl
    exact List.eq_nil_of_length_eq_zero hl
  unfold bfsRootStart
  refine ⟨⟨?_, ?_, ?_, ?_, ?_, ?_, ?_, ?_, ?_, ?_, ?_, ?_, ?_, ?_, ?_,
    ?_, ?_, ?_, ?_⟩, ?_⟩
  · rw [hq2]
    rfl
  · rw [hq2]
    exact Nat.succ_pos _
  · rw [hq2]
    exact Nat.mod_lt _ (Nat.succ_pos _)
  · rw [hq2]
    dsimp only
    show ((bfsStart g).vertexQueue.nodes.set
      (bfsStart g).vertexQueue.tail (algoDataFromInt root)).length =
      (bfsStart g).vertexQueue.nodeCount
    rw [List.length_set]
    exact List.length_replicate _ _
  · dsimp only
    rw [hql2, hql0]
    simp only [List.nil_append, List.map_cons, List.map_nil, algoDataFromInt]
    rw [Int.toNat_of_nonneg hr0]
  · exact List.nodup_singleton _
  · exact List.length_replicate _ _
  · exact Finset.empty_subset _
  · intro v hv
    dsimp only at hv
    rcases Finset.mem_insert.mp hv with h | h
    · rw [h]
      omega
    · exact absurd h (Finset.not_mem_empty v)
  · intro v hv
    rw [List.mem_singleton.mp hv]
    exact ⟨Finset.mem_insert_self _ _, Finset.not_mem_empty _⟩
  · intro v hv hnp
    dsimp only at hv
    rcases Finset.mem_insert.mp hv with h | h
    · rw [h]
      exact List.mem_singleton_self _
    · exact absurd h (Finset.not_mem_empty v)
  · exact Finset.mem_insert_self _ _
  · rfl
  · dsimp only
    rw [listGetD_replicate]
    split <;> rfl
  · intro v hv hvr
    dsimp only at hv
    rcases Finset.mem_insert.mp hv with h | h
    · exact absurd h hvr
    · exact absurd h (Finset.not_mem_empty v)
  · intro u hu
    exact absurd hu (Finset.not_mem_empty u)
  · intro v hv
    exact ⟨Nat.zero_le _, Nat.zero_le _⟩
  · simp
  · intro v hv
    exact Nat.zero_le _
  · intro u hu
    exact absurd hu (Finset.not_mem_empty u)

/-- C1: after `algoGraphBfs` completes from a valid root on a freshly
created BFS state, `parent[root] = -1`; every other discovered vertex `v`
has a discovered parent with a stored edge `parent[v] -> v` (the
predecessor that first discovered `v`); and for every discovered `v` the
parent-link chain from `v` reaches the root in exactly `n` steps where `n`
is the minimum edge count of any path from the root to `v`. -/
theorem algoGraphBfs_parent_tree {σ : Type} (g : AlgoGraphImpl)
    (hwf : GraphTravWF g) (root : Int) (cb : AlgoGraphBfsCallbacks σ) (ud : σ)
    (st0 stf : AlgoGraphBfsState) (udf : σ)
    (hcreate : algoGraphBfsStateCreate g = .ok st0)
    (hrun : algoGraphBfs g st0 root cb ud = .ok (stf, udf)) :
    stf.vertexParents.getD root.toNat (-1) = -1 ∧
    (∀ v ∈ stf.isVertexDiscovered, v ≠ root.toNat →
      0 ≤ stf.vertexParents.getD v (-1) ∧
      (stf.vertexParents.getD v (-1)).toNat ∈ stf.isVertexDiscovered ∧
      edgeInAdj g (stf.vertexParents.getD v (-1)).toNat ((v : Nat) : Int)) ∧
    (∀ v ∈ stf.isVertexDiscovered, ∃ n,
      ParentChain stf.vertexParents root.toNat v n ∧
      HasDist g root.toNat v n) := by
  have hst0 : bfsStart g = st0 :=
    Except.ok.inj ((bfsCreate_ok g hwf).symm.trans hcreate)
  subst hst0
  by_cases hvalid : iGraphIsValidVertexId g root = true
  · unfold algoGraphBfs at hrun
    rw [if_neg (fun hc => hc.elim (fun h => h rfl) (fun h => h hvalid))]
      at hrun
    have hstf : stf = (iBfsLoop g cb (iBfsFuel g (bfsRootStart g root))
        (bfsRootStart g root, ud)).1 :=
      (congrArg Prod.fst (Except.ok.inj hrun)).symm
    obtain ⟨D2, Q2, d2, hc2, hq2, hm2⟩ :=
      iBfsLoop_inv g hwf cb root.toNat (iBfsFuel g (bfsRootStart g root))
        (bfsRootStart g root) ud (fun _ => 0) [root.toNat] 0
        (bfsInit_core g hwf root hvalid) (by simp) le_rfl
    subst hq2
    refine ⟨?_, ?_, ?_⟩
    · rw [hstf]
      exact hc2.rootPar
    · intro v hv hvr
      rw [hstf] at hv ⊢
      have h4 := hc2.parChain v hv hvr
      exact ⟨h4.1, h4.2.1, h4.2.2.1⟩
    · intro v hv
      rw [hstf] at hv ⊢
      obtain ⟨hchain, hreach⟩ :=
        bfs_parentChain g root.toNat _ D2 [] d2 hc2 (D2 v) v hv rfl
      refine ⟨D2 v, hchain, hreach, ?_⟩
      intro e he hre
      have hlo := (bfs_dist_lower g root.toNat _ D2 d2 hc2 e v hre).2
      omega
  · exfalso
    unfold algoGraphBfs at hrun
    rw [if_pos (Or.inr hvalid)] at hrun
    exact Except.noConfusion hrun

theorem algoGraphBfs_parent_tree_witness :
    bfsS5st.vertexParents.getD (0 : Int).toNat (-1) = -1 ∧
    (∀ v ∈ bfsS5st.isVertexDiscovered, v ≠ (0 : Int).toNat →
      0 ≤ bfsS5st.vertexParents.getD v (-1) ∧
      (bfsS5st.vertexParents.getD v (-1)).toNat ∈
        bfsS5st.isVertexDiscovered ∧
      edgeInAdj graphS5 (bfsS5st.vertexParents.getD v (-1)).toNat
        ((v : Nat) : Int)) ∧
    (∀ v ∈ bfsS5st.isVertexDiscovered, ∃ n,
      ParentChain bfsS5st.vertexParents (0 : Int).toNat v n ∧
      HasDist graphS5 (0 : Int).toNat v n) :=
  algoGraphBfs_parent_tree graphS5
    ⟨by decide, by decide, by decide, by decide, by decide, by decide,
      by decide, by decide, by decide, by decide, by decide⟩
    0
    { vertexFuncEarly := Option.none, edgeFunc := Option.none
      vertexFuncLate := Option.none }
    () bfsS5st0 bfsS5st ()
    (by rfl) (by rfl)
